import Mathlib

/-!
# rtpoll: the real-time poll reactor of PulseAudio (src/pulsecore/rtpoll.c)

A shallow embedding of `pa_rtpoll` and its participants (`pa_rtpoll_item`).

Conventions of the embedding.

* A C `unsigned` is a natural number reduced modulo `UINT_MOD` wherever C would
  wrap around.
* The two heap arrays `pollfd` and `pollfd2` are lists of cells; the length of
  the list is the allocated capacity. A cell is `none` while it has never been
  written (the memory returned by `pa_xnew` / `pa_xrealloc` is not initialised).
* `i->pollfd` is `none` for `NULL` and `some off` for a pointer to entry `off`
  of the array that `p->pollfd` designates: every pointer the source
  stores in an item is taken from `p->pollfd2` immediately before that array
  becomes `p->pollfd` (lines 207 and 216).
* A `pa_rtpoll_item *` handle is the number `id` of the heap object.
* Function pointers are numbers; what the pointed-to hook does when it is
  invoked is given by a `Hooks` environment: the sequence of public
  operations it performs on the reactor and, for a pre-wait hook, the value it
  returns.
* Reading or writing outside an allocation, and using a handle that is no longer
  linked, is `Err.ub`; a failing `pa_assert` is `Err.assertion`.
-/

namespace Rtpoll

/-- Number of values of the C type `unsigned` (32 bits). -/
def UINT_MOD : Nat := 4294967296

/-- Number of values of `pa_usec_t` (a 64 bit unsigned integer). -/
def USEC_MOD : Nat := 18446744073709551616

/-- The value of `EINTR` in errno.h. -/
def EINTR : Int := 4

/-- The value of `EAGAIN` in errno.h. -/
def EAGAIN : Int := 11

/-- One entry of the array handed to poll: `struct pollfd`. -/
structure pollfd where
  fd : Int
  events : Int
  revents : Int
deriving DecidableEq, Repr

/-- A memory cell of a `struct pollfd` array; `none` is a cell never written. -/
abbrev Cell := Option pollfd

/-- A heap array of `struct pollfd`; its length is the allocated capacity. -/
abbrev Buffer := List Cell

/-- The preprocessor symbols the source tests. -/
structure Build where
  HAVE_PPOLL : Bool
  linux : Bool
deriving DecidableEq, Repr

/-- The ways an operation can fail to return normally. -/
inductive Err where
  | assertion
  | ub
  | fuel
deriving DecidableEq, Repr

/-- Outcome of an operation: a value, or the reason it did not return. -/
inductive Res (α : Type) where
  | ok (a : α)
  | error (e : Err)
deriving DecidableEq, Repr

/-- The participant: `struct pa_rtpoll_item`. The list linkage is the position in
`pa_rtpoll.items`; the back pointer `rtpoll` is the reactor that holds the list. -/
structure pa_rtpoll_item where
  id : Nat
  dead : Bool
  pollfd : Option Nat
  n_pollfd : Nat
  before_cb : Option Nat
  after_cb : Option Nat
  userdata : Option Nat
deriving DecidableEq, Repr

/-- The reactor: `struct pa_rtpoll`. `next_id` is the allocator: the address the
next `pa_rtpoll_item` object gets. -/
structure pa_rtpoll where
  pollfd : Buffer
  pollfd2 : Buffer
  n_pollfd_alloc : Nat
  n_pollfd_used : Nat
  interval : Nat
  scan_for_dead : Bool
  running : Bool
  installed : Bool
  rebuild_needed : Bool
  rtsig : Int
  interval_timespec : Nat
  dont_use_ppoll : Bool
  items : List pa_rtpoll_item
  next_id : Nat
deriving DecidableEq, Repr

/-- The zeroed entry written by `memset(e, 0, l)`. -/
def zero_pollfd : pollfd := { fd := 0, events := 0, revents := 0 }

/-- Allocation of `n` entries (`pa_xnew(struct pollfd, n)`): nothing is initialised. -/
def pa_xnew (n : Nat) : Buffer := List.replicate n none

/-- Resizing an array to `n` entries (`pa_xrealloc`): the common part is kept. -/
def pa_xrealloc (buf : Buffer) (n : Nat) : Buffer :=
  buf.take n ++ List.replicate (n - buf.length) none

/-- Copy of `n` entries from `src + off` to `dst + e` (`memcpy`, bounds checked by the caller). -/
def memcpy (dst : Buffer) (e : Nat) (src : Buffer) (off n : Nat) : Buffer :=
  dst.take e ++ ((src.drop off).take n ++ dst.drop (e + n))

/-- Zero filling of `n` entries at `dst + e` (`memset`, bounds checked by the caller). -/
def memset (dst : Buffer) (e n : Nat) : Buffer :=
  dst.take e ++ (List.replicate n (some zero_pollfd) ++ dst.drop (e + n))

/-- The test of lines 106-109: the release string does not parse (`none`) or
names a kernel older than 2.6.16. -/
def kernel_too_old : Option (Nat × Nat × Nat) → Bool
  | none => true
  | some (major, minor, micro) =>
    decide (major < 2) || (major == 2 && decide (minor < 6)) ||
      (major == 2 && minor == 6 && decide (micro < 16))

/-- Lines 88-138. `release` is what `sscanf` reads from `uname`. -/
def pa_rtpoll_new (b : Build) (release : Option (Nat × Nat × Nat)) : pa_rtpoll :=
  { pollfd := pa_xnew 32
    pollfd2 := pa_xnew 32
    n_pollfd_alloc := 32
    n_pollfd_used := 0
    interval := 0
    scan_for_dead := false
    running := false
    installed := false
    rebuild_needed := false
    rtsig := -1
    interval_timespec := 0
    dont_use_ppoll := b.HAVE_PPOLL && b.linux && kernel_too_old release
    items := []
    next_id := 0 }

/-- Lines 140-176. `rtsig` is the value `pa_rtsig_get_for_thread` returns; the signal mask
and the handler live in the operating system and are not part of the state. -/
def pa_rtpoll_install (b : Build) (rtsig : Int) (p : pa_rtpoll) : Res pa_rtpoll :=
  if p.installed then .error .assertion
  else if !b.HAVE_PPOLL then .ok { p with installed := true }
  else if p.dont_use_ppoll then .ok { p with installed := true }
  else .ok { p with installed := true, rtsig := rtsig }

/-- Body of the loop of lines 197-212 for one item: `prim` is the array the item points
into, `t` the array being filled and `e` the cursor into it. -/
def rebuild_item (i : pa_rtpoll_item) (prim : Buffer) (e : Nat) (t : Buffer) :
    Res (pa_rtpoll_item × Buffer) :=
  if 0 < i.n_pollfd then
    match i.pollfd with
    | some off =>
      if off + i.n_pollfd ≤ prim.length ∧ e + i.n_pollfd ≤ t.length then
        .ok ({ i with pollfd := some e }, memcpy t e prim off i.n_pollfd)
      else .error .ub
    | none =>
      if e + i.n_pollfd ≤ t.length then
        .ok ({ i with pollfd := some e }, memset t e i.n_pollfd)
      else .error .ub
  else .ok ({ i with pollfd := none }, t)

/-- The loop of lines 197-212: returns the items with their new pointers, the final
cursor and the filled array. -/
def rebuild_items : List pa_rtpoll_item → Buffer → Nat → Buffer →
    Res (List pa_rtpoll_item × Nat × Buffer)
  | [], _, e, t => .ok ([], e, t)
  | i :: rest, prim, e, t =>
    match rebuild_item i prim e t with
    | .error err => .error err
    | .ok (i1, t1) =>
      match rebuild_items rest prim (e + i.n_pollfd) t1 with
      | .error err => .error err
      | .ok (rest1, e1, t2) => .ok (i1 :: rest1, e1, t2)

/-- Lines 178-222. -/
def rtpoll_rebuild (p : pa_rtpoll) : Res pa_rtpoll :=
  let ra := decide (p.n_pollfd_used > p.n_pollfd_alloc)
  let alloc := if ra then (p.n_pollfd_used * 2) % UINT_MOD else p.n_pollfd_alloc
  let scratch := if ra then pa_xrealloc p.pollfd2 alloc else p.pollfd2
  match rebuild_items p.items p.pollfd 0 scratch with
  | .error err => .error err
  | .ok (items, e, t) =>
    if e % UINT_MOD = p.n_pollfd_used then
      .ok { p with
        rebuild_needed := false
        n_pollfd_alloc := alloc
        items := items
        pollfd := t
        pollfd2 := if ra then pa_xrealloc p.pollfd alloc else p.pollfd }
    else .error .assertion

/-- The item a handle designates, when it is linked. -/
def find_item (p : pa_rtpoll) (h : Nat) : Option pa_rtpoll_item :=
  p.items.find? (fun i => i.id == h)

/-- Assignment to fields of the item with handle `h`. -/
def update_item (h : Nat) (f : pa_rtpoll_item → pa_rtpoll_item) (l : List pa_rtpoll_item) :
    List pa_rtpoll_item :=
  l.map (fun i => if i.id = h then f i else i)

/-- The list after unlinking the node with handle `h`. -/
def PA_LLIST_REMOVE (h : Nat) : List pa_rtpoll_item → List pa_rtpoll_item
  | [] => []
  | x :: xs => if x.id = h then xs else x :: PA_LLIST_REMOVE h xs

/-- Lines 224-239. -/
def rtpoll_item_destroy (p : pa_rtpoll) (h : Nat) : Res pa_rtpoll :=
  match find_item p h with
  | none => .error .ub
  | some i =>
    .ok { p with
      items := PA_LLIST_REMOVE h p.items
      n_pollfd_used := (p.n_pollfd_used + UINT_MOD - i.n_pollfd % UINT_MOD) % UINT_MOD
      rebuild_needed := true }

/-- Lines 345-386; the POSIX timer lives in the operating system and is not part of the
state. `interval_timespec` holds the duration stored by `pa_timespec_store`. -/
def pa_rtpoll_set_itimer (p : pa_rtpoll) (usec : Nat) : pa_rtpoll :=
  { p with interval := usec % USEC_MOD, interval_timespec := usec % USEC_MOD }

/-- Lines 388-412. The argument is an `unsigned`; the new handle is returned. -/
def pa_rtpoll_item_new (p : pa_rtpoll) (n_fds : Nat) : Res (pa_rtpoll × Nat) :=
  if n_fds % UINT_MOD = 0 then .error .assertion
  else
    .ok ({ p with
      items := { id := p.next_id, dead := false, pollfd := none, n_pollfd := n_fds % UINT_MOD,
                 before_cb := none, after_cb := none, userdata := none } :: p.items
      rebuild_needed := true
      n_pollfd_used := (p.n_pollfd_used + n_fds % UINT_MOD) % UINT_MOD
      next_id := p.next_id + 1 }, p.next_id)

/-- Lines 414-424. -/
def pa_rtpoll_item_free (p : pa_rtpoll) (h : Nat) : Res pa_rtpoll :=
  match find_item p h with
  | none => .error .ub
  | some _ =>
    if p.running then
      .ok { p with
        items := update_item h (fun i => { i with dead := true }) p.items
        scan_for_dead := true }
    else rtpoll_item_destroy p h

/-- Lines 426-436: returns the state, the pointer `i->pollfd` and the value stored in `*n_fds`. -/
def pa_rtpoll_item_get_pollfd (p : pa_rtpoll) (h : Nat) : Res (pa_rtpoll × Option Nat × Nat) :=
  match find_item p h with
  | none => .error .ub
  | some _ =>
    match (if p.rebuild_needed then rtpoll_rebuild p else .ok p) with
    | .error err => .error err
    | .ok p1 =>
      match find_item p1 h with
      | none => .error .ub
      | some i => .ok (p1, i.pollfd, i.n_pollfd)

/-- Lines 438-442. -/
def pa_rtpoll_item_set_before_callback (p : pa_rtpoll) (h : Nat) (cb : Option Nat) :
    Res pa_rtpoll :=
  match find_item p h with
  | none => .error .ub
  | some _ => .ok { p with items := update_item h (fun i => { i with before_cb := cb }) p.items }

/-- Lines 444-448. -/
def pa_rtpoll_item_set_after_callback (p : pa_rtpoll) (h : Nat) (cb : Option Nat) :
    Res pa_rtpoll :=
  match find_item p h with
  | none => .error .ub
  | some _ => .ok { p with items := update_item h (fun i => { i with after_cb := cb }) p.items }

/-- Lines 450-454. -/
def pa_rtpoll_item_set_userdata (p : pa_rtpoll) (h : Nat) (u : Option Nat) : Res pa_rtpoll :=
  match find_item p h with
  | none => .error .ub
  | some _ => .ok { p with items := update_item h (fun i => { i with userdata := u }) p.items }

/-- The way the owner of a participant fills a slot: `pa_rtpoll_item_get_pollfd` followed by
a store to entry `k` of the returned slice. -/
def store_slot (p : pa_rtpoll) (h k : Nat) (v : pollfd) : Res pa_rtpoll :=
  match pa_rtpoll_item_get_pollfd p h with
  | .error err => .error err
  | .ok (p1, ptr, n) =>
    match ptr with
    | none => .error .ub
    | some off =>
      if k < n ∧ off + k < p1.pollfd.length then
        .ok { p1 with pollfd := p1.pollfd.set (off + k) (some v) }
      else .error .ub

/-- An operation of the public interface applied to a reactor by its owning thread,
between iterations or from inside a hook. -/
inductive Call where
  | item_new (n_fds : Nat)
  | item_free (i : Nat)
  | item_get_pollfd (i : Nat)
  | store (i k : Nat) (v : pollfd)
  | item_set_before_callback (i : Nat) (cb : Option Nat)
  | item_set_after_callback (i : Nat) (cb : Option Nat)
  | item_set_userdata (i : Nat) (u : Option Nat)
  | set_itimer (usec : Nat)
deriving DecidableEq, Repr

/-- Effect of one call on the reactor. -/
def exec_call (p : pa_rtpoll) : Call → Res pa_rtpoll
  | .item_new n_fds =>
    match pa_rtpoll_item_new p n_fds with
    | .error err => .error err
    | .ok (p1, _) => .ok p1
  | .item_free i => pa_rtpoll_item_free p i
  | .item_get_pollfd i =>
    match pa_rtpoll_item_get_pollfd p i with
    | .error err => .error err
    | .ok (p1, _, _) => .ok p1
  | .store i k v => store_slot p i k v
  | .item_set_before_callback i cb => pa_rtpoll_item_set_before_callback p i cb
  | .item_set_after_callback i cb => pa_rtpoll_item_set_after_callback p i cb
  | .item_set_userdata i u => pa_rtpoll_item_set_userdata p i u
  | .set_itimer usec => .ok (pa_rtpoll_set_itimer p usec)

/-- Effect of a sequence of calls, stopping at the first one that does not return. -/
def exec_calls : pa_rtpoll → List Call → Res pa_rtpoll
  | p, [] => .ok p
  | p, c :: cs =>
    match exec_call p c with
    | .error err => .error err
    | .ok p1 => exec_calls p1 cs

/-- What the hooks do in one iteration: `before cb i` is the sequence of calls the function
`cb` makes when invoked as pre-wait hook of item `i`, and the value it returns; `after cb i`
is the sequence of calls of the post-wait hook. -/
structure Hooks where
  before : Nat → Nat → List Call × Int
  after : Nat → Nat → List Call

/-- What the operating system does in the wait of one iteration: the value the wait
returns, the value of `errno` read at line 311, and the `revents` the kernel stores. -/
structure Sys where
  ret : Int
  errno : Int
  revents : Nat → Int

/-- Observable steps of one iteration, in the order they happen. The flag of a hook
invocation is the value of `p->running` at the time of the invocation. -/
inductive Event where
  | before_cb (cb i : Nat) (running : Bool)
  | after_cb (cb i : Nat) (running : Bool)
  | call (c : Call)
  | rebuild
  | ppoll (nfds : Nat) (timeout : Option Nat) (sigmask : Bool)
  | poll (nfds : Nat) (timeout : Int)
deriving DecidableEq, Repr

/-- The handles of the linked items, from the head of the list. -/
def handles (p : pa_rtpoll) : List Nat := p.items.map (fun i => i.id)

/-- The pre-wait dispatch, lines 266-291 without the unwinding: `todo` holds the handles
from `i` to the tail. The fields of each item are read when the item is reached. Returns
the handle whose hook refused the wait, if one did. The links of the nodes not yet visited
do not change while the loop runs: a running reactor only links new nodes in front of the
head and never unlinks one. -/
def run_before (H : Hooks) : List Nat → pa_rtpoll → Res (pa_rtpoll × List Event × Option Nat)
  | [], p => .ok (p, [], none)
  | h :: rest, p =>
    match find_item p h with
    | none => .error .ub
    | some i =>
      if i.dead then run_before H rest p
      else
        match i.before_cb with
        | none => run_before H rest p
        | some cb =>
          match exec_calls p (H.before cb h).1 with
          | .error err => .error err
          | .ok p1 =>
            if (H.before cb h).2 < 0 then
              .ok (p1, Event.before_cb cb h p.running :: (H.before cb h).1.map Event.call, some h)
            else
              match run_before H rest p1 with
              | .error err => .error err
              | .ok (p2, tr, a) =>
                .ok (p2, Event.before_cb cb h p.running ::
                  ((H.before cb h).1.map Event.call ++ tr), a)

/-- The value of `i->prev` for the node with handle `h`: `none` when the handle is not
linked, `some none` for the head. -/
def llist_prev : List pa_rtpoll_item → Nat → Option Nat → Option (Option Nat)
  | [], _, _ => none
  | x :: xs, h, before => if x.id = h then some before else llist_prev xs h (some x.id)

/-- The unwinding loop of lines 278-287, entered with `i` already moved to its
predecessor. The loop follows `prev` pointers, which reach nodes linked by the hooks it
invokes; `fuel` bounds the number of nodes visited. -/
def run_unwind (H : Hooks) : Nat → Option Nat → pa_rtpoll → Res (pa_rtpoll × List Event)
  | _, none, p => .ok (p, [])
  | 0, some _, _ => .error .fuel
  | fuel + 1, some h, p =>
    match find_item p h with
    | none => .error .ub
    | some i =>
      if i.dead then
        match llist_prev p.items h none with
        | none => .error .ub
        | some pr => run_unwind H fuel pr p
      else
        match i.after_cb with
        | none =>
          match llist_prev p.items h none with
          | none => .error .ub
          | some pr => run_unwind H fuel pr p
        | some cb =>
          match exec_calls p (H.after cb h) with
          | .error err => .error err
          | .ok p1 =>
            match llist_prev p1.items h none with
            | none => .error .ub
            | some pr =>
              match run_unwind H fuel pr p1 with
              | .error err => .error err
              | .ok (p2, tr) =>
                .ok (p2, Event.after_cb cb h p.running :: ((H.after cb h).map Event.call ++ tr))

/-- The post-wait dispatch, lines 314-323, over the handles from `i` to the tail. -/
def run_after (H : Hooks) : List Nat → pa_rtpoll → Res (pa_rtpoll × List Event)
  | [], p => .ok (p, [])
  | h :: rest, p =>
    match find_item p h with
    | none => .error .ub
    | some i =>
      if i.dead then run_after H rest p
      else
        match i.after_cb with
        | none => run_after H rest p
        | some cb =>
          match exec_calls p (H.after cb h) with
          | .error err => .error err
          | .ok p1 =>
            match run_after H rest p1 with
            | .error err => .error err
            | .ok (p2, tr) =>
              .ok (p2, Event.after_cb cb h p.running :: ((H.after cb h).map Event.call ++ tr))

/-- Conversion of a 64 bit unsigned value to `int`, as done for the timeout argument
of `poll`. -/
def to_int (n : Nat) : Int :=
  if n % UINT_MOD < 2147483648 then (n % UINT_MOD : Nat) else ((n % UINT_MOD : Nat) : Int) - 4294967296

/-- The kernel stores `revents` in the first `n` entries of the array. -/
def store_revents (buf : Buffer) (n : Nat) (rev : Nat → Int) : Buffer :=
  (List.range buf.length).zipWith
    (fun k c => if k < n then c.map (fun x => { x with revents := rev k }) else c) buf

/-- Line 302: the call of `ppoll`. -/
def call_ppoll (w : Sys) (p : pa_rtpoll) : Res (pa_rtpoll × Int × List Event) :=
  if p.n_pollfd_used ≤ p.pollfd.length then
    .ok ({ p with pollfd := store_revents p.pollfd p.n_pollfd_used w.revents }, w.ret,
      [Event.ppoll p.n_pollfd_used (if 0 < p.interval then some p.interval_timespec else none)
        (decide (0 ≤ p.rtsig))])
  else .error .ub

/-- Line 308: the call of `poll`. -/
def call_poll (w : Sys) (p : pa_rtpoll) : Res (pa_rtpoll × Int × List Event) :=
  if p.n_pollfd_used ≤ p.pollfd.length then
    .ok ({ p with pollfd := store_revents p.pollfd p.n_pollfd_used w.revents }, w.ret,
      [Event.poll p.n_pollfd_used (if 0 < p.interval then to_int (p.interval / 1000) else -1)])
  else .error .ub

/-- Line 311-312 applied to the value `r`. -/
def normalise (w : Sys) (r : Int) : Int :=
  if r < 0 ∧ (w.errno = EAGAIN ∨ w.errno = EINTR) then 0 else r

/-- Lines 296-312 after preprocessing. With `HAVE_PPOLL` the call of `poll` at line 308 is
not compiled; with `__linux__` as well, the `else` of line 304 takes the statement of
lines 311-312 as its branch. `r` is 0 on entry (line 258). -/
def run_wait (b : Build) (w : Sys) (p : pa_rtpoll) : Res (pa_rtpoll × Int × List Event) :=
  if b.HAVE_PPOLL then
    if b.linux then
      if !p.dont_use_ppoll then call_ppoll w p
      else .ok (p, normalise w 0, [])
    else
      match call_ppoll w p with
      | .error err => .error err
      | .ok (p1, r, tr) => .ok (p1, normalise w r, tr)
  else
    match call_poll w p with
    | .error err => .error err
    | .ok (p1, r, tr) => .ok (p1, normalise w r, tr)

/-- The loop of lines 334-339 over the handles from `i` to the tail; `n = i->next` is read
before the node is destroyed. -/
def run_sweep : List Nat → pa_rtpoll → Res pa_rtpoll
  | [], p => .ok p
  | h :: rest, p =>
    match find_item p h with
    | none => .error .ub
    | some i =>
      if i.dead then
        match rtpoll_item_destroy p h with
        | .error err => .error err
        | .ok p1 => run_sweep rest p1
      else run_sweep rest p

/-- Lines 325-340, from the label `finish`. -/
def run_finish (p : pa_rtpoll) : Res pa_rtpoll :=
  if p.scan_for_dead then
    run_sweep (handles p) { p with running := false, scan_for_dead := false }
  else .ok { p with running := false }

/-- Lines 293-323: the pending rebuild, the wait and the post-wait dispatch. -/
def run_wait_phase (b : Build) (H : Hooks) (w : Sys) (p : pa_rtpoll) :
    Res (pa_rtpoll × Int × List Event) :=
  match (if p.rebuild_needed then
      (match rtpoll_rebuild p with
        | .error err => Res.error err
        | .ok p1 => Res.ok (p1, [Event.rebuild]))
      else Res.ok (p, [])) with
  | .error err => .error err
  | .ok (p1, tr1) =>
    match run_wait b w p1 with
    | .error err => .error err
    | .ok (p2, r, tr2) =>
      match run_after H (handles p2) p2 with
      | .error err => .error err
      | .ok (p3, tr3) => .ok (p3, r, tr1 ++ (tr2 ++ tr3))

/-- Lines 264-323: everything between setting `running` and the label `finish`. Returns
the state at `finish`, the value of `r` and the events. -/
def run_dispatch (b : Build) (H : Hooks) (w : Sys) (fuel : Nat) (p : pa_rtpoll) :
    Res (pa_rtpoll × Int × List Event) :=
  match run_before H (handles p) { p with running := true } with
  | .error err => .error err
  | .ok (p1, tr, some h) =>
    match llist_prev p1.items h none with
    | none => .error .ub
    | some pr =>
      match run_unwind H fuel pr p1 with
      | .error err => .error err
      | .ok (p2, tr2) => .ok (p2, 0, tr ++ tr2)
  | .ok (p1, tr, none) =>
    match run_wait_phase b H w p1 with
    | .error err => .error err
    | .ok (p2, r, tr2) => .ok (p2, r, tr ++ tr2)

/-- Lines 256-343: one iteration. Returns the state, the value returned and the events. -/
def pa_rtpoll_run (b : Build) (H : Hooks) (w : Sys) (fuel : Nat) (p : pa_rtpoll) :
    Res (pa_rtpoll × Int × List Event) :=
  if p.running then .error .assertion
  else if !p.installed then .error .assertion
  else
    match run_dispatch b H w fuel p with
    | .error err => .error err
    | .ok (p1, r, tr) =>
      match run_finish p1 with
      | .error err => .error err
      | .ok p2 => .ok (p2, r, tr)

/-! ## Reachable states and their invariant -/

/-- Sum of the slot counts of a list of items. -/
def slots : List pa_rtpoll_item → Nat
  | [] => 0
  | i :: l => i.n_pollfd + slots l

/-- The items occupy consecutive slices starting at entry `e`, in list order. -/
def laid_out : List pa_rtpoll_item → Nat → Prop
  | [], _ => True
  | i :: l, e => i.pollfd = some e ∧ laid_out l (e + i.n_pollfd)

/-- The `n` cells of a buffer starting at entry `off`. -/
def slice (buf : Buffer) (off n : Nat) : Buffer := (buf.drop off).take n

/-- One step of a program that drives a reactor through its public operations. The last
four constructors are the steps inside `pa_rtpoll_run` between which hooks are invoked:
setting `running` (line 264), the pending rebuild (line 294), the wait (lines 296-312)
and the end of the iteration (lines 325-340). The calls a hook makes are `call` steps
taken while `running` is set. -/
inductive Step (b : Build) : pa_rtpoll → pa_rtpoll → Prop where
  | install (p p1 : pa_rtpoll) (rtsig : Int) :
      pa_rtpoll_install b rtsig p = .ok p1 → Step b p p1
  | call (p p1 : pa_rtpoll) (c : Call) : exec_call p c = .ok p1 → Step b p p1
  | run (p p1 : pa_rtpoll) (H : Hooks) (w : Sys) (fuel : Nat) (r : Int) (tr : List Event) :
      pa_rtpoll_run b H w fuel p = .ok (p1, r, tr) → Step b p p1
  | enter (p : pa_rtpoll) :
      p.running = false → p.installed = true → Step b p { p with running := true }
  | rebuild (p p1 : pa_rtpoll) :
      p.running = true → p.rebuild_needed = true → rtpoll_rebuild p = .ok p1 → Step b p p1
  | wait (p p1 : pa_rtpoll) (w : Sys) (r : Int) (tr : List Event) :
      p.running = true → p.rebuild_needed = false → run_wait b w p = .ok (p1, r, tr) →
      Step b p p1
  | finish (p p1 : pa_rtpoll) : p.running = true → run_finish p = .ok p1 → Step b p p1

/-- The states a reactor created by `pa_rtpoll_new` can be in, between and inside
iterations. -/
inductive Reach (b : Build) : pa_rtpoll → Prop where
  | new (release : Option (Nat × Nat × Nat)) : Reach b (pa_rtpoll_new b release)
  | step (p p1 : pa_rtpoll) : Reach b p → Step b p p1 → Reach b p1

/-- The invariant of the reachable states. -/
structure wf (p : pa_rtpoll) : Prop where
  ids_nodup : (handles p).Nodup
  ids_lt : ∀ i ∈ p.items, i.id < p.next_id
  used_eq : p.n_pollfd_used = slots p.items % UINT_MOD
  n_pos : ∀ i ∈ p.items, 0 < i.n_pollfd ∧ i.n_pollfd < UINT_MOD
  cap1 : p.pollfd.length = p.n_pollfd_alloc
  cap2 : p.pollfd2.length = p.n_pollfd_alloc
  ptr_ok : ∀ i ∈ p.items, ∀ off, i.pollfd = some off → off + i.n_pollfd ≤ p.pollfd.length
  layout : p.rebuild_needed = false → laid_out p.items 0 ∧ slots p.items ≤ p.n_pollfd_alloc
  dead_scan : ∀ i ∈ p.items, i.dead = true → p.scan_for_dead = true
  idle_scan : p.running = false → p.scan_for_dead = false
  alloc_lt : p.n_pollfd_alloc < UINT_MOD

/-- What `rtpoll_rebuild` puts in the slice of item `i`: the cells the item pointed to in
the array `prim`, or zeroes when the item had no slice. -/
def old_slice (prim : Buffer) (i : pa_rtpoll_item) : Buffer :=
  match i.pollfd with
  | some off => slice prim off i.n_pollfd
  | none => List.replicate i.n_pollfd (some zero_pollfd)

/-- The items `l1` are the items `l` moved to consecutive slices of `t` starting at `e`,
each slice holding what the item had in `prim`. -/
def rebuilt (prim t : Buffer) : List pa_rtpoll_item → List pa_rtpoll_item → Nat → Prop
  | [], [], _ => True
  | i :: l, i1 :: l1, e =>
    i1 = { i with pollfd := some e } ∧ slice t e i.n_pollfd = old_slice prim i ∧
      rebuilt prim t l l1 (e + i.n_pollfd)
  | _, _, _ => False

/-- Lines 195-220 of `rtpoll_rebuild` once the capacity `alloc`, the array `scratch` to fill
and the array `other` that ends up as `pollfd2` are fixed. Used to reason about
`rtpoll_rebuild`, which equals it in both cases of the test of line 188. -/
def rebuild_into (p : pa_rtpoll) (alloc : Nat) (scratch other : Buffer) : Res pa_rtpoll :=
  match rebuild_items p.items p.pollfd 0 scratch with
  | .error err => .error err
  | .ok (items, e, t) =>
    if e % UINT_MOD = p.n_pollfd_used then
      .ok { p with
        rebuild_needed := false
        n_pollfd_alloc := alloc
        items := items
        pollfd := t
        pollfd2 := other }
    else .error .assertion

/-- The fields no call of a hook changes. -/
def same_ctl (p p1 : pa_rtpoll) : Prop :=
  p1.running = p.running ∧ p1.installed = p.installed ∧
    p1.dont_use_ppoll = p.dont_use_ppoll ∧ p1.rtsig = p.rtsig

/-! ## Vocabulary for statements about one iteration -/

/-- The fields of an item that decide how it is dispatched: handle, dead flag, slot
count and the two hooks. -/
def core (i : pa_rtpoll_item) : Nat × Bool × Nat × Option Nat × Option Nat :=
  (i.id, i.dead, i.n_pollfd, i.before_cb, i.after_cb)

/-- The dispatch-relevant fields of all linked items, in list order. -/
def skel (l : List pa_rtpoll_item) : List (Nat × Bool × Nat × Option Nat × Option Nat) :=
  l.map core

/-- The pre-wait hook invocation an item gives rise to: none when it is dead or has no
pre-wait hook. -/
def pre_of (i : pa_rtpoll_item) : Option (Nat × Nat) :=
  if i.dead then none else i.before_cb.map (fun cb => (cb, i.id))

/-- The post-wait hook invocation an item gives rise to: none when it is dead or has no
post-wait hook. -/
def post_of (i : pa_rtpoll_item) : Option (Nat × Nat) :=
  if i.dead then none else i.after_cb.map (fun cb => (cb, i.id))

/-- The item's pre-wait hook is invoked and returns a negative value. -/
def refuses (H : Hooks) (i : pa_rtpoll_item) : Bool :=
  match pre_of i with
  | none => false
  | some (cb, h) => decide ((H.before cb h).2 < 0)

/-- The pre-wait hook invocations of a trace, as pairs of hook and item, in order. -/
def pres : List Event → List (Nat × Nat)
  | [] => []
  | Event.before_cb cb i _ :: tr => (cb, i) :: pres tr
  | _ :: tr => pres tr

/-- The post-wait hook invocations of a trace, as pairs of hook and item, in order. -/
def posts : List Event → List (Nat × Nat)
  | [] => []
  | Event.after_cb cb i _ :: tr => (cb, i) :: posts tr
  | _ :: tr => posts tr

/-- The event is a call of `ppoll` or of `poll`. -/
def is_wait : Event → Bool
  | Event.ppoll _ _ _ => true
  | Event.poll _ _ => true
  | _ => false

/-- The wait calls of a trace, in order. -/
def waits (tr : List Event) : List Event := tr.filter is_wait

/-- A call that neither registers nor destroys a participant nor attaches a hook, and
that refers to a linked participant and to one of its slots. -/
def call_quiet (p : pa_rtpoll) : Call → Prop
  | .item_get_pollfd i => i ∈ handles p
  | .store i k _ => ∃ x ∈ p.items, x.id = i ∧ k < x.n_pollfd
  | .item_set_userdata i _ => i ∈ handles p
  | .set_itimer _ => True
  | _ => False

/-- The hooks attached to the linked items only make quiet calls. -/
def hooks_quiet (H : Hooks) (p : pa_rtpoll) : Prop :=
  ∀ x ∈ p.items,
    (∀ cb, x.before_cb = some cb → ∀ c ∈ (H.before cb x.id).1, call_quiet p c) ∧
    (∀ cb, x.after_cb = some cb → ∀ c ∈ H.after cb x.id, call_quiet p c)

/-- What quiet calls leave unchanged: the dispatch fields of the items, the used count,
the scan flag and the control fields. -/
def same_shape (p p1 : pa_rtpoll) : Prop :=
  skel p1.items = skel p.items ∧ p1.n_pollfd_used = p.n_pollfd_used ∧
    p1.scan_for_dead = p.scan_for_dead ∧ same_ctl p p1

/-- Events of the pre-wait dispatch: a pre-wait hook invocation or a call made by a hook. -/
def pre_phase : Event → Bool
  | Event.before_cb _ _ _ => true
  | Event.call _ => true
  | _ => false

/-- Events of a post-wait dispatch or of the unwinding: a post-wait hook invocation or a
call made by a hook. -/
def post_phase : Event → Bool
  | Event.after_cb _ _ _ => true
  | Event.call _ => true
  | _ => false

/-- The handle of the last item of a list, or `bef` when the list is empty. -/
def last_handle : List pa_rtpoll_item → Option Nat → Option Nat
  | [], bef => bef
  | x :: l, _ => last_handle l (some x.id)

/-! ## Concrete scenarios -/

/-- A build without `ppoll`. -/
def plain_build : Build := { HAVE_PPOLL := false, linux := false }

/-- A Linux build with `ppoll`. -/
def linux_build : Build := { HAVE_PPOLL := true, linux := true }

/-- A wait that times out: it returns 0 and reports no event. -/
def timeout_sys : Sys := { ret := 0, errno := 0, revents := fun _ => 0 }

/-- A wait interrupted by a signal: it returns -1 with `errno` set to `EINTR`. -/
def eintr_sys : Sys := { ret := -1, errno := EINTR, revents := fun _ => 0 }

/-- The calls that register three participants with 1, 2 and 1 slots (handles 0, 1, 2)
and give the participant with handle `h` the hooks `10 + h` and `20 + h`. -/
def abort_setup : List Call :=
  [.item_new 1, .item_new 2, .item_new 1,
   .item_set_before_callback 0 (some 10), .item_set_after_callback 0 (some 20),
   .item_set_before_callback 1 (some 11), .item_set_after_callback 1 (some 21),
   .item_set_before_callback 2 (some 12), .item_set_after_callback 2 (some 22)]

/-- The installed reactor after `abort_setup`: the list is 2, 1, 0. -/
def abort_demo : pa_rtpoll :=
  { pollfd := pa_xnew 32
    pollfd2 := pa_xnew 32
    n_pollfd_alloc := 32
    n_pollfd_used := 4
    interval := 0
    scan_for_dead := false
    running := false
    installed := true
    rebuild_needed := true
    rtsig := -1
    interval_timespec := 0
    dont_use_ppoll := false
    items :=
      [{ id := 2, dead := false, pollfd := none, n_pollfd := 1, before_cb := some 12,
         after_cb := some 22, userdata := none },
       { id := 1, dead := false, pollfd := none, n_pollfd := 2, before_cb := some 11,
         after_cb := some 21, userdata := none },
       { id := 0, dead := false, pollfd := none, n_pollfd := 1, before_cb := some 10,
         after_cb := some 20, userdata := none }]
    next_id := 3 }

/-- Hooks for `abort_demo`: the pre-wait hook of participant 2 fetches its slice and
accepts the wait, the pre-wait hook of participant 1 refuses it, the post-wait hook of
participant 2 sets the interval. -/
def abort_hooks : Hooks :=
  { before := fun cb h =>
      if cb = 12 ∧ h = 2 then ([Call.item_get_pollfd 2, Call.store 2 0 ⟨5, 1, 0⟩], 0)
      else if cb = 11 ∧ h = 1 then ([Call.item_set_userdata 1 (some 7)], -1)
      else ([], 0)
    after := fun cb h => if cb = 22 ∧ h = 2 then [Call.set_itimer 1000] else [] }

/-- The build and state in which lines 296-312 compile to no wait call at all: `HAVE_PPOLL`
and `__linux__` are defined and `dont_use_ppoll` is set. -/
def wait_skipped (b : Build) (p : pa_rtpoll) : Bool :=
  b.HAVE_PPOLL && b.linux && p.dont_use_ppoll

/-- The calls that register participant A with 1 slot (handle 0), then participant B with
2 slots (handle 1), and give them the hooks 10, 20 and 11, 21. -/
def pair_setup : List Call :=
  [.item_new 1, .item_new 2,
   .item_set_before_callback 0 (some 10), .item_set_after_callback 0 (some 20),
   .item_set_before_callback 1 (some 11), .item_set_after_callback 1 (some 21)]

/-- The reactor of a Linux build with a working `ppoll`, installed with signal 34, after
`pair_setup`: the list is B, A. -/
def pair_demo : pa_rtpoll :=
  { pollfd := pa_xnew 32
    pollfd2 := pa_xnew 32
    n_pollfd_alloc := 32
    n_pollfd_used := 3
    interval := 0
    scan_for_dead := false
    running := false
    installed := true
    rebuild_needed := true
    rtsig := 34
    interval_timespec := 0
    dont_use_ppoll := false
    items :=
      [{ id := 1, dead := false, pollfd := none, n_pollfd := 2, before_cb := some 11,
         after_cb := some 21, userdata := none },
       { id := 0, dead := false, pollfd := none, n_pollfd := 1, before_cb := some 10,
         after_cb := some 20, userdata := none }]
    next_id := 2 }

/-- Hooks for `pair_demo`: the pre-wait hook of A stores descriptor 5 in its slot, the
pre-wait hook of B stores descriptors 6 and 7; both accept the wait. -/
def pair_hooks : Hooks :=
  { before := fun cb h =>
      if cb = 10 ∧ h = 0 then ([Call.store 0 0 ⟨5, 1, 0⟩], 0)
      else if cb = 11 ∧ h = 1 then ([Call.store 1 0 ⟨6, 1, 0⟩, Call.store 1 1 ⟨7, 1, 0⟩], 0)
      else ([], 0)
    after := fun _ _ => [] }

/-- The reactor of a Linux build with `ppoll` created on a kernel 2.6.15 (so that
`dont_use_ppoll` is set), installed, after `pair_setup`. -/
def old_kernel_demo : pa_rtpoll :=
  { pollfd := pa_xnew 32
    pollfd2 := pa_xnew 32
    n_pollfd_alloc := 32
    n_pollfd_used := 3
    interval := 0
    scan_for_dead := false
    running := false
    installed := true
    rebuild_needed := true
    rtsig := -1
    interval_timespec := 0
    dont_use_ppoll := true
    items :=
      [{ id := 1, dead := false, pollfd := none, n_pollfd := 2, before_cb := some 11,
         after_cb := some 21, userdata := none },
       { id := 0, dead := false, pollfd := none, n_pollfd := 1, before_cb := some 10,
         after_cb := some 20, userdata := none }]
    next_id := 2 }

/-- The reactor `pair_demo` inside an iteration, after a hook has called
`pa_rtpoll_item_free` on participant A: A is flagged dead and still linked. -/
def deferred_demo : pa_rtpoll :=
  { pollfd := pa_xnew 32
    pollfd2 := pa_xnew 32
    n_pollfd_alloc := 32
    n_pollfd_used := 3
    interval := 0
    scan_for_dead := true
    running := true
    installed := true
    rebuild_needed := true
    rtsig := 34
    interval_timespec := 0
    dont_use_ppoll := false
    items :=
      [{ id := 1, dead := false, pollfd := none, n_pollfd := 2, before_cb := some 11,
         after_cb := some 21, userdata := none },
       { id := 0, dead := true, pollfd := none, n_pollfd := 1, before_cb := some 10,
         after_cb := some 20, userdata := none }]
    next_id := 2 }

/-- The new reactor of `plain_build` after registering participants with 1, 2 and 1 slots
(handles 0, 1, 2) and destroying the one with handle 1. -/
def layout_demo : pa_rtpoll :=
  { pollfd := pa_xnew 32
    pollfd2 := pa_xnew 32
    n_pollfd_alloc := 32
    n_pollfd_used := 2
    interval := 0
    scan_for_dead := false
    running := false
    installed := false
    rebuild_needed := true
    rtsig := -1
    interval_timespec := 0
    dont_use_ppoll := false
    items :=
      [{ id := 2, dead := false, pollfd := none, n_pollfd := 1, before_cb := none,
         after_cb := none, userdata := none },
       { id := 0, dead := false, pollfd := none, n_pollfd := 1, before_cb := none,
         after_cb := none, userdata := none }]
    next_id := 3 }

/-- The new reactor of `plain_build` after registering a participant with 1 slot (handle
0), storing descriptor 5 in its slot, and registering a participant with 40 slots (handle
1): 41 slots are used and the capacity is still 32. -/
def grow_demo : pa_rtpoll :=
  { pollfd := some ⟨5, 1, 0⟩ :: List.replicate 31 none
    pollfd2 := pa_xnew 32
    n_pollfd_alloc := 32
    n_pollfd_used := 41
    interval := 0
    scan_for_dead := false
    running := false
    installed := false
    rebuild_needed := true
    rtsig := -1
    interval_timespec := 0
    dont_use_ppoll := false
    items :=
      [{ id := 1, dead := false, pollfd := none, n_pollfd := 40, before_cb := none,
         after_cb := none, userdata := none },
       { id := 0, dead := false, pollfd := some 0, n_pollfd := 1, before_cb := none,
         after_cb := none, userdata := none }]
    next_id := 2 }

/-- The reactor `pair_demo` right after `pa_rtpoll_run` has set `running` (line 264). -/
def running_demo : pa_rtpoll := { pair_demo with running := true }

/-- Hooks for `pair_demo` in which the pre-wait hook of B destroys A and fills its own
first slot. -/
def free_hooks : Hooks :=
  { before := fun cb h =>
      if cb = 11 ∧ h = 1 then ([Call.item_free 0, Call.store 1 0 ⟨6, 1, 0⟩], 0) else ([], 0)
    after := fun _ _ => [] }

/-- The state in which the iteration of `pair_demo` with `free_hooks` returns. -/
def swept_demo : pa_rtpoll :=
  { pollfd := some ⟨6, 1, 0⟩ :: some zero_pollfd :: some zero_pollfd :: List.replicate 29 none
    pollfd2 := pa_xnew 32
    n_pollfd_alloc := 32
    n_pollfd_used := 2
    interval := 0
    scan_for_dead := false
    running := false
    installed := true
    rebuild_needed := true
    rtsig := 34
    interval_timespec := 0
    dont_use_ppoll := false
    items :=
      [{ id := 1, dead := false, pollfd := some 0, n_pollfd := 2, before_cb := some 11,
         after_cb := some 21, userdata := none }]
    next_id := 2 }

/-- The events of the iteration of `pair_demo` with `free_hooks`. -/
def swept_trace : List Event :=
  [Event.before_cb 11 1 true, Event.call (Call.item_free 0),
   Event.call (Call.store 1 0 ⟨6, 1, 0⟩), Event.ppoll 3 none true, Event.after_cb 21 1 true]

/-- The value of `running` recorded in a hook invocation; `none` for the other events. -/
def hook_flag : Event → Option Bool
  | Event.before_cb _ _ rn => some rn
  | Event.after_cb _ _ rn => some rn
  | _ => none

/-- The item that `pa_rtpoll_item_new` links for a participant with `c` slots when the
allocator hands out the handle `k`. -/
def fresh_item (k c : Nat) : pa_rtpoll_item :=
  { id := k, dead := false, pollfd := none, n_pollfd := c, before_cb := none,
    after_cb := none, userdata := none }

/-- The items created by registering participants with the slot counts `cs`, in
registration order, the first one getting the handle `m`. -/
def fresh_items : Nat → List Nat → List pa_rtpoll_item
  | _, [] => []
  | m, c :: cs => fresh_item m c :: fresh_items (m + 1) cs

/-- The items the pre-wait dispatch reaches: those up to and including the first one
whose pre-wait hook refuses the wait. -/
def dispatched (H : Hooks) : List pa_rtpoll_item → List pa_rtpoll_item
  | [] => []
  | x :: l => if refuses H x then [x] else x :: dispatched H l

/-- Hooks that make no call and accept the wait. -/
def silent_hooks : Hooks := { before := fun _ _ => ([], 0), after := fun _ _ => [] }

/-- A wait that fails for good: it returns -1 with `errno` set to `EBADF` (9). -/
def ebadf_sys : Sys := { ret := -1, errno := 9, revents := fun _ => 0 }

/-- The calls that register participant Y (handle 0) and then participant X (handle 1),
one slot each, and give Y only a pre-wait hook (10) and X only a post-wait hook (21). -/
def unpaired_setup : List Call :=
  [.item_new 1, .item_new 1,
   .item_set_before_callback 0 (some 10), .item_set_after_callback 1 (some 21)]

/-- The installed reactor after `unpaired_setup`: the list is X, Y. -/
def unpaired_demo : pa_rtpoll :=
  { pollfd := pa_xnew 32
    pollfd2 := pa_xnew 32
    n_pollfd_alloc := 32
    n_pollfd_used := 2
    interval := 0
    scan_for_dead := false
    running := false
    installed := true
    rebuild_needed := true
    rtsig := -1
    interval_timespec := 0
    dont_use_ppoll := false
    items :=
      [{ id := 1, dead := false, pollfd := none, n_pollfd := 1, before_cb := none,
         after_cb := some 21, userdata := none },
       { id := 0, dead := false, pollfd := none, n_pollfd := 1, before_cb := some 10,
         after_cb := none, userdata := none }]
    next_id := 2 }

/-- Hooks for `unpaired_demo`: the pre-wait hook of Y refuses the wait; no hook makes a
call. -/
def unpaired_hooks : Hooks :=
  { before := fun cb h => if cb = 10 ∧ h = 0 then ([], -1) else ([], 0)
    after := fun _ _ => [] }

/-- The item whose hook an event invokes; `none` for the other events. -/
def hook_item : Event → Option Nat
  | Event.before_cb _ i _ => some i
  | Event.after_cb _ i _ => some i
  | _ => none

/-- A linked item with handle `h` has its `dead` flag set. -/
def dead_in (l : List pa_rtpoll_item) (h : Nat) : Bool :=
  l.any (fun i => i.id == h && i.dead)

/-- The handles passed to `pa_rtpoll_item_free` so far, after one more event. -/
def step_freed (D : List Nat) : Event → List Nat
  | Event.call (Call.item_free h) => h :: D
  | _ => D

/-- No event of the trace invokes a hook of an item of `D`, or of an item that an earlier
event of the trace passed to `pa_rtpoll_item_free`. -/
def respects : List Nat → List Event → Bool
  | _, [] => true
  | D, e :: tr =>
    (match hook_item e with
      | some h => decide (h ∉ D)
      | none => true) && respects (step_freed D e) tr

/-- What a stretch of an iteration with the events `tr`, leading from `p` to `q`, keeps when
the reactor is running in `p`: the reactor is still running in `q`; if the items of `D` are
linked and dead in `p`, no event of `tr` invokes a hook of an item of `D` or of an item
passed to `pa_rtpoll_item_free` earlier in `tr`, and all these items are linked and dead
in `q`. -/
def keeps_dead (p : pa_rtpoll) (tr : List Event) (q : pa_rtpoll) : Prop :=
  p.running = true → q.running = true ∧
    ∀ D : List Nat, (∀ h ∈ D, dead_in p.items h = true) →
      respects D tr = true ∧ ∀ h ∈ tr.foldl step_freed D, dead_in q.items h = true

end Rtpoll

namespace Rtpoll

/-! ## Lists of items -/

theorem find_item_some {p : pa_rtpoll} {h : Nat} {i : pa_rtpoll_item}
    (hf : find_item p h = some i) : i ∈ p.items ∧ i.id = h := by
  unfold find_item at hf
  have h1 := List.find?_some hf
  have h2 := List.mem_of_find?_eq_some hf
  exact ⟨h2, by simpa using h1⟩

theorem find_item_of_mem {p : pa_rtpoll} {h : Nat} (hm : h ∈ handles p) :
    ∃ i, find_item p h = some i := by
  unfold handles at hm
  obtain ⟨x, hx, hxh⟩ := List.mem_map.1 hm
  cases hf : find_item p h with
  | some i => exact ⟨i, rfl⟩
  | none =>
    unfold find_item at hf
    have := List.find?_eq_none.1 hf x hx
    simp [hxh] at this

theorem find_item_none {p : pa_rtpoll} {h : Nat} (hf : find_item p h = none) :
    h ∉ handles p := by
  intro hm
  obtain ⟨i, hi⟩ := find_item_of_mem hm
  simp [hi] at hf

theorem find_mem_nodup {l : List pa_rtpoll_item} (hn : (l.map (fun i => i.id)).Nodup)
    {x : pa_rtpoll_item} (hx : x ∈ l) : l.find? (fun i => i.id == x.id) = some x := by
  induction l with
  | nil => cases hx
  | cons y l ih =>
    simp only [List.map_cons, List.nodup_cons] at hn
    rcases List.mem_cons.1 hx with rfl | hx'
    · simp
    · have hne : y.id ≠ x.id := by
        intro he
        apply hn.1
        rw [he]
        exact List.mem_map_of_mem _ hx'
      rw [List.find?_cons_of_neg _ (by simpa using hne)]
      exact ih hn.2 hx'

theorem find_item_mem_nodup {p : pa_rtpoll} (hn : (handles p).Nodup) {x : pa_rtpoll_item}
    (hx : x ∈ p.items) : find_item p x.id = some x :=
  find_mem_nodup hn hx

theorem update_item_ids (h : Nat) (f : pa_rtpoll_item → pa_rtpoll_item)
    (hf : ∀ i, (f i).id = i.id) (l : List pa_rtpoll_item) :
    (update_item h f l).map (fun i => i.id) = l.map (fun i => i.id) := by
  induction l with
  | nil => rfl
  | cons x l ih =>
    simp only [update_item, List.map_cons] at ih ⊢
    rw [ih]
    by_cases hx : x.id = h <;> simp [hx, hf]

theorem mem_update_item {h : Nat} {f : pa_rtpoll_item → pa_rtpoll_item}
    {l : List pa_rtpoll_item} {x : pa_rtpoll_item} (hx : x ∈ update_item h f l) :
    ∃ y ∈ l, x = y ∨ x = f y := by
  unfold update_item at hx
  obtain ⟨y, hy, rfl⟩ := List.mem_map.1 hx
  refine ⟨y, hy, ?_⟩
  by_cases hc : y.id = h <;> simp [hc]

theorem slots_update_item (h : Nat) (f : pa_rtpoll_item → pa_rtpoll_item)
    (hf : ∀ i, (f i).n_pollfd = i.n_pollfd) (l : List pa_rtpoll_item) :
    slots (update_item h f l) = slots l := by
  induction l with
  | nil => rfl
  | cons x l ih =>
    simp only [update_item, List.map_cons, slots] at ih ⊢
    rw [ih]
    by_cases hx : x.id = h <;> simp [hx, hf]

theorem laid_out_update_item (h : Nat) (f : pa_rtpoll_item → pa_rtpoll_item)
    (hf : ∀ i, (f i).n_pollfd = i.n_pollfd ∧ (f i).pollfd = i.pollfd)
    (l : List pa_rtpoll_item) (e : Nat) :
    laid_out (update_item h f l) e ↔ laid_out l e := by
  induction l generalizing e with
  | nil => simp [update_item, laid_out]
  | cons x l ih =>
    simp only [update_item, List.map_cons, laid_out] at ih ⊢
    by_cases hx : x.id = h
    · simp only [hx, if_true, (hf x).1, (hf x).2]
      rw [ih]
    · simp only [hx, if_false]
      rw [ih]

theorem slots_append (l1 l2 : List pa_rtpoll_item) : slots (l1 ++ l2) = slots l1 + slots l2 := by
  induction l1 with
  | nil => simp [slots]
  | cons x l ih => simp [slots, ih, Nat.add_assoc]

theorem remove_mem {h : Nat} {l : List pa_rtpoll_item} {x : pa_rtpoll_item}
    (hx : x ∈ PA_LLIST_REMOVE h l) : x ∈ l := by
  induction l with
  | nil => cases hx
  | cons y l ih =>
    simp only [PA_LLIST_REMOVE] at hx
    by_cases hy : y.id = h
    · simp only [hy, if_true] at hx
      exact List.mem_cons_of_mem _ hx
    · simp only [hy, if_false] at hx
      rcases List.mem_cons.1 hx with rfl | hx'
      · exact List.mem_cons_self _ _
      · exact List.mem_cons_of_mem _ (ih hx')

theorem remove_sublist (h : Nat) (l : List pa_rtpoll_item) :
    List.Sublist (PA_LLIST_REMOVE h l) l := by
  induction l with
  | nil => exact List.Sublist.slnil
  | cons y l ih =>
    simp only [PA_LLIST_REMOVE]
    by_cases hy : y.id = h
    · simp only [hy, if_true]
      exact List.sublist_cons_self _ _
    · simp only [hy, if_false]
      exact ih.cons₂ _

theorem slots_remove {h : Nat} {l : List pa_rtpoll_item} {i : pa_rtpoll_item}
    (hf : l.find? (fun x => x.id == h) = some i) :
    slots (PA_LLIST_REMOVE h l) + i.n_pollfd = slots l := by
  induction l with
  | nil => simp at hf
  | cons y l ih =>
    simp only [PA_LLIST_REMOVE]
    by_cases hy : y.id = h
    · simp only [hy, if_true]
      rw [List.find?_cons_of_pos _ (by simpa using hy)] at hf
      cases hf
      simp [slots, Nat.add_comm]
    · simp only [hy, if_false]
      rw [List.find?_cons_of_neg _ (by simpa using hy)] at hf
      have := ih hf
      simp only [slots]
      omega

end Rtpoll

namespace Rtpoll

/-! ## Buffers -/

theorem pa_xrealloc_length (buf : Buffer) (n : Nat) : (pa_xrealloc buf n).length = n := by
  simp only [pa_xrealloc, List.length_append, List.length_take, List.length_replicate]
  omega

theorem memcpy_length {dst src : Buffer} {e off n : Nat} (h1 : off + n ≤ src.length)
    (h2 : e + n ≤ dst.length) : (memcpy dst e src off n).length = dst.length := by
  simp only [memcpy, List.length_append, List.length_take, List.length_drop]
  omega

theorem memset_length {dst : Buffer} {e n : Nat} (h2 : e + n ≤ dst.length) :
    (memset dst e n).length = dst.length := by
  simp only [memset, List.length_append, List.length_take, List.length_drop,
    List.length_replicate]
  omega

theorem take_append_left_of_le {α : Type} {a b : List α} {e : Nat} (h : e ≤ a.length) :
    (a ++ b).take e = a.take e := by
  rw [List.take_append_of_le_length h]

theorem memcpy_take {dst src : Buffer} {e off n : Nat} (h2 : e + n ≤ dst.length) :
    (memcpy dst e src off n).take e = dst.take e := by
  unfold memcpy
  rw [List.take_append_of_le_length (by simp; omega)]
  simp

theorem memset_take {dst : Buffer} {e n : Nat} (h2 : e + n ≤ dst.length) :
    (memset dst e n).take e = dst.take e := by
  unfold memset
  rw [List.take_append_of_le_length (by simp; omega)]
  simp

theorem drop_take_append {α : Type} (a b : List α) {e : Nat} (h : a.length = e) :
    (a ++ b).drop e = b := by
  subst h
  simp

theorem memcpy_slice {dst src : Buffer} {e off n : Nat} (h1 : off + n ≤ src.length)
    (h2 : e + n ≤ dst.length) : slice (memcpy dst e src off n) e n = slice src off n := by
  unfold memcpy slice
  rw [drop_take_append _ _ (by simp; omega)]
  rw [List.take_append_of_le_length (by simp; omega)]
  simp

theorem memset_slice {dst : Buffer} {e n : Nat} (h2 : e + n ≤ dst.length) :
    slice (memset dst e n) e n = List.replicate n (some zero_pollfd) := by
  unfold memset slice
  rw [drop_take_append _ _ (by simp; omega)]
  rw [List.take_append_of_le_length (by simp)]
  simp

theorem slice_eq_of_take {a b : Buffer} {e n m : Nat} (h : a.take m = b.take m)
    (hm : e + n ≤ m) : slice a e n = slice b e n := by
  unfold slice
  have ha : (a.drop e).take n = ((a.take m).drop e).take n := by
    rw [List.drop_take, List.take_take]
    congr 1
    omega
  have hb : (b.drop e).take n = ((b.take m).drop e).take n := by
    rw [List.drop_take, List.take_take]
    congr 1
    omega
  rw [ha, hb, h]

theorem take_eq_of_take {a b : Buffer} {e m : Nat} (h : a.take m = b.take m) (hm : e ≤ m) :
    a.take e = b.take e := by
  have ha : a.take e = (a.take m).take e := by
    rw [List.take_take]; congr 1; omega
  have hb : b.take e = (b.take m).take e := by
    rw [List.take_take]; congr 1; omega
  rw [ha, hb, h]

end Rtpoll

namespace Rtpoll

/-! ## The rebuild -/

theorem rebuild_item_ok {i : pa_rtpoll_item} {prim t : Buffer} {e : Nat}
    {i1 : pa_rtpoll_item} {t1 : Buffer} (hn : 0 < i.n_pollfd)
    (h : rebuild_item i prim e t = .ok (i1, t1)) :
    i1 = { i with pollfd := some e } ∧ e + i.n_pollfd ≤ t.length ∧ t1.length = t.length ∧
      t1.take e = t.take e ∧ slice t1 e i.n_pollfd = old_slice prim i := by
  unfold rebuild_item at h
  simp only [hn, if_true] at h
  cases hp : i.pollfd with
  | none =>
    simp only [hp] at h
    split at h
    · rename_i hb
      injection h with h
      injection h with h1 h2
      subst h1 h2
      refine ⟨rfl, hb, memset_length hb, memset_take hb, ?_⟩
      rw [memset_slice hb]
      simp [old_slice, hp]
    · cases h
  | some off =>
    simp only [hp] at h
    split at h
    · rename_i hb
      injection h with h
      injection h with h1 h2
      subst h1 h2
      refine ⟨rfl, hb.2, memcpy_length hb.1 hb.2, memcpy_take hb.2, ?_⟩
      rw [memcpy_slice hb.1 hb.2]
      simp [old_slice, hp]
    · cases h

theorem rebuild_item_succeeds {i : pa_rtpoll_item} {prim t : Buffer} {e : Nat}
    (hp : ∀ off, i.pollfd = some off → off + i.n_pollfd ≤ prim.length)
    (he : e + i.n_pollfd ≤ t.length) : ∃ r, rebuild_item i prim e t = .ok r := by
  unfold rebuild_item
  by_cases hn : 0 < i.n_pollfd
  · simp only [hn, if_true]
    cases hq : i.pollfd with
    | none => simp [he]
    | some off => simp [he, hp off hq]
  · simp [hn]

theorem rebuild_items_ok {l : List pa_rtpoll_item} :
    ∀ {prim t : Buffer} {e : Nat} {l1 : List pa_rtpoll_item} {e1 : Nat} {t1 : Buffer},
    (∀ i ∈ l, 0 < i.n_pollfd) → e ≤ t.length →
    rebuild_items l prim e t = .ok (l1, e1, t1) →
    e1 = e + slots l ∧ e1 ≤ t.length ∧ t1.length = t.length ∧ t1.take e = t.take e ∧
      rebuilt prim t1 l l1 e := by
  induction l with
  | nil =>
    intro prim t e l1 e1 t1 _ he h
    simp only [rebuild_items] at h
    injection h with h
    injection h with h1 h2
    injection h2 with h2 h3
    subst h1 h2 h3
    simp [slots, he, rebuilt]
  | cons i l ih =>
    intro prim t e l1 e1 t1 hn he h
    simp only [rebuild_items] at h
    cases hi : rebuild_item i prim e t with
    | error err => simp [hi] at h
    | ok r =>
      obtain ⟨i1, ta⟩ := r
      simp only [hi] at h
      cases hr : rebuild_items l prim (e + i.n_pollfd) ta with
      | error err => simp [hr] at h
      | ok r2 =>
        obtain ⟨rest1, e2, tb⟩ := r2
        simp only [hr] at h
        injection h with h
        injection h with h1 h2
        injection h2 with h2 h3
        subst h1 h2 h3
        have hni := hn i (List.mem_cons_self _ _)
        obtain ⟨hi1, hb, hlen, htake, hsl⟩ := rebuild_item_ok hni hi
        have hrest := ih (fun x hx => hn x (List.mem_cons_of_mem _ hx))
          (by rw [hlen]; exact hb) hr
        obtain ⟨he2, hle, hlen2, htake2, hreb⟩ := hrest
        refine ⟨by simp only [slots]; omega, by omega, by omega, ?_, ?_⟩
        · rw [take_eq_of_take htake2 (Nat.le_add_right _ _), htake]
        · refine ⟨hi1, ?_, hreb⟩
          rw [slice_eq_of_take htake2 (Nat.le_refl _), hsl]

theorem rebuild_items_succeeds {l : List pa_rtpoll_item} :
    ∀ {prim t : Buffer} {e : Nat},
    (∀ i ∈ l, ∀ off, i.pollfd = some off → off + i.n_pollfd ≤ prim.length) →
    e + slots l ≤ t.length → ∃ r, rebuild_items l prim e t = .ok r := by
  induction l with
  | nil =>
    intro prim t e _ _
    exact ⟨_, rfl⟩
  | cons i l ih =>
    intro prim t e hp he
    simp only [slots] at he
    obtain ⟨⟨i1, ta⟩, hi⟩ := rebuild_item_succeeds (hp i (List.mem_cons_self _ _))
      (by omega : e + i.n_pollfd ≤ t.length)
    have hlen : ta.length = t.length := by
      unfold rebuild_item at hi
      split at hi
      · split at hi
        · split at hi
          · rename_i hb
            injection hi with hi
            injection hi with _ h2
            subst h2
            exact memcpy_length hb.1 hb.2
          · cases hi
        · split at hi
          · rename_i hb
            injection hi with hi
            injection hi with _ h2
            subst h2
            exact memset_length hb
          · cases hi
      · injection hi with hi
        injection hi with _ h2
        subst h2
        rfl
    obtain ⟨⟨rest1, e2, tb⟩, hr⟩ := @ih prim ta (e + i.n_pollfd)
      (fun x hx => hp x (List.mem_cons_of_mem _ hx)) (by rw [hlen]; omega)
    exact ⟨(i1 :: rest1, e2, tb), by simp [rebuild_items, hi, hr]⟩

theorem rebuilt_ids {prim t : Buffer} {l : List pa_rtpoll_item} :
    ∀ {l1 : List pa_rtpoll_item} {e : Nat}, rebuilt prim t l l1 e →
    l1.map (fun i => i.id) = l.map (fun i => i.id) ∧ slots l1 = slots l ∧ laid_out l1 e ∧
    l1.length = l.length := by
  induction l with
  | nil =>
    intro l1 e h
    cases l1 with
    | nil => simp [slots, laid_out]
    | cons x xs => simp [rebuilt] at h
  | cons i l ih =>
    intro l1 e h
    cases l1 with
    | nil => simp [rebuilt] at h
    | cons x xs =>
      simp only [rebuilt] at h
      obtain ⟨hx, _, hr⟩ := h
      obtain ⟨h1, h2, h3, h4⟩ := ih hr
      subst hx
      simp [slots, laid_out, h1, h2, h3, h4]

theorem rebuilt_mem {prim t : Buffer} {l : List pa_rtpoll_item} :
    ∀ {l1 : List pa_rtpoll_item} {e : Nat}, rebuilt prim t l l1 e →
    ∀ x ∈ l1, ∃ y ∈ l, ∃ off, x = { y with pollfd := some off } ∧ e ≤ off ∧
      off + y.n_pollfd ≤ e + slots l := by
  induction l with
  | nil =>
    intro l1 e h x hx
    cases l1 with
    | nil => cases hx
    | cons x xs => simp [rebuilt] at h
  | cons i l ih =>
    intro l1 e h x hx
    cases l1 with
    | nil => simp [rebuilt] at h
    | cons z zs =>
      simp only [rebuilt] at h
      obtain ⟨hz, _, hr⟩ := h
      rcases List.mem_cons.1 hx with rfl | hx'
      · exact ⟨i, List.mem_cons_self _ _, e, hz, Nat.le_refl _, by simp [slots]⟩
      · obtain ⟨y, hy, off, hxy, h1, h2⟩ := ih hr x hx'
        exact ⟨y, List.mem_cons_of_mem _ hy, off, hxy, by omega, by simp only [slots]; omega⟩

end Rtpoll

namespace Rtpoll

theorem rtpoll_rebuild_eq (p : pa_rtpoll) :
    rtpoll_rebuild p =
      if p.n_pollfd_used > p.n_pollfd_alloc then
        rebuild_into p ((p.n_pollfd_used * 2) % UINT_MOD)
          (pa_xrealloc p.pollfd2 ((p.n_pollfd_used * 2) % UINT_MOD))
          (pa_xrealloc p.pollfd ((p.n_pollfd_used * 2) % UINT_MOD))
      else rebuild_into p p.n_pollfd_alloc p.pollfd2 p.pollfd := by
  by_cases hc : p.n_pollfd_used > p.n_pollfd_alloc
  · simp [rtpoll_rebuild, rebuild_into, hc]
  · simp [rtpoll_rebuild, rebuild_into, hc]

theorem rebuild_into_spec {p p1 : pa_rtpoll} {alloc : Nat} {scratch other : Buffer}
    (hw : wf p) (hs : scratch.length = alloc) (ho : other.length = alloc)
    (h : rebuild_into p alloc scratch other = .ok p1) :
    rebuilt p.pollfd p1.pollfd p.items p1.items 0 ∧
    p1.rebuild_needed = false ∧ p1.n_pollfd_alloc = alloc ∧
    slots p.items ≤ p1.n_pollfd_alloc ∧
    p1.pollfd.length = p1.n_pollfd_alloc ∧ p1.pollfd2.length = p1.n_pollfd_alloc ∧
    p1.n_pollfd_used = p.n_pollfd_used ∧ p1.running = p.running ∧
    p1.scan_for_dead = p.scan_for_dead ∧ p1.installed = p.installed ∧
    p1.interval = p.interval ∧ p1.rtsig = p.rtsig ∧
    p1.interval_timespec = p.interval_timespec ∧ p1.dont_use_ppoll = p.dont_use_ppoll ∧
    p1.next_id = p.next_id := by
  unfold rebuild_into at h
  cases hr : rebuild_items p.items p.pollfd 0 scratch with
  | error err => simp [hr] at h
  | ok r =>
    obtain ⟨items, e, t⟩ := r
    simp only [hr] at h
    split at h
    · injection h with h
      subst h
      obtain ⟨he, hle, hlen, _, hreb⟩ :=
        rebuild_items_ok (fun i hi => (hw.n_pos i hi).1) (Nat.zero_le _) hr
      simp only [Nat.zero_add] at he
      refine ⟨hreb, rfl, rfl, ?_, ?_, ho, rfl, rfl, rfl, rfl, rfl, rfl, rfl, rfl, rfl⟩
      · show slots p.items ≤ alloc
        omega
      · show t.length = alloc
        omega
    · cases h

/-- Everything `rtpoll_rebuild` establishes when it returns from a well-formed state. -/
theorem rebuild_spec {p p1 : pa_rtpoll} (hw : wf p) (h : rtpoll_rebuild p = .ok p1) :
    rebuilt p.pollfd p1.pollfd p.items p1.items 0 ∧
    p1.rebuild_needed = false ∧
    p1.n_pollfd_alloc =
      (if p.n_pollfd_used > p.n_pollfd_alloc then (p.n_pollfd_used * 2) % UINT_MOD
       else p.n_pollfd_alloc) ∧
    slots p.items ≤ p1.n_pollfd_alloc ∧
    p1.pollfd.length = p1.n_pollfd_alloc ∧ p1.pollfd2.length = p1.n_pollfd_alloc ∧
    p1.n_pollfd_used = p.n_pollfd_used ∧ p1.running = p.running ∧
    p1.scan_for_dead = p.scan_for_dead ∧ p1.installed = p.installed ∧
    p1.interval = p.interval ∧ p1.rtsig = p.rtsig ∧
    p1.interval_timespec = p.interval_timespec ∧ p1.dont_use_ppoll = p.dont_use_ppoll ∧
    p1.next_id = p.next_id := by
  rw [rtpoll_rebuild_eq] at h
  by_cases hc : p.n_pollfd_used > p.n_pollfd_alloc
  · simp only [hc, if_true] at h ⊢
    exact rebuild_into_spec hw (pa_xrealloc_length _ _) (pa_xrealloc_length _ _) h
  · simp only [hc, if_false] at h ⊢
    exact rebuild_into_spec hw hw.cap2 hw.cap1 h

theorem wf_rebuild {p p1 : pa_rtpoll} (hw : wf p) (h : rtpoll_rebuild p = .ok p1) : wf p1 := by
  obtain ⟨hreb, hrn, hal, hsl, hc1, hc2, hu, hrun, hscan, _, _, _, _, _, hnext⟩ :=
    rebuild_spec hw h
  obtain ⟨hids, hslots, hlay, _⟩ := rebuilt_ids hreb
  have hmem := rebuilt_mem hreb
  have halt : p1.n_pollfd_alloc < UINT_MOD := by
    rw [hal]
    split
    · exact Nat.mod_lt _ (by unfold UINT_MOD; omega)
    · exact hw.alloc_lt
  refine ⟨?_, ?_, ?_, ?_, hc1, hc2, ?_, ?_, ?_, ?_, halt⟩
  · unfold handles; rw [hids]; exact hw.ids_nodup
  · intro x hx
    obtain ⟨y, hy, off, hxy, _, _⟩ := hmem x hx
    rw [hnext, hxy]
    exact hw.ids_lt y hy
  · rw [hu, hslots]; exact hw.used_eq
  · intro x hx
    obtain ⟨y, hy, off, hxy, _, _⟩ := hmem x hx
    rw [hxy]
    exact hw.n_pos y hy
  · intro x hx off hoff
    obtain ⟨y, hy, off1, hxy, _, hb⟩ := hmem x hx
    subst hxy
    simp only [Option.some.injEq] at hoff
    subst hoff
    simp only
    rw [hc1]
    omega
  · intro _
    exact ⟨hlay, by rw [hslots]; exact hsl⟩
  · intro x hx hd
    obtain ⟨y, hy, off, hxy, _, _⟩ := hmem x hx
    subst hxy
    rw [hscan]
    exact hw.dead_scan y hy hd
  · intro hr
    rw [hscan]
    exact hw.idle_scan (by rw [← hrun]; exact hr)

theorem rebuild_into_succeeds {p : pa_rtpoll} {alloc : Nat} {scratch other : Buffer}
    (hw : wf p) (hs : slots p.items ≤ scratch.length) :
    ∃ p1, rebuild_into p alloc scratch other = .ok p1 := by
  obtain ⟨⟨items, e, t⟩, hr⟩ := @rebuild_items_succeeds p.items p.pollfd
    scratch 0 hw.ptr_ok (by omega)
  obtain ⟨he, _⟩ := rebuild_items_ok (fun i hi => (hw.n_pos i hi).1) (Nat.zero_le _) hr
  have : e % UINT_MOD = p.n_pollfd_used := by
    rw [he, Nat.zero_add, ← hw.used_eq]
  simp [rebuild_into, hr, this]

/-- The rebuild returns when twice the number of registered slots fits in an unsigned. -/
theorem rebuild_succeeds {p : pa_rtpoll} (hw : wf p) (hfit : 2 * slots p.items < UINT_MOD) :
    ∃ p1, rtpoll_rebuild p = .ok p1 := by
  have hu : p.n_pollfd_used = slots p.items := by
    rw [hw.used_eq]
    exact Nat.mod_eq_of_lt (by omega)
  rw [rtpoll_rebuild_eq]
  by_cases hc : p.n_pollfd_used > p.n_pollfd_alloc
  · simp only [hc, if_true]
    apply rebuild_into_succeeds hw
    rw [pa_xrealloc_length, Nat.mod_eq_of_lt (by omega)]
    omega
  · simp only [hc, if_false]
    apply rebuild_into_succeeds hw
    rw [hw.cap2]
    omega

end Rtpoll

namespace Rtpoll

/-! ## The invariant is kept by every operation -/

theorem wf_new (b : Build) (release : Option (Nat × Nat × Nat)) :
    wf (pa_rtpoll_new b release) := by
  refine ⟨?_, ?_, ?_, ?_, ?_, ?_, ?_, ?_, ?_, ?_, ?_⟩ <;>
    simp [pa_rtpoll_new, handles, slots, pa_xnew, laid_out, UINT_MOD]

/-- The invariant only reads the items, the capacities and four flags. -/
theorem wf_of_eq {p p1 : pa_rtpoll} (hw : wf p) (h1 : p1.items = p.items)
    (h2 : p1.pollfd.length = p.pollfd.length) (h3 : p1.pollfd2.length = p.pollfd2.length)
    (h4 : p1.n_pollfd_alloc = p.n_pollfd_alloc) (h5 : p1.n_pollfd_used = p.n_pollfd_used)
    (h6 : p1.next_id = p.next_id) (h7 : p1.rebuild_needed = p.rebuild_needed)
    (h8 : p1.scan_for_dead = p.scan_for_dead) (h9 : p1.running = p.running) : wf p1 := by
  refine ⟨?_, ?_, ?_, ?_, ?_, ?_, ?_, ?_, ?_, ?_, by rw [h4]; exact hw.alloc_lt⟩
  · unfold handles; rw [h1]; exact hw.ids_nodup
  · rw [h1, h6]; exact hw.ids_lt
  · rw [h1, h5]; exact hw.used_eq
  · rw [h1]; exact hw.n_pos
  · rw [h2, h4]; exact hw.cap1
  · rw [h3, h4]; exact hw.cap2
  · rw [h1, h2]; exact hw.ptr_ok
  · rw [h1, h4, h7]; exact hw.layout
  · rw [h1, h8]; exact hw.dead_scan
  · rw [h8, h9]; exact hw.idle_scan

theorem wf_install {b : Build} {rtsig : Int} {p p1 : pa_rtpoll} (hw : wf p)
    (h : pa_rtpoll_install b rtsig p = .ok p1) : wf p1 := by
  unfold pa_rtpoll_install at h
  split at h
  · cases h
  · split at h
    · injection h with h; subst h
      exact wf_of_eq hw rfl rfl rfl rfl rfl rfl rfl rfl rfl
    · split at h
      · injection h with h; subst h
        exact wf_of_eq hw rfl rfl rfl rfl rfl rfl rfl rfl rfl
      · injection h with h; subst h
        exact wf_of_eq hw rfl rfl rfl rfl rfl rfl rfl rfl rfl

theorem wf_set_itimer {p : pa_rtpoll} (usec : Nat) (hw : wf p) :
    wf (pa_rtpoll_set_itimer p usec) :=
  wf_of_eq hw rfl rfl rfl rfl rfl rfl rfl rfl rfl

/-- Assignments to fields of one item other than its slice keep the invariant, provided
the scan flag is set whenever the item becomes dead. -/
theorem wf_update {p : pa_rtpoll} (hw : wf p) (h : Nat) (f : pa_rtpoll_item → pa_rtpoll_item)
    (sc : Bool) (hf : ∀ i, (f i).id = i.id ∧ (f i).n_pollfd = i.n_pollfd ∧
      (f i).pollfd = i.pollfd ∧ ((f i).dead = true → i.dead = true ∨ sc = true))
    (hsc : p.scan_for_dead = true → sc = true) (hidle : p.running = false → sc = false) :
    wf { p with items := update_item h f p.items, scan_for_dead := sc } := by
  refine ⟨?_, ?_, ?_, ?_, hw.cap1, hw.cap2, ?_, ?_, ?_, hidle, hw.alloc_lt⟩
  · show ((update_item h f p.items).map (fun i => i.id)).Nodup
    rw [update_item_ids h f (fun i => (hf i).1)]
    exact hw.ids_nodup
  · intro x hx
    obtain ⟨y, hy, rfl | rfl⟩ := mem_update_item hx
    · exact hw.ids_lt _ hy
    · rw [(hf y).1]; exact hw.ids_lt _ hy
  · show p.n_pollfd_used = slots (update_item h f p.items) % UINT_MOD
    rw [slots_update_item h f (fun i => (hf i).2.1)]
    exact hw.used_eq
  · intro x hx
    obtain ⟨y, hy, rfl | rfl⟩ := mem_update_item hx
    · exact hw.n_pos _ hy
    · rw [(hf y).2.1]; exact hw.n_pos _ hy
  · intro x hx off hoff
    obtain ⟨y, hy, rfl | rfl⟩ := mem_update_item hx
    · exact hw.ptr_ok _ hy off hoff
    · rw [(hf y).2.1]
      rw [(hf y).2.2.1] at hoff
      exact hw.ptr_ok _ hy off hoff
  · intro hr
    have := hw.layout hr
    refine ⟨?_, ?_⟩
    · show laid_out (update_item h f p.items) 0
      rw [laid_out_update_item h f (fun i => ⟨(hf i).2.1, (hf i).2.2.1⟩)]
      exact this.1
    · show slots (update_item h f p.items) ≤ p.n_pollfd_alloc
      rw [slots_update_item h f (fun i => (hf i).2.1)]
      exact this.2
  · intro x hx hd
    show sc = true
    obtain ⟨y, hy, rfl | rfl⟩ := mem_update_item hx
    · exact hsc (hw.dead_scan _ hy hd)
    · rcases (hf y).2.2.2 hd with h1 | h1
      · exact hsc (hw.dead_scan _ hy h1)
      · exact h1

theorem wf_item_new {p p1 : pa_rtpoll} {n_fds h : Nat} (hw : wf p)
    (hn : pa_rtpoll_item_new p n_fds = .ok (p1, h)) : wf p1 := by
  unfold pa_rtpoll_item_new at hn
  split at hn
  · cases hn
  · rename_i hz
    injection hn with hn
    injection hn with hn _
    subst hn
    have hlt : n_fds % UINT_MOD < UINT_MOD := Nat.mod_lt _ (by unfold UINT_MOD; omega)
    refine ⟨?_, ?_, ?_, ?_, hw.cap1, hw.cap2, ?_, ?_, ?_, hw.idle_scan, hw.alloc_lt⟩
    · show (p.next_id :: handles p).Nodup
      refine List.nodup_cons.2 ⟨?_, hw.ids_nodup⟩
      intro hm
      obtain ⟨x, hx, hxe⟩ := List.mem_map.1 hm
      have := hw.ids_lt x hx
      omega
    · intro x hx
      rcases List.mem_cons.1 hx with rfl | hx'
      · show p.next_id < p.next_id + 1
        omega
      · have := hw.ids_lt x hx'
        show x.id < p.next_id + 1
        omega
    · show (p.n_pollfd_used + n_fds % UINT_MOD) % UINT_MOD =
        (n_fds % UINT_MOD + slots p.items) % UINT_MOD
      rw [hw.used_eq]
      unfold UINT_MOD
      omega
    · intro x hx
      rcases List.mem_cons.1 hx with rfl | hx'
      · exact ⟨Nat.pos_of_ne_zero hz, hlt⟩
      · exact hw.n_pos x hx'
    · intro x hx off hoff
      rcases List.mem_cons.1 hx with rfl | hx'
      · simp at hoff
      · exact hw.ptr_ok x hx' off hoff
    · intro hr
      simp at hr
    · intro x hx hd
      rcases List.mem_cons.1 hx with rfl | hx'
      · simp at hd
      · exact hw.dead_scan x hx' hd

theorem wf_destroy {p p1 : pa_rtpoll} {h : Nat} (hw : wf p)
    (hd : rtpoll_item_destroy p h = .ok p1) : wf p1 := by
  unfold rtpoll_item_destroy at hd
  cases hf : find_item p h with
  | none => simp [hf] at hd
  | some i =>
    simp only [hf] at hd
    injection hd with hd
    subst hd
    have hsl := slots_remove (l := p.items) (h := h) hf
    have hin := (hw.n_pos i (find_item_some hf).1)
    refine ⟨?_, ?_, ?_, ?_, hw.cap1, hw.cap2, ?_, ?_, ?_, hw.idle_scan, hw.alloc_lt⟩
    · exact List.Nodup.sublist ((remove_sublist h p.items).map _) hw.ids_nodup
    · intro x hx
      exact hw.ids_lt x (remove_mem hx)
    · show (p.n_pollfd_used + UINT_MOD - i.n_pollfd % UINT_MOD) % UINT_MOD =
        slots (PA_LLIST_REMOVE h p.items) % UINT_MOD
      rw [hw.used_eq, ← hsl]
      have := hin.2
      unfold UINT_MOD at this ⊢
      omega
    · intro x hx
      exact hw.n_pos x (remove_mem hx)
    · intro x hx off hoff
      exact hw.ptr_ok x (remove_mem hx) off hoff
    · intro hr
      simp at hr
    · intro x hx hdd
      exact hw.dead_scan x (remove_mem hx) hdd

theorem wf_item_free {p p1 : pa_rtpoll} {h : Nat} (hw : wf p)
    (hd : pa_rtpoll_item_free p h = .ok p1) : wf p1 := by
  unfold pa_rtpoll_item_free at hd
  cases hf : find_item p h with
  | none => simp [hf] at hd
  | some i =>
    simp only [hf] at hd
    split at hd
    · rename_i hr
      injection hd with hd
      subst hd
      exact wf_update hw h _ true (fun i => ⟨rfl, rfl, rfl, fun _ => Or.inr rfl⟩)
        (fun _ => rfl) (fun h0 => by simp [hr] at h0)
    · exact wf_destroy hw hd

end Rtpoll

namespace Rtpoll

theorem maybe_rebuild_wf {p p1 : pa_rtpoll} (hw : wf p)
    (h : (if p.rebuild_needed then rtpoll_rebuild p else .ok p) = .ok p1) : wf p1 := by
  split at h
  · exact wf_rebuild hw h
  · injection h with h
    subst h
    exact hw

theorem wf_get_pollfd {p p1 : pa_rtpoll} {h : Nat} {ptr : Option Nat} {n : Nat} (hw : wf p)
    (hg : pa_rtpoll_item_get_pollfd p h = .ok (p1, ptr, n)) : wf p1 := by
  unfold pa_rtpoll_item_get_pollfd at hg
  cases hf : find_item p h with
  | none => simp [hf] at hg
  | some i =>
    simp only [hf] at hg
    cases hr : (if p.rebuild_needed then rtpoll_rebuild p else .ok p) with
    | error err => simp [hr] at hg
    | ok p2 =>
      simp only [hr] at hg
      cases hf2 : find_item p2 h with
      | none => simp [hf2] at hg
      | some j =>
        simp only [hf2] at hg
        injection hg with hg
        injection hg with hg _
        subst hg
        exact maybe_rebuild_wf hw hr

theorem wf_set_before_callback {p p1 : pa_rtpoll} {h : Nat} {cb : Option Nat} (hw : wf p)
    (hs : pa_rtpoll_item_set_before_callback p h cb = .ok p1) : wf p1 := by
  unfold pa_rtpoll_item_set_before_callback at hs
  split at hs
  · cases hs
  · injection hs with hs
    subst hs
    exact wf_update hw h _ p.scan_for_dead (fun i => ⟨rfl, rfl, rfl, fun hd => Or.inl hd⟩)
      (fun hh => hh) hw.idle_scan

theorem wf_set_after_callback {p p1 : pa_rtpoll} {h : Nat} {cb : Option Nat} (hw : wf p)
    (hs : pa_rtpoll_item_set_after_callback p h cb = .ok p1) : wf p1 := by
  unfold pa_rtpoll_item_set_after_callback at hs
  split at hs
  · cases hs
  · injection hs with hs
    subst hs
    exact wf_update hw h _ p.scan_for_dead (fun i => ⟨rfl, rfl, rfl, fun hd => Or.inl hd⟩)
      (fun hh => hh) hw.idle_scan

theorem wf_set_userdata {p p1 : pa_rtpoll} {h : Nat} {u : Option Nat} (hw : wf p)
    (hs : pa_rtpoll_item_set_userdata p h u = .ok p1) : wf p1 := by
  unfold pa_rtpoll_item_set_userdata at hs
  split at hs
  · cases hs
  · injection hs with hs
    subst hs
    exact wf_update hw h _ p.scan_for_dead (fun i => ⟨rfl, rfl, rfl, fun hd => Or.inl hd⟩)
      (fun hh => hh) hw.idle_scan

theorem wf_store_slot {p p1 : pa_rtpoll} {h k : Nat} {v : pollfd} (hw : wf p)
    (hs : store_slot p h k v = .ok p1) : wf p1 := by
  unfold store_slot at hs
  cases hg : pa_rtpoll_item_get_pollfd p h with
  | error err => simp [hg] at hs
  | ok r =>
    obtain ⟨p2, ptr, n⟩ := r
    simp only [hg] at hs
    have hw2 := wf_get_pollfd hw hg
    cases ptr with
    | none => simp at hs
    | some off =>
      simp only at hs
      split at hs
      · injection hs with hs
        subst hs
        exact wf_of_eq hw2 rfl (by simp) rfl rfl rfl rfl rfl rfl rfl
      · cases hs

theorem wf_exec_call {p p1 : pa_rtpoll} {c : Call} (hw : wf p) (h : exec_call p c = .ok p1) :
    wf p1 := by
  cases c with
  | item_new n =>
    simp only [exec_call] at h
    cases hn : pa_rtpoll_item_new p n with
    | error err => simp [hn] at h
    | ok r =>
      obtain ⟨p2, hd⟩ := r
      simp only [hn] at h
      injection h with h
      subst h
      exact wf_item_new hw hn
  | item_free i => exact wf_item_free hw h
  | item_get_pollfd i =>
    simp only [exec_call] at h
    cases hn : pa_rtpoll_item_get_pollfd p i with
    | error err => simp [hn] at h
    | ok r =>
      obtain ⟨p2, ptr, n⟩ := r
      simp only [hn] at h
      injection h with h
      subst h
      exact wf_get_pollfd hw hn
  | store i k v => exact wf_store_slot hw h
  | item_set_before_callback i cb => exact wf_set_before_callback hw h
  | item_set_after_callback i cb => exact wf_set_after_callback hw h
  | item_set_userdata i u => exact wf_set_userdata hw h
  | set_itimer usec =>
    simp only [exec_call] at h
    injection h with h
    subst h
    exact wf_set_itimer usec hw

theorem wf_exec_calls {cs : List Call} : ∀ {p p1 : pa_rtpoll}, wf p →
    exec_calls p cs = .ok p1 → wf p1 := by
  induction cs with
  | nil =>
    intro p p1 hw h
    simp only [exec_calls] at h
    injection h with h
    subst h
    exact hw
  | cons c cs ih =>
    intro p p1 hw h
    simp only [exec_calls] at h
    cases hc : exec_call p c with
    | error err => simp [hc] at h
    | ok p2 =>
      simp only [hc] at h
      exact ih (wf_exec_call hw hc) h

theorem store_revents_length (buf : Buffer) (n : Nat) (rev : Nat → Int) :
    (store_revents buf n rev).length = buf.length := by
  simp [store_revents]

theorem wf_call_ppoll {w : Sys} {p p1 : pa_rtpoll} {r : Int} {tr : List Event} (hw : wf p)
    (h : call_ppoll w p = .ok (p1, r, tr)) : wf p1 := by
  unfold call_ppoll at h
  split at h
  · injection h with h
    injection h with h _
    subst h
    exact wf_of_eq hw rfl (store_revents_length _ _ _) rfl rfl rfl rfl rfl rfl rfl
  · cases h

theorem wf_call_poll {w : Sys} {p p1 : pa_rtpoll} {r : Int} {tr : List Event} (hw : wf p)
    (h : call_poll w p = .ok (p1, r, tr)) : wf p1 := by
  unfold call_poll at h
  split at h
  · injection h with h
    injection h with h _
    subst h
    exact wf_of_eq hw rfl (store_revents_length _ _ _) rfl rfl rfl rfl rfl rfl rfl
  · cases h

theorem wf_run_wait {b : Build} {w : Sys} {p p1 : pa_rtpoll} {r : Int} {tr : List Event}
    (hw : wf p) (h : run_wait b w p = .ok (p1, r, tr)) : wf p1 := by
  unfold run_wait at h
  split at h
  · split at h
    · split at h
      · exact wf_call_ppoll hw h
      · injection h with h
        injection h with h _
        subst h
        exact hw
    · cases hc : call_ppoll w p with
      | error err => simp [hc] at h
      | ok q =>
        obtain ⟨p2, r2, tr2⟩ := q
        simp only [hc] at h
        injection h with h
        injection h with h _
        subst h
        exact wf_call_ppoll hw hc
  · cases hc : call_poll w p with
    | error err => simp [hc] at h
    | ok q =>
      obtain ⟨p2, r2, tr2⟩ := q
      simp only [hc] at h
      injection h with h
      injection h with h _
      subst h
      exact wf_call_poll hw hc

end Rtpoll

namespace Rtpoll

/-! ## The sweep at the end of an iteration -/

theorem remove_append {x : pa_rtpoll_item} {front rest : List pa_rtpoll_item}
    (hx : x.id ∉ front.map (fun i => i.id)) :
    PA_LLIST_REMOVE x.id (front ++ x :: rest) = front ++ rest := by
  induction front with
  | nil => simp [PA_LLIST_REMOVE]
  | cons y l ih =>
    simp only [List.map_cons, List.mem_cons, not_or] at hx
    have hne : ¬ y.id = x.id := fun he => hx.1 he.symm
    rw [List.cons_append]
    simp only [PA_LLIST_REMOVE, hne, if_false]
    rw [ih hx.2]
    rfl

theorem slots_filter_dead (l : List pa_rtpoll_item) :
    slots (l.filter (fun i => i.dead)) + slots (l.filter (fun i => !i.dead)) = slots l := by
  induction l with
  | nil => rfl
  | cons x l ih =>
    cases hd : x.dead
    · simp only [List.filter, hd, Bool.not_false, slots]
      omega
    · simp only [List.filter, hd, Bool.not_true, slots]
      omega

/-- The loop of lines 334-339 unlinks exactly the dead items among those it still has to
visit, and leaves every other field of the reactor alone. -/
theorem run_sweep_spec (todo : List pa_rtpoll_item) :
    ∀ (front : List pa_rtpoll_item) (q : pa_rtpoll), q.items = front ++ todo →
    (q.items.map (fun i => i.id)).Nodup → q.n_pollfd_used < UINT_MOD →
    ∃ u, u < UINT_MOD ∧
      (u + slots (todo.filter (fun i => i.dead))) % UINT_MOD = q.n_pollfd_used ∧
      run_sweep (todo.map (fun i => i.id)) q = .ok { q with
        items := front ++ todo.filter (fun i => !i.dead)
        rebuild_needed := q.rebuild_needed || todo.any (fun i => i.dead)
        n_pollfd_used := u } := by
  induction todo with
  | nil =>
    intro front q hq _ hu
    refine ⟨q.n_pollfd_used, hu, ?_, ?_⟩
    · simp [slots, Nat.mod_eq_of_lt hu]
    · simp only [List.map_nil, run_sweep, List.filter_nil, List.any_nil, Bool.or_false]
      rw [← hq]
  | cons x rest ih =>
    intro front q hq hn hu
    have hxm : x ∈ q.items := by rw [hq]; simp
    have hfx : find_item q x.id = some x := find_mem_nodup hn hxm
    have hxf : x.id ∉ front.map (fun i => i.id) := by
      rw [hq, List.map_append, List.map_cons] at hn
      have h1 := (List.nodup_append.1 hn).2.2
      intro hm
      exact h1 hm (List.mem_cons_self _ _)
    simp only [List.map_cons, run_sweep, hfx]
    cases hd : x.dead
    · simp only [Bool.false_eq_true, if_false]
      obtain ⟨u, hu1, hu2, hr⟩ := ih (front ++ [x]) q (by rw [hq]; simp) hn hu
      refine ⟨u, hu1, ?_, ?_⟩
      · simp only [List.filter, hd]
        exact hu2
      · rw [hr]
        simp [List.filter, hd]
    · simp only [if_true, rtpoll_item_destroy, hfx]
      have hrem : PA_LLIST_REMOVE x.id q.items = front ++ rest := by
        rw [hq]; exact remove_append hxf
      rw [hrem]
      have hn1 : ((front ++ rest).map (fun i => i.id)).Nodup := by
        rw [hq] at hn
        refine List.Nodup.sublist ?_ hn
        exact (List.Sublist.append_left (List.sublist_cons_self x rest) front).map _
      obtain ⟨u, hu1, hu2, hr⟩ := ih front
        { q with
          items := front ++ rest
          n_pollfd_used := (q.n_pollfd_used + UINT_MOD - x.n_pollfd % UINT_MOD) % UINT_MOD
          rebuild_needed := true } rfl hn1
        (Nat.mod_lt _ (by unfold UINT_MOD; omega))
      refine ⟨u, hu1, ?_, ?_⟩
      · simp only [List.filter, hd, slots]
        simp only at hu2
        unfold UINT_MOD at hu hu1 hu2 ⊢
        omega
      · rw [hr]
        simp [List.filter, hd]

theorem filter_not_dead_eq {l : List pa_rtpoll_item} (h : ∀ i ∈ l, i.dead = false) :
    l.filter (fun i => !i.dead) = l := by
  apply List.filter_eq_self.2
  intro i hi
  simp [h i hi]

/-- The end of an iteration: `run_finish` returns, the surviving items are the ones not
flagged dead, in their order, and the state is well formed again. -/
theorem run_finish_spec {p : pa_rtpoll} (hw : wf p) :
    ∃ p1, run_finish p = .ok p1 ∧ wf p1 ∧
      p1.items = p.items.filter (fun i => !i.dead) ∧
      p1.running = false ∧ p1.scan_for_dead = false ∧
      p1.rebuild_needed = (p.rebuild_needed || p.items.any (fun i => i.dead)) ∧
      (p1.n_pollfd_used + slots (p.items.filter (fun i => i.dead))) % UINT_MOD =
        p.n_pollfd_used ∧
      p1.pollfd = p.pollfd ∧ p1.pollfd2 = p.pollfd2 ∧
      p1.n_pollfd_alloc = p.n_pollfd_alloc ∧ p1.installed = p.installed ∧
      p1.interval = p.interval ∧ p1.dont_use_ppoll = p.dont_use_ppoll ∧
      p1.next_id = p.next_id := by
  have hused : p.n_pollfd_used < UINT_MOD := by
    rw [hw.used_eq]
    exact Nat.mod_lt _ (by unfold UINT_MOD; omega)
  unfold run_finish
  by_cases hs0 : p.scan_for_dead = true
  swap
  · rw [if_neg hs0]
    have hs : p.scan_for_dead = false := by simpa using hs0
    have hnd : ∀ i ∈ p.items, i.dead = false := by
      intro i hi
      cases hd : i.dead
      · rfl
      · have := hw.dead_scan i hi hd
        simp [hs] at this
    refine ⟨_, rfl, ?_, ?_, rfl, hs, ?_, ?_, rfl, rfl, rfl, rfl, rfl, rfl, rfl⟩
    · refine ⟨hw.ids_nodup, hw.ids_lt, hw.used_eq, hw.n_pos, hw.cap1, hw.cap2, hw.ptr_ok,
        hw.layout, hw.dead_scan, fun _ => hs, hw.alloc_lt⟩
    · exact (filter_not_dead_eq hnd).symm
    · have : p.items.any (fun i => i.dead) = false := by
        rw [List.any_eq_false]
        intro i hi
        simp [hnd i hi]
      simp [this]
    · have : p.items.filter (fun i => i.dead) = [] := by
        rw [List.filter_eq_nil_iff]
        intro i hi
        simp [hnd i hi]
      rw [this]
      simp [slots, Nat.mod_eq_of_lt hused]
  · rw [if_pos hs0]
    obtain ⟨u, hu1, hu2, hr⟩ := run_sweep_spec p.items []
      { p with running := false, scan_for_dead := false } rfl hw.ids_nodup hused
    unfold handles
    refine ⟨_, hr, ?_, rfl, rfl, rfl, rfl, hu2, rfl, rfl, rfl, rfl, rfl, rfl, rfl⟩
    have hsub : List.Sublist (p.items.filter (fun i => !i.dead)) p.items :=
      List.filter_sublist _
    refine ⟨?_, ?_, ?_, ?_, hw.cap1, hw.cap2, ?_, ?_, ?_, fun _ => rfl, hw.alloc_lt⟩
    · exact List.Nodup.sublist (hsub.map _) hw.ids_nodup
    · intro x hx
      exact hw.ids_lt x (hsub.subset hx)
    · show u = slots ([] ++ p.items.filter (fun i => !i.dead)) % UINT_MOD
      have h1 := slots_filter_dead p.items
      have h2 := hw.used_eq
      simp only [List.nil_append]
      simp only at hu2
      rw [h2, ← h1] at hu2
      unfold UINT_MOD at hu1 hu2 ⊢
      omega
    · intro x hx
      exact hw.n_pos x (hsub.subset hx)
    · intro x hx off hoff
      exact hw.ptr_ok x (hsub.subset hx) off hoff
    · intro hrn
      simp only [Bool.or_eq_false_iff] at hrn
      have hnd : ∀ i ∈ p.items, i.dead = false := by
        have := hrn.2
        rw [List.any_eq_false] at this
        intro i hi
        simpa using this i hi
      have hl := hw.layout hrn.1
      simp only [List.nil_append]
      rw [filter_not_dead_eq hnd]
      exact hl
    · intro x hx hd
      simp only [List.nil_append, List.mem_filter] at hx
      simp [hd] at hx

end Rtpoll

namespace Rtpoll

/-! ## Calls and hook dispatch keep the control fields -/

theorem same_ctl_refl (p : pa_rtpoll) : same_ctl p p := ⟨rfl, rfl, rfl, rfl⟩

theorem same_ctl_trans {p p1 p2 : pa_rtpoll} (h1 : same_ctl p p1) (h2 : same_ctl p1 p2) :
    same_ctl p p2 :=
  ⟨h2.1.trans h1.1, h2.2.1.trans h1.2.1, h2.2.2.1.trans h1.2.2.1, h2.2.2.2.trans h1.2.2.2⟩

theorem maybe_rebuild_ctl {p p1 : pa_rtpoll} (hw : wf p)
    (h : (if p.rebuild_needed then rtpoll_rebuild p else .ok p) = .ok p1) : same_ctl p p1 := by
  split at h
  · obtain ⟨_, _, _, _, _, _, _, hrun, _, hinst, _, hsig, _, hdont, _⟩ := rebuild_spec hw h
    exact ⟨hrun, hinst, hdont, hsig⟩
  · injection h with h
    subst h
    exact same_ctl_refl _

theorem get_pollfd_ctl {p p1 : pa_rtpoll} {h : Nat} {ptr : Option Nat} {n : Nat} (hw : wf p)
    (hg : pa_rtpoll_item_get_pollfd p h = .ok (p1, ptr, n)) : same_ctl p p1 := by
  unfold pa_rtpoll_item_get_pollfd at hg
  cases hf : find_item p h with
  | none => simp [hf] at hg
  | some i =>
    simp only [hf] at hg
    cases hr : (if p.rebuild_needed then rtpoll_rebuild p else .ok p) with
    | error err => simp [hr] at hg
    | ok p2 =>
      simp only [hr] at hg
      cases hf2 : find_item p2 h with
      | none => simp [hf2] at hg
      | some j =>
        simp only [hf2] at hg
        injection hg with hg
        injection hg with hg _
        subst hg
        exact maybe_rebuild_ctl hw hr

theorem exec_call_ctl {p p1 : pa_rtpoll} {c : Call} (hw : wf p)
    (h : exec_call p c = .ok p1) : same_ctl p p1 := by
  cases c with
  | item_new n =>
    simp only [exec_call] at h
    cases hn : pa_rtpoll_item_new p n with
    | error err => simp [hn] at h
    | ok r =>
      obtain ⟨p2, hd⟩ := r
      simp only [hn] at h
      injection h with h
      subst h
      unfold pa_rtpoll_item_new at hn
      split at hn
      · cases hn
      · injection hn with hn
        injection hn with hn _
        subst hn
        exact ⟨rfl, rfl, rfl, rfl⟩
  | item_free i =>
    simp only [exec_call, pa_rtpoll_item_free, rtpoll_item_destroy] at h
    cases hf : find_item p i with
    | none => simp [hf] at h
    | some x =>
      simp only [hf] at h
      split at h
      · injection h with h
        subst h
        exact ⟨rfl, rfl, rfl, rfl⟩
      · injection h with h
        subst h
        exact ⟨rfl, rfl, rfl, rfl⟩
  | item_get_pollfd i =>
    simp only [exec_call] at h
    cases hn : pa_rtpoll_item_get_pollfd p i with
    | error err => simp [hn] at h
    | ok r =>
      obtain ⟨p2, ptr, n⟩ := r
      simp only [hn] at h
      injection h with h
      subst h
      exact get_pollfd_ctl hw hn
  | store i k v =>
    simp only [exec_call, store_slot] at h
    cases hg : pa_rtpoll_item_get_pollfd p i with
    | error err => simp [hg] at h
    | ok r =>
      obtain ⟨p2, ptr, n⟩ := r
      simp only [hg] at h
      cases ptr with
      | none => simp at h
      | some off =>
        simp only at h
        split at h
        · injection h with h
          subst h
          exact same_ctl_trans (get_pollfd_ctl hw hg) ⟨rfl, rfl, rfl, rfl⟩
        · cases h
  | item_set_before_callback i cb =>
    simp only [exec_call, pa_rtpoll_item_set_before_callback] at h
    split at h
    · cases h
    · injection h with h
      subst h
      exact ⟨rfl, rfl, rfl, rfl⟩
  | item_set_after_callback i cb =>
    simp only [exec_call, pa_rtpoll_item_set_after_callback] at h
    split at h
    · cases h
    · injection h with h
      subst h
      exact ⟨rfl, rfl, rfl, rfl⟩
  | item_set_userdata i u =>
    simp only [exec_call, pa_rtpoll_item_set_userdata] at h
    split at h
    · cases h
    · injection h with h
      subst h
      exact ⟨rfl, rfl, rfl, rfl⟩
  | set_itimer usec =>
    simp only [exec_call] at h
    injection h with h
    subst h
    exact ⟨rfl, rfl, rfl, rfl⟩

theorem exec_calls_ctl {cs : List Call} : ∀ {p p1 : pa_rtpoll}, wf p →
    exec_calls p cs = .ok p1 → same_ctl p p1 := by
  induction cs with
  | nil =>
    intro p p1 _ h
    simp only [exec_calls] at h
    injection h with h
    subst h
    exact same_ctl_refl _
  | cons c cs ih =>
    intro p p1 hw h
    simp only [exec_calls] at h
    cases hc : exec_call p c with
    | error err => simp [hc] at h
    | ok p2 =>
      simp only [hc] at h
      exact same_ctl_trans (exec_call_ctl hw hc) (ih (wf_exec_call hw hc) h)

theorem wf_run_before {H : Hooks} {todo : List Nat} : ∀ {p p1 : pa_rtpoll} {tr : List Event}
    {a : Option Nat}, wf p → run_before H todo p = .ok (p1, tr, a) →
    wf p1 ∧ same_ctl p p1 := by
  induction todo with
  | nil =>
    intro p p1 tr a hw h
    simp only [run_before] at h
    injection h with h
    injection h with h _
    subst h
    exact ⟨hw, same_ctl_refl _⟩
  | cons x rest ih =>
    intro p p1 tr a hw h
    simp only [run_before] at h
    cases hf : find_item p x with
    | none => simp [hf] at h
    | some i =>
      simp only [hf] at h
      split at h
      · exact ih hw h
      · cases hb : i.before_cb with
        | none =>
          simp only [hb] at h
          exact ih hw h
        | some cb =>
          simp only [hb] at h
          cases he : exec_calls p (H.before cb x).1 with
          | error err => simp [he] at h
          | ok p2 =>
            simp only [he] at h
            have hw2 := wf_exec_calls hw he
            have hc2 := exec_calls_ctl hw he
            split at h
            · injection h with h
              injection h with h _
              subst h
              exact ⟨hw2, hc2⟩
            · cases hr : run_before H rest p2 with
              | error err => simp [hr] at h
              | ok r =>
                obtain ⟨p3, tr3, a3⟩ := r
                simp only [hr] at h
                injection h with h
                injection h with h _
                subst h
                obtain ⟨hw3, hc3⟩ := ih hw2 hr
                exact ⟨hw3, same_ctl_trans hc2 hc3⟩

theorem wf_run_after {H : Hooks} {todo : List Nat} : ∀ {p p1 : pa_rtpoll} {tr : List Event},
    wf p → run_after H todo p = .ok (p1, tr) → wf p1 ∧ same_ctl p p1 := by
  induction todo with
  | nil =>
    intro p p1 tr hw h
    simp only [run_after] at h
    injection h with h
    injection h with h _
    subst h
    exact ⟨hw, same_ctl_refl _⟩
  | cons x rest ih =>
    intro p p1 tr hw h
    simp only [run_after] at h
    cases hf : find_item p x with
    | none => simp [hf] at h
    | some i =>
      simp only [hf] at h
      split at h
      · exact ih hw h
      · cases hb : i.after_cb with
        | none =>
          simp only [hb] at h
          exact ih hw h
        | some cb =>
          simp only [hb] at h
          cases he : exec_calls p (H.after cb x) with
          | error err => simp [he] at h
          | ok p2 =>
            simp only [he] at h
            have hw2 := wf_exec_calls hw he
            have hc2 := exec_calls_ctl hw he
            cases hr : run_after H rest p2 with
            | error err => simp [hr] at h
            | ok r =>
              obtain ⟨p3, tr3⟩ := r
              simp only [hr] at h
              injection h with h
              injection h with h _
              subst h
              obtain ⟨hw3, hc3⟩ := ih hw2 hr
              exact ⟨hw3, same_ctl_trans hc2 hc3⟩

theorem wf_run_unwind {H : Hooks} {fuel : Nat} : ∀ {cur : Option Nat} {p p1 : pa_rtpoll}
    {tr : List Event}, wf p → run_unwind H fuel cur p = .ok (p1, tr) →
    wf p1 ∧ same_ctl p p1 := by
  induction fuel with
  | zero =>
    intro cur p p1 tr hw h
    cases cur with
    | none =>
      simp only [run_unwind] at h
      injection h with h
      injection h with h _
      subst h
      exact ⟨hw, same_ctl_refl _⟩
    | some x => simp [run_unwind] at h
  | succ n ih =>
    intro cur p p1 tr hw h
    cases cur with
    | none =>
      simp only [run_unwind] at h
      injection h with h
      injection h with h _
      subst h
      exact ⟨hw, same_ctl_refl _⟩
    | some x =>
      simp only [run_unwind] at h
      cases hf : find_item p x with
      | none => simp [hf] at h
      | some i =>
        simp only [hf] at h
        split at h
        · cases hp : llist_prev p.items x none with
          | none => simp [hp] at h
          | some pr =>
            simp only [hp] at h
            exact ih hw h
        · cases hb : i.after_cb with
          | none =>
            simp only [hb] at h
            cases hp : llist_prev p.items x none with
            | none => simp [hp] at h
            | some pr =>
              simp only [hp] at h
              exact ih hw h
          | some cb =>
            simp only [hb] at h
            cases he : exec_calls p (H.after cb x) with
            | error err => simp [he] at h
            | ok p2 =>
              simp only [he] at h
              have hw2 := wf_exec_calls hw he
              have hc2 := exec_calls_ctl hw he
              cases hp : llist_prev p2.items x none with
              | none => simp [hp] at h
              | some pr =>
                simp only [hp] at h
                cases hr : run_unwind H n pr p2 with
                | error err => simp [hr] at h
                | ok r =>
                  obtain ⟨p3, tr3⟩ := r
                  simp only [hr] at h
                  injection h with h
                  injection h with h _
                  subst h
                  obtain ⟨hw3, hc3⟩ := ih hw2 hr
                  exact ⟨hw3, same_ctl_trans hc2 hc3⟩

end Rtpoll

namespace Rtpoll

/-! ## One iteration keeps the invariant -/

theorem wf_enter {p : pa_rtpoll} (hw : wf p) : wf { p with running := true } :=
  ⟨hw.ids_nodup, hw.ids_lt, hw.used_eq, hw.n_pos, hw.cap1, hw.cap2, hw.ptr_ok, hw.layout,
    hw.dead_scan, fun h => by simp at h, hw.alloc_lt⟩

theorem wf_run_wait_phase {b : Build} {H : Hooks} {w : Sys} {p p1 : pa_rtpoll} {r : Int}
    {tr : List Event} (hw : wf p) (h : run_wait_phase b H w p = .ok (p1, r, tr)) : wf p1 := by
  unfold run_wait_phase at h
  split at h
  · cases h
  · rename_i q tr1 hq
    have hwq : wf q := by
      split at hq
      · cases hr : rtpoll_rebuild p with
        | error err => simp [hr] at hq
        | ok p2 =>
          simp only [hr] at hq
          injection hq with hq
          injection hq with hq _
          subst hq
          exact wf_rebuild hw hr
      · injection hq with hq
        injection hq with hq _
        subst hq
        exact hw
    cases hwt : run_wait b w q with
    | error err => simp [hwt] at h
    | ok x =>
      obtain ⟨p2, r2, tr2⟩ := x
      simp only [hwt] at h
      cases ha : run_after H (handles p2) p2 with
      | error err => simp [ha] at h
      | ok y =>
        obtain ⟨p3, tr3⟩ := y
        simp only [ha] at h
        injection h with h
        injection h with h _
        subst h
        exact (wf_run_after (wf_run_wait hwq hwt) ha).1

theorem wf_run_dispatch {b : Build} {H : Hooks} {w : Sys} {fuel : Nat} {p p1 : pa_rtpoll}
    {r : Int} {tr : List Event} (hw : wf p) (h : run_dispatch b H w fuel p = .ok (p1, r, tr)) :
    wf p1 := by
  unfold run_dispatch at h
  cases hb : run_before H (handles p) { p with running := true } with
  | error err => simp [hb] at h
  | ok x =>
    obtain ⟨p2, tr2, a⟩ := x
    have hw2 := (wf_run_before (wf_enter hw) hb).1
    cases a with
    | some hd =>
      simp only [hb] at h
      cases hp : llist_prev p2.items hd none with
      | none => simp [hp] at h
      | some pr =>
        simp only [hp] at h
        cases hu : run_unwind H fuel pr p2 with
        | error err => simp [hu] at h
        | ok y =>
          obtain ⟨p3, tr3⟩ := y
          simp only [hu] at h
          injection h with h
          injection h with h _
          subst h
          exact (wf_run_unwind hw2 hu).1
    | none =>
      simp only [hb] at h
      cases hp : run_wait_phase b H w p2 with
      | error err => simp [hp] at h
      | ok y =>
        obtain ⟨p3, r3, tr3⟩ := y
        simp only [hp] at h
        injection h with h
        injection h with h _
        subst h
        exact wf_run_wait_phase hw2 hp

/-- How `pa_rtpoll_run` is composed: when it returns, the dispatch returned a state and
`run_finish` turned that state into the final one. -/
theorem run_ok_split {b : Build} {H : Hooks} {w : Sys} {fuel : Nat} {p p1 : pa_rtpoll}
    {r : Int} {tr : List Event} (h : pa_rtpoll_run b H w fuel p = .ok (p1, r, tr)) :
    p.running = false ∧ p.installed = true ∧
      ∃ t, run_dispatch b H w fuel p = .ok (t, r, tr) ∧ run_finish t = .ok p1 := by
  unfold pa_rtpoll_run at h
  split at h
  · cases h
  · rename_i hr
    split at h
    · cases h
    · rename_i hi
      cases hd : run_dispatch b H w fuel p with
      | error err => simp [hd] at h
      | ok x =>
        obtain ⟨t, r1, tr1⟩ := x
        simp only [hd] at h
        cases hf : run_finish t with
        | error err => simp [hf] at h
        | ok p2 =>
          simp only [hf] at h
          injection h with h
          injection h with h1 h2
          injection h2 with h2 h3
          subst h1 h2 h3
          exact ⟨by simpa using hr, by simpa using hi, t, rfl, hf⟩

theorem wf_run {b : Build} {H : Hooks} {w : Sys} {fuel : Nat} {p p1 : pa_rtpoll}
    {r : Int} {tr : List Event} (hw : wf p) (h : pa_rtpoll_run b H w fuel p = .ok (p1, r, tr)) :
    wf p1 := by
  obtain ⟨_, _, t, hd, hf⟩ := run_ok_split h
  obtain ⟨p2, hf2, hw2, _⟩ := run_finish_spec (wf_run_dispatch hw hd)
  rw [hf] at hf2
  injection hf2 with hf2
  subst hf2
  exact hw2

theorem wf_step {b : Build} {p p1 : pa_rtpoll} (hw : wf p) (hs : Step b p p1) : wf p1 := by
  cases hs
  · rename_i h; exact wf_install hw h
  · rename_i h; exact wf_exec_call hw h
  · rename_i h; exact wf_run hw h
  · exact wf_enter hw
  · rename_i h; exact wf_rebuild hw h
  · rename_i h; exact wf_run_wait hw h
  · rename_i h
    obtain ⟨p2, hf2, hw2, _⟩ := run_finish_spec hw
    rw [h] at hf2
    injection hf2 with hf2
    subst hf2
    exact hw2

/-- Every reachable state satisfies the invariant. -/
theorem reach_wf {b : Build} {p : pa_rtpoll} (hr : Reach b p) : wf p := by
  induction hr with
  | new release => exact wf_new b release
  | step p p1 _ hs ih => exact wf_step ih hs

end Rtpoll

namespace Rtpoll

/-! ## Quiet calls -/

theorem rebuilt_skel {prim t : Buffer} {l : List pa_rtpoll_item} :
    ∀ {l1 : List pa_rtpoll_item} {e : Nat}, rebuilt prim t l l1 e → skel l1 = skel l := by
  induction l with
  | nil =>
    intro l1 e h
    cases l1 with
    | nil => rfl
    | cons x xs => simp [rebuilt] at h
  | cons i l ih =>
    intro l1 e h
    cases l1 with
    | nil => simp [rebuilt] at h
    | cons x xs =>
      simp only [rebuilt] at h
      obtain ⟨hx, _, hr⟩ := h
      have := ih hr
      subst hx
      simp only [skel, List.map_cons] at this ⊢
      rw [this]
      rfl

theorem laid_out_some {l : List pa_rtpoll_item} : ∀ {e : Nat}, laid_out l e →
    ∀ x ∈ l, ∃ off, x.pollfd = some off := by
  induction l with
  | nil => intro e _ x hx; cases hx
  | cons i l ih =>
    intro e h x hx
    simp only [laid_out] at h
    rcases List.mem_cons.1 hx with rfl | hx'
    · exact ⟨e, h.1⟩
    · exact ih h.2 x hx'

theorem skel_handles (l : List pa_rtpoll_item) :
    l.map (fun i => i.id) = (skel l).map (fun c => c.1) := by
  simp [skel, core]

theorem skel_slots (l : List pa_rtpoll_item) :
    slots l = ((skel l).map (fun c => c.2.2.1)).sum := by
  induction l with
  | nil => rfl
  | cons x l ih => simp [skel, core, slots] at ih ⊢; rw [ih]

theorem skel_find (l : List pa_rtpoll_item) (h : Nat) :
    (l.find? (fun i => i.id == h)).map core = (skel l).find? (fun c => c.1 == h) := by
  induction l with
  | nil => rfl
  | cons x l ih =>
    simp only [skel, List.map_cons] at ih ⊢
    by_cases hx : x.id = h
    · rw [List.find?_cons_of_pos _ (by simpa using hx)]
      rw [List.find?_cons_of_pos _ (by simpa [core] using hx)]
      rfl
    · rw [List.find?_cons_of_neg _ (by simpa using hx)]
      rw [List.find?_cons_of_neg _ (by simpa [core] using hx)]
      exact ih

theorem handles_of_skel {p p1 : pa_rtpoll} (h : skel p1.items = skel p.items) :
    handles p1 = handles p := by
  unfold handles
  rw [skel_handles, skel_handles, h]

theorem slots_of_skel {l l1 : List pa_rtpoll_item} (h : skel l1 = skel l) :
    slots l1 = slots l := by
  rw [skel_slots, skel_slots, h]

/-- With equal skeletons a handle designates items with the same dispatch fields. -/
theorem find_of_skel {p p1 : pa_rtpoll} (hs : skel p1.items = skel p.items) {h : Nat}
    {i : pa_rtpoll_item} (hf : find_item p h = some i) :
    ∃ i1, find_item p1 h = some i1 ∧ core i1 = core i := by
  have h1 := skel_find p.items h
  have h2 := skel_find p1.items h
  rw [hs, ← h1] at h2
  unfold find_item at hf ⊢
  rw [hf] at h2
  cases hf1 : p1.items.find? (fun i => i.id == h) with
  | none => rw [hf1] at h2; simp at h2
  | some i1 =>
    rw [hf1] at h2
    exact ⟨i1, rfl, by simpa using h2⟩

theorem mem_of_skel {l l1 : List pa_rtpoll_item} (hs : skel l1 = skel l) {x : pa_rtpoll_item}
    (hx : x ∈ l) : ∃ y ∈ l1, core y = core x := by
  have : core x ∈ skel l1 := by
    rw [hs]
    exact List.mem_map_of_mem _ hx
  obtain ⟨y, hy, hyx⟩ := List.mem_map.1 this
  exact ⟨y, hy, hyx⟩

theorem call_quiet_of_skel {p p1 : pa_rtpoll} (hs : skel p1.items = skel p.items) {c : Call}
    (hq : call_quiet p c) : call_quiet p1 c := by
  cases c with
  | item_get_pollfd i =>
    simp only [call_quiet] at hq ⊢
    rw [handles_of_skel hs]; exact hq
  | store i k v =>
    simp only [call_quiet] at hq ⊢
    obtain ⟨x, hx, hxi, hk⟩ := hq
    obtain ⟨y, hy, hyx⟩ := mem_of_skel hs hx
    simp only [core, Prod.mk.injEq] at hyx
    exact ⟨y, hy, by rw [hyx.1]; exact hxi, by rw [hyx.2.2.1]; exact hk⟩
  | item_set_userdata i u =>
    simp only [call_quiet] at hq ⊢
    rw [handles_of_skel hs]; exact hq
  | set_itimer usec => trivial
  | item_new n => exact hq.elim
  | item_free i => exact hq.elim
  | item_set_before_callback i cb => exact hq.elim
  | item_set_after_callback i cb => exact hq.elim

theorem core_fields {x y : pa_rtpoll_item} (h : core y = core x) :
    y.id = x.id ∧ y.dead = x.dead ∧ y.n_pollfd = x.n_pollfd ∧ y.before_cb = x.before_cb ∧
      y.after_cb = x.after_cb := by
  simp only [core, Prod.mk.injEq] at h
  exact h

theorem hooks_quiet_of_skel {H : Hooks} {p p1 : pa_rtpoll}
    (hs : skel p1.items = skel p.items) (hq : hooks_quiet H p) : hooks_quiet H p1 := by
  intro x1 hx1
  obtain ⟨x, hx, hc⟩ := mem_of_skel hs.symm hx1
  simp only [core, Prod.mk.injEq] at hc
  obtain ⟨hid, _, _, hbc, hac⟩ := hc
  refine ⟨fun cb hcb c hcm => ?_, fun cb hcb c hcm => ?_⟩
  · rw [← hid] at hcm
    exact call_quiet_of_skel hs ((hq x hx).1 cb (by rw [hbc]; exact hcb) c hcm)
  · rw [← hid] at hcm
    exact call_quiet_of_skel hs ((hq x hx).2 cb (by rw [hac]; exact hcb) c hcm)

/-- The calls of the pre-wait hook of an item looked up by handle are quiet. -/
theorem quiet_before {H : Hooks} {p : pa_rtpoll} (hq : hooks_quiet H p) {x y : pa_rtpoll_item}
    (hy : find_item p x.id = some y) (hc : core y = core x) {cb : Nat}
    (hb : x.before_cb = some cb) : ∀ c ∈ (H.before cb x.id).1, call_quiet p c := by
  obtain ⟨hid, _, _, hbc, _⟩ := core_fields hc
  have := (hq y (find_item_some hy).1).1 cb (by rw [hbc]; exact hb)
  rw [hid] at this
  exact this

/-- The calls of the post-wait hook of an item looked up by handle are quiet. -/
theorem quiet_after {H : Hooks} {p : pa_rtpoll} (hq : hooks_quiet H p) {x y : pa_rtpoll_item}
    (hy : find_item p x.id = some y) (hc : core y = core x) {cb : Nat}
    (hb : x.after_cb = some cb) : ∀ c ∈ H.after cb x.id, call_quiet p c := by
  obtain ⟨hid, _, _, _, hac⟩ := core_fields hc
  have := (hq y (find_item_some hy).1).2 cb (by rw [hac]; exact hb)
  rw [hid] at this
  exact this

/-- A pending rebuild is carried out, or nothing happens: the outcome of the first two
lines of `pa_rtpoll_item_get_pollfd`. -/
theorem maybe_rebuild_spec {p : pa_rtpoll} (hw : wf p) (hfit : 2 * slots p.items < UINT_MOD) :
    ∃ p1, (if p.rebuild_needed then rtpoll_rebuild p else .ok p) = .ok p1 ∧ wf p1 ∧
      p1.rebuild_needed = false ∧ skel p1.items = skel p.items ∧
      p1.n_pollfd_used = p.n_pollfd_used ∧ p1.scan_for_dead = p.scan_for_dead ∧
      p1.interval = p.interval ∧ p1.interval_timespec = p.interval_timespec ∧
      same_ctl p p1 := by
  by_cases hr : p.rebuild_needed = true
  · obtain ⟨p1, h1⟩ := rebuild_succeeds hw hfit
    obtain ⟨hreb, hrn, _, _, _, _, hu, hrun, hscan, hinst, hint, hsig, hts, hdont, _⟩ :=
      rebuild_spec hw h1
    refine ⟨p1, by rw [if_pos hr]; exact h1, wf_rebuild hw h1, hrn, rebuilt_skel hreb, hu,
      hscan, hint, hts, hrun, hinst, hdont, hsig⟩
  · refine ⟨p, by rw [if_neg hr], hw, by simpa using hr, rfl, rfl, rfl, rfl, rfl,
      same_ctl_refl _⟩

/-- `pa_rtpoll_item_get_pollfd` on a linked item returns its materialised slice. -/
theorem get_pollfd_spec {p : pa_rtpoll} {h : Nat} (hw : wf p)
    (hfit : 2 * slots p.items < UINT_MOD) (hh : h ∈ handles p) :
    ∃ p1 i off, pa_rtpoll_item_get_pollfd p h = .ok (p1, some off, i.n_pollfd) ∧
      (if p.rebuild_needed then rtpoll_rebuild p else .ok p) = .ok p1 ∧
      find_item p1 h = some i ∧ i.pollfd = some off ∧
      off + i.n_pollfd ≤ p1.pollfd.length ∧ wf p1 ∧
      p1.rebuild_needed = false ∧ skel p1.items = skel p.items ∧
      p1.n_pollfd_used = p.n_pollfd_used ∧ p1.scan_for_dead = p.scan_for_dead ∧
      p1.interval = p.interval ∧ p1.interval_timespec = p.interval_timespec ∧
      same_ctl p p1 := by
  obtain ⟨i0, hi0⟩ := find_item_of_mem hh
  obtain ⟨p1, hmr, hw1, hrn, hsk, hu, hsc, hint, hts, hctl⟩ := maybe_rebuild_spec hw hfit
  obtain ⟨i, hi, _⟩ := find_of_skel hsk hi0
  obtain ⟨off, hoff⟩ := laid_out_some (hw1.layout hrn).1 i (find_item_some hi).1
  refine ⟨p1, i, off, ?_, hmr, hi, hoff, hw1.ptr_ok i (find_item_some hi).1 off hoff, hw1, hrn,
    hsk, hu, hsc, hint, hts, hctl⟩
  unfold pa_rtpoll_item_get_pollfd
  simp only [hi0, hmr, hi, hoff]

end Rtpoll

namespace Rtpoll

theorem same_shape_refl (p : pa_rtpoll) : same_shape p p := ⟨rfl, rfl, rfl, same_ctl_refl _⟩

theorem same_shape_trans {p p1 p2 : pa_rtpoll} (h1 : same_shape p p1) (h2 : same_shape p1 p2) :
    same_shape p p2 :=
  ⟨h2.1.trans h1.1, h2.2.1.trans h1.2.1, h2.2.2.1.trans h1.2.2.1,
    same_ctl_trans h1.2.2.2 h2.2.2.2⟩

theorem skel_update_item (h : Nat) (f : pa_rtpoll_item → pa_rtpoll_item)
    (hf : ∀ i, core (f i) = core i) (l : List pa_rtpoll_item) :
    skel (update_item h f l) = skel l := by
  induction l with
  | nil => rfl
  | cons x l ih =>
    simp only [skel, update_item, List.map_cons] at ih ⊢
    rw [ih]
    by_cases hx : x.id = h <;> simp [hx, hf]

theorem fits_of_shape {p p1 : pa_rtpoll} (hs : same_shape p p1)
    (hfit : 2 * slots p.items < UINT_MOD) : 2 * slots p1.items < UINT_MOD := by
  rw [slots_of_skel hs.1]; exact hfit

/-- A quiet call returns and leaves the shape of the reactor unchanged. -/
theorem exec_quiet {p : pa_rtpoll} {c : Call} (hw : wf p)
    (hfit : 2 * slots p.items < UINT_MOD) (hq : call_quiet p c) :
    ∃ p1, exec_call p c = .ok p1 ∧ wf p1 ∧ same_shape p p1 := by
  cases c with
  | item_get_pollfd i =>
    obtain ⟨p1, x, off, hg, _, _, _, _, hw1, _, hsk, hu, hsc, _, _, hctl⟩ :=
      get_pollfd_spec hw hfit hq
    exact ⟨p1, by simp [exec_call, hg], hw1, hsk, hu, hsc, hctl⟩
  | store i k v =>
    obtain ⟨x, hx, hxi, hk⟩ := hq
    have hh : i ∈ handles p := by
      unfold handles
      rw [← hxi]
      exact List.mem_map_of_mem _ hx
    obtain ⟨p1, y, off, hg, _, hfy, _, hb, hw1, _, hsk, hu, hsc, _, _, hctl⟩ :=
      get_pollfd_spec hw hfit hh
    have hxy : core y = core x := by
      have hfx : find_item p i = some x := by
        rw [← hxi]; exact find_item_mem_nodup hw.ids_nodup hx
      obtain ⟨y1, hy1, hc⟩ := find_of_skel hsk hfx
      rw [hfy] at hy1
      injection hy1 with hy1
      rw [hy1]; exact hc
    have hn : y.n_pollfd = x.n_pollfd := by
      simp only [core, Prod.mk.injEq] at hxy
      exact hxy.2.2.1
    have hcond : k < y.n_pollfd ∧ off + k < p1.pollfd.length := ⟨by omega, by omega⟩
    refine ⟨{ p1 with pollfd := p1.pollfd.set (off + k) (some v) }, ?_, ?_, ?_⟩
    · simp only [exec_call, store_slot, hg, hcond, and_self, if_true]
    · exact wf_of_eq hw1 rfl (by simp) rfl rfl rfl rfl rfl rfl rfl
    · exact ⟨hsk, hu, hsc, hctl⟩
  | item_set_userdata i u =>
    obtain ⟨x, hx⟩ := find_item_of_mem hq
    have he : exec_call p (Call.item_set_userdata i u) =
        .ok { p with items := update_item i (fun j => { j with userdata := u }) p.items } := by
      simp [exec_call, pa_rtpoll_item_set_userdata, hx]
    exact ⟨_, he, wf_exec_call hw he,
      skel_update_item i (fun j => { j with userdata := u }) (fun _ => rfl) p.items, rfl, rfl,
      same_ctl_refl _⟩
  | set_itimer usec =>
    exact ⟨_, rfl, wf_set_itimer usec hw, rfl, rfl, rfl, same_ctl_refl _⟩
  | item_new n => exact hq.elim
  | item_free i => exact hq.elim
  | item_set_before_callback i cb => exact hq.elim
  | item_set_after_callback i cb => exact hq.elim

theorem exec_calls_quiet {cs : List Call} : ∀ {p : pa_rtpoll}, wf p →
    2 * slots p.items < UINT_MOD → (∀ c ∈ cs, call_quiet p c) →
    ∃ p1, exec_calls p cs = .ok p1 ∧ wf p1 ∧ same_shape p p1 := by
  induction cs with
  | nil =>
    intro p hw _ _
    exact ⟨p, rfl, hw, same_shape_refl _⟩
  | cons c cs ih =>
    intro p hw hfit hq
    obtain ⟨p1, h1, hw1, hs1⟩ := exec_quiet hw hfit (hq c (List.mem_cons_self _ _))
    obtain ⟨p2, h2, hw2, hs2⟩ := ih hw1 (fits_of_shape hs1 hfit)
      (fun d hd => call_quiet_of_skel hs1.1 (hq d (List.mem_cons_of_mem _ hd)))
    exact ⟨p2, by simp [exec_calls, h1, h2], hw2, same_shape_trans hs1 hs2⟩

end Rtpoll

namespace Rtpoll

/-! ## Traces -/

theorem pres_append (a b : List Event) : pres (a ++ b) = pres a ++ pres b := by
  induction a with
  | nil => rfl
  | cons e a ih => cases e <;> simp [pres, ih]

theorem posts_append (a b : List Event) : posts (a ++ b) = posts a ++ posts b := by
  induction a with
  | nil => rfl
  | cons e a ih => cases e <;> simp [posts, ih]

theorem waits_append (a b : List Event) : waits (a ++ b) = waits a ++ waits b := by
  simp [waits]

theorem pre_phase_calls (cs : List Call) : ∀ e ∈ cs.map Event.call, pre_phase e = true := by
  intro e he
  obtain ⟨c, _, rfl⟩ := List.mem_map.1 he
  rfl

theorem post_phase_calls (cs : List Call) : ∀ e ∈ cs.map Event.call, post_phase e = true := by
  intro e he
  obtain ⟨c, _, rfl⟩ := List.mem_map.1 he
  rfl

theorem posts_of_pre_phase {tr : List Event} (h : ∀ e ∈ tr, pre_phase e = true) :
    posts tr = [] := by
  induction tr with
  | nil => rfl
  | cons e tr ih =>
    have he := h e (List.mem_cons_self _ _)
    have := ih (fun x hx => h x (List.mem_cons_of_mem _ hx))
    cases e <;> simp [posts, pre_phase, this] at he ⊢

theorem pres_of_post_phase {tr : List Event} (h : ∀ e ∈ tr, post_phase e = true) :
    pres tr = [] := by
  induction tr with
  | nil => rfl
  | cons e tr ih =>
    have he := h e (List.mem_cons_self _ _)
    have := ih (fun x hx => h x (List.mem_cons_of_mem _ hx))
    cases e <;> simp [pres, post_phase, this] at he ⊢

theorem waits_of_pre_phase {tr : List Event} (h : ∀ e ∈ tr, pre_phase e = true) :
    waits tr = [] := by
  unfold waits
  rw [List.filter_eq_nil_iff]
  intro e he
  have := h e he
  cases e <;> simp [pre_phase, is_wait] at this ⊢

theorem waits_of_post_phase {tr : List Event} (h : ∀ e ∈ tr, post_phase e = true) :
    waits tr = [] := by
  unfold waits
  rw [List.filter_eq_nil_iff]
  intro e he
  have := h e he
  cases e <;> simp [post_phase, is_wait] at this ⊢

theorem no_rebuild_of_pre_phase {tr : List Event} (h : ∀ e ∈ tr, pre_phase e = true) :
    Event.rebuild ∉ tr := by
  intro hm
  have := h _ hm
  simp [pre_phase] at this

theorem no_rebuild_of_post_phase {tr : List Event} (h : ∀ e ∈ tr, post_phase e = true) :
    Event.rebuild ∉ tr := by
  intro hm
  have := h _ hm
  simp [post_phase] at this

theorem pres_calls (cs : List Call) : pres (cs.map Event.call) = [] :=
  pres_of_post_phase (post_phase_calls cs)

theorem posts_calls (cs : List Call) : posts (cs.map Event.call) = [] :=
  posts_of_pre_phase (pre_phase_calls cs)

/-! ## Following the links -/

theorem llist_prev_ids {l l1 : List pa_rtpoll_item} :
    ∀ {bef : Option Nat}, l1.map (fun i => i.id) = l.map (fun i => i.id) →
    ∀ h, llist_prev l1 h bef = llist_prev l h bef := by
  induction l generalizing l1 with
  | nil =>
    intro bef hm h
    cases l1 with
    | nil => rfl
    | cons x xs => simp at hm
  | cons y l ih =>
    intro bef hm h
    cases l1 with
    | nil => simp at hm
    | cons x xs =>
      simp only [List.map_cons, List.cons.injEq] at hm
      simp only [llist_prev, hm.1]
      rw [ih hm.2]

theorem llist_prev_append {y : pa_rtpoll_item} {front rest : List pa_rtpoll_item} :
    ∀ {bef : Option Nat}, y.id ∉ front.map (fun i => i.id) →
    llist_prev (front ++ y :: rest) y.id bef = some (last_handle front bef) := by
  induction front with
  | nil =>
    intro bef _
    simp [llist_prev, last_handle]
  | cons z l ih =>
    intro bef hy
    simp only [List.map_cons, List.mem_cons, not_or] at hy
    have hne : ¬ z.id = y.id := fun he => hy.1 he.symm
    rw [List.cons_append]
    simp only [llist_prev, hne, if_false, last_handle]
    exact ih hy.2

theorem last_handle_concat (l : List pa_rtpoll_item) (z : pa_rtpoll_item) :
    ∀ bef, last_handle (l ++ [z]) bef = some z.id := by
  induction l with
  | nil => intro bef; rfl
  | cons x l ih =>
    intro bef
    rw [List.cons_append]
    simp only [last_handle]
    exact ih _

end Rtpoll

namespace Rtpoll

/-! ## Hook dispatch with quiet hooks -/

/-- Every item of `l` is linked in `p` with the same dispatch fields. -/
theorem lookup_of_shape {p p1 : pa_rtpoll} {l : List pa_rtpoll_item} (hs : same_shape p p1)
    (h : ∀ x ∈ l, ∃ y, find_item p x.id = some y ∧ core y = core x) :
    ∀ x ∈ l, ∃ y, find_item p1 x.id = some y ∧ core y = core x := by
  intro x hx
  obtain ⟨y, hy, hc⟩ := h x hx
  obtain ⟨y1, hy1, hc1⟩ := find_of_skel hs.1 hy
  exact ⟨y1, hy1, hc1.trans hc⟩

/-- The pre-wait dispatch with quiet hooks: it returns, stops at the first item whose hook
refuses the wait, and invokes the pre-wait hooks in list order. -/
theorem run_before_quiet {H : Hooks} (todo : List pa_rtpoll_item) :
    ∀ p : pa_rtpoll, wf p → 2 * slots p.items < UINT_MOD → hooks_quiet H p →
    (∀ x ∈ todo, ∃ y, find_item p x.id = some y ∧ core y = core x) →
    ∃ p1 tr, run_before H (todo.map (fun i => i.id)) p =
        .ok (p1, tr, (todo.find? (fun i => refuses H i)).map (fun i => i.id)) ∧
      wf p1 ∧ same_shape p p1 ∧ (∀ e ∈ tr, pre_phase e = true) ∧
      (todo.find? (fun i => refuses H i) = none → pres tr = todo.filterMap pre_of) := by
  induction todo with
  | nil =>
    intro p hw _ _ _
    exact ⟨p, [], rfl, hw, same_shape_refl _, by simp, fun _ => rfl⟩
  | cons x rest ih =>
    intro p hw hfit hq hl
    obtain ⟨y, hy, hc⟩ := hl x (List.mem_cons_self _ _)
    obtain ⟨_, hdead, _, hbc, _⟩ := core_fields hc
    have hrest : ∀ z ∈ rest, ∃ y, find_item p z.id = some y ∧ core y = core z :=
      fun z hz => hl z (List.mem_cons_of_mem _ hz)
    simp only [List.map_cons, run_before, hy]
    by_cases hd : x.dead = true
    · have hnr : refuses H x = false := by simp [refuses, pre_of, hd]
      obtain ⟨p1, tr, h1, hw1, hs1, hp1, hpr⟩ := ih p hw hfit hq hrest
      refine ⟨p1, tr, ?_, hw1, hs1, hp1, ?_⟩
      · rw [List.find?_cons_of_neg _ (by simp [hnr])]
        simp only [hdead, hd, if_true]
        exact h1
      · intro hn
        rw [List.find?_cons_of_neg _ (by simp [hnr])] at hn
        rw [hpr hn]
        simp [List.filterMap_cons, pre_of, hd]
    · have hd0 : x.dead = false := by simpa using hd
      simp only [hdead, hd0, Bool.false_eq_true, if_false]
      cases hb : x.before_cb with
      | none =>
        have hnr : refuses H x = false := by simp [refuses, pre_of, hd0, hb]
        obtain ⟨p1, tr, h1, hw1, hs1, hp1, hpr⟩ := ih p hw hfit hq hrest
        refine ⟨p1, tr, ?_, hw1, hs1, hp1, ?_⟩
        · rw [List.find?_cons_of_neg _ (by simp [hnr])]
          simp only [hbc, hb]
          exact h1
        · intro hn
          rw [List.find?_cons_of_neg _ (by simp [hnr])] at hn
          rw [hpr hn]
          simp [List.filterMap_cons, pre_of, hd0, hb]
      | some cb =>
        have hpre : pre_of x = some (cb, x.id) := by simp [pre_of, hd0, hb]
        obtain ⟨p2, he, hw2, hs2⟩ := exec_calls_quiet hw hfit (quiet_before hq hy hc hb)
        simp only [hbc, hb, he]
        by_cases hneg : (H.before cb x.id).2 < 0
        · have hr : refuses H x = true := by simp [refuses, hpre, hneg]
          refine ⟨p2, Event.before_cb cb x.id p.running ::
            (H.before cb x.id).1.map Event.call, ?_, hw2, hs2, ?_, ?_⟩
          · rw [List.find?_cons_of_pos _ (by simp [hr])]
            simp only [hneg, if_true, Option.map_some']
          · intro e hm
            rcases List.mem_cons.1 hm with rfl | hm'
            · rfl
            · exact pre_phase_calls _ e hm'
          · intro hn
            rw [List.find?_cons_of_pos _ (by simp [hr])] at hn
            cases hn
        · have hnr : refuses H x = false := by simp [refuses, hpre, hneg]
          obtain ⟨p1, tr, h1, hw1, hs1, hp1, hpr⟩ := ih p2 hw2 (fits_of_shape hs2 hfit)
            (hooks_quiet_of_skel hs2.1 hq) (lookup_of_shape hs2 hrest)
          refine ⟨p1, Event.before_cb cb x.id p.running ::
            ((H.before cb x.id).1.map Event.call ++ tr), ?_, hw1, same_shape_trans hs2 hs1,
            ?_, ?_⟩
          · rw [List.find?_cons_of_neg _ (by simp [hnr])]
            simp only [hneg, if_false, h1]
          · intro e hm
            rcases List.mem_cons.1 hm with rfl | hm'
            · rfl
            · rcases List.mem_append.1 hm' with hm2 | hm2
              · exact pre_phase_calls _ e hm2
              · exact hp1 e hm2
          · intro hn
            rw [List.find?_cons_of_neg _ (by simp [hnr])] at hn
            simp only [pres, pres_append, pres_calls, List.nil_append, hpr hn,
              List.filterMap_cons, hpre]

/-- The post-wait dispatch with quiet hooks: it returns and invokes the post-wait hook of
every item that is not dead and has one, in list order. -/
theorem run_after_quiet {H : Hooks} (todo : List pa_rtpoll_item) :
    ∀ p : pa_rtpoll, wf p → 2 * slots p.items < UINT_MOD → hooks_quiet H p →
    (∀ x ∈ todo, ∃ y, find_item p x.id = some y ∧ core y = core x) →
    ∃ p1 tr, run_after H (todo.map (fun i => i.id)) p = .ok (p1, tr) ∧
      wf p1 ∧ same_shape p p1 ∧ (∀ e ∈ tr, post_phase e = true) ∧
      posts tr = todo.filterMap post_of := by
  induction todo with
  | nil =>
    intro p hw _ _ _
    exact ⟨p, [], rfl, hw, same_shape_refl _, by simp, rfl⟩
  | cons x rest ih =>
    intro p hw hfit hq hl
    obtain ⟨y, hy, hc⟩ := hl x (List.mem_cons_self _ _)
    obtain ⟨_, hdead, _, _, hac⟩ := core_fields hc
    have hrest : ∀ z ∈ rest, ∃ y, find_item p z.id = some y ∧ core y = core z :=
      fun z hz => hl z (List.mem_cons_of_mem _ hz)
    simp only [List.map_cons, run_after, hy]
    by_cases hd : x.dead = true
    · obtain ⟨p1, tr, h1, hw1, hs1, hp1, hpr⟩ := ih p hw hfit hq hrest
      refine ⟨p1, tr, ?_, hw1, hs1, hp1, ?_⟩
      · simp only [hdead, hd, if_true]
        exact h1
      · rw [hpr]
        simp [List.filterMap_cons, post_of, hd]
    · have hd0 : x.dead = false := by simpa using hd
      simp only [hdead, hd0, Bool.false_eq_true, if_false]
      cases hb : x.after_cb with
      | none =>
        obtain ⟨p1, tr, h1, hw1, hs1, hp1, hpr⟩ := ih p hw hfit hq hrest
        refine ⟨p1, tr, ?_, hw1, hs1, hp1, ?_⟩
        · simp only [hac, hb]
          exact h1
        · rw [hpr]
          simp [List.filterMap_cons, post_of, hd0, hb]
      | some cb =>
        have hpost : post_of x = some (cb, x.id) := by simp [post_of, hd0, hb]
        obtain ⟨p2, he, hw2, hs2⟩ := exec_calls_quiet hw hfit (quiet_after hq hy hc hb)
        obtain ⟨p1, tr, h1, hw1, hs1, hp1, hpr⟩ := ih p2 hw2 (fits_of_shape hs2 hfit)
          (hooks_quiet_of_skel hs2.1 hq) (lookup_of_shape hs2 hrest)
        refine ⟨p1, Event.after_cb cb x.id p.running ::
          ((H.after cb x.id).map Event.call ++ tr), ?_, hw1, same_shape_trans hs2 hs1, ?_, ?_⟩
        · simp only [hac, hb, he, h1]
        · intro e hm
          rcases List.mem_cons.1 hm with rfl | hm'
          · rfl
          · rcases List.mem_append.1 hm' with hm2 | hm2
            · exact post_phase_calls _ e hm2
            · exact hp1 e hm2
        · simp only [posts, posts_append, posts_calls, List.nil_append, hpr,
            List.filterMap_cons, hpost]

end Rtpoll

namespace Rtpoll

/-- The unwinding loop with quiet hooks, entered at the last item of `front`: it returns
and invokes the post-wait hook of every item of `front` that is not dead and has one, from
the last item of `front` back to the head of the list. -/
theorem run_unwind_quiet {H : Hooks} (front : List pa_rtpoll_item) :
    ∀ (rest : List pa_rtpoll_item) (p : pa_rtpoll) (fuel : Nat), wf p →
    2 * slots p.items < UINT_MOD → hooks_quiet H p →
    handles p = (front ++ rest).map (fun i => i.id) →
    (∀ x ∈ front, ∃ y, find_item p x.id = some y ∧ core y = core x) →
    front.length ≤ fuel →
    ∃ p1 tr, run_unwind H fuel (last_handle front none) p = .ok (p1, tr) ∧
      wf p1 ∧ same_shape p p1 ∧ (∀ e ∈ tr, post_phase e = true) ∧
      posts tr = front.reverse.filterMap post_of := by
  induction front using List.reverseRecOn with
  | nil =>
    intro rest p fuel hw _ _ _ _ _
    refine ⟨p, [], ?_, hw, same_shape_refl _, by simp, rfl⟩
    cases fuel <;> rfl
  | append_singleton init x ih =>
    intro rest p fuel hw hfit hq hh hl hf
    obtain ⟨y, hy, hc⟩ := hl x (by simp)
    obtain ⟨_, hdead, _, _, hac⟩ := core_fields hc
    have hinit : ∀ z ∈ init, ∃ y, find_item p z.id = some y ∧ core y = core z :=
      fun z hz => hl z (List.mem_append_left _ hz)
    have hh2 : handles p = (init ++ x :: rest).map (fun i => i.id) := by
      rw [hh]; simp
    have hxn : x.id ∉ init.map (fun i => i.id) := by
      have hn := hw.ids_nodup
      rw [hh2, List.map_append, List.map_cons] at hn
      have h1 := (List.nodup_append.1 hn).2.2
      intro hm
      exact h1 hm (List.mem_cons_self _ _)
    have hprev : ∀ q : pa_rtpoll, handles q = handles p →
        llist_prev q.items x.id none = some (last_handle init none) := by
      intro q hqh
      rw [llist_prev_ids (l := init ++ x :: rest) (by
        have : q.items.map (fun i => i.id) = handles q := rfl
        rw [this, hqh, hh2]) x.id]
      exact llist_prev_append hxn
    obtain ⟨n, rfl⟩ : ∃ n, fuel = n + 1 := by
      simp only [List.length_append, List.length_singleton] at hf
      exact ⟨fuel - 1, by omega⟩
    have hf2 : init.length ≤ n := by
      simp only [List.length_append, List.length_singleton] at hf
      omega
    rw [last_handle_concat]
    simp only [run_unwind, hy]
    have hrev : (init ++ [x]).reverse.filterMap post_of =
        (match post_of x with | some a => [a] | none => []) ++
          init.reverse.filterMap post_of := by
      rw [List.reverse_append]
      simp only [List.reverse_cons, List.reverse_nil, List.nil_append, List.singleton_append,
        List.filterMap_cons]
      cases post_of x <;> rfl
    by_cases hd : x.dead = true
    · obtain ⟨p1, tr, h1, hw1, hs1, hp1, hpr⟩ := ih (x :: rest) p n hw hfit hq hh2 hinit hf2
      refine ⟨p1, tr, ?_, hw1, hs1, hp1, ?_⟩
      · simp only [hdead, hd, if_true, hprev p rfl]
        exact h1
      · rw [hrev, hpr]
        simp [post_of, hd]
    · have hd0 : x.dead = false := by simpa using hd
      simp only [hdead, hd0, Bool.false_eq_true, if_false]
      cases hb : x.after_cb with
      | none =>
        obtain ⟨p1, tr, h1, hw1, hs1, hp1, hpr⟩ :=
          ih (x :: rest) p n hw hfit hq hh2 hinit hf2
        refine ⟨p1, tr, ?_, hw1, hs1, hp1, ?_⟩
        · simp only [hac, hb, hprev p rfl]
          exact h1
        · rw [hrev, hpr]
          simp [post_of, hd0, hb]
      | some cb =>
        have hpost : post_of x = some (cb, x.id) := by simp [post_of, hd0, hb]
        obtain ⟨p2, he, hw2, hs2⟩ := exec_calls_quiet hw hfit (quiet_after hq hy hc hb)
        have hh3 : handles p2 = handles p := handles_of_skel hs2.1
        obtain ⟨p1, tr, h1, hw1, hs1, hp1, hpr⟩ := ih (x :: rest) p2 n hw2
          (fits_of_shape hs2 hfit) (hooks_quiet_of_skel hs2.1 hq) (by rw [hh3]; exact hh2)
          (lookup_of_shape hs2 hinit) hf2
        refine ⟨p1, Event.after_cb cb x.id p.running ::
          ((H.after cb x.id).map Event.call ++ tr), ?_, hw1, same_shape_trans hs2 hs1, ?_, ?_⟩
        · simp only [hac, hb, he, hprev p2 hh3, h1]
        · intro e hm
          rcases List.mem_cons.1 hm with rfl | hm'
          · rfl
          · rcases List.mem_append.1 hm' with hm2 | hm2
            · exact post_phase_calls _ e hm2
            · exact hp1 e hm2
        · rw [hrev]
          simp only [posts, posts_append, posts_calls, List.nil_append, hpr, hpost,
            List.singleton_append]

end Rtpoll

namespace Rtpoll

/-! ## Position of an item in the list -/

theorem split_at_index {α : Type} {l : List α} : ∀ {k : Nat} {x : α}, l[k]? = some x →
    l = l.take k ++ x :: l.drop (k + 1) := by
  induction l with
  | nil => intro k x h; simp at h
  | cons a l ih =>
    intro k x h
    cases k with
    | zero =>
      simp at h
      simp [h]
    | succ n =>
      simp only [List.getElem?_cons_succ] at h
      simp only [List.take_succ_cons, List.drop_succ_cons, List.cons_append]
      rw [← ih h]

theorem nodup_take_drop {l : List pa_rtpoll_item} (hn : (l.map (fun i => i.id)).Nodup)
    (k : Nat) {z y : pa_rtpoll_item} (hz : z ∈ l.take k) (hy : y ∈ l.drop k) : z.id ≠ y.id := by
  rw [← List.take_append_drop k l, List.map_append] at hn
  have := (List.nodup_append.1 hn).2.2
  intro he
  exact this (List.mem_map_of_mem _ hz) (by rw [he]; exact List.mem_map_of_mem _ hy)

theorem lookup_self {p : pa_rtpoll} (hn : (handles p).Nodup) :
    ∀ x ∈ p.items, ∃ y, find_item p x.id = some y ∧ core y = core x :=
  fun x hx => ⟨x, find_item_mem_nodup hn hx, rfl⟩

theorem mem_posts_filterMap {l : List pa_rtpoll_item} {cb h : Nat}
    (hm : (cb, h) ∈ l.filterMap post_of) : ∃ z ∈ l, z.id = h := by
  obtain ⟨z, hz, hp⟩ := List.mem_filterMap.1 hm
  refine ⟨z, hz, ?_⟩
  unfold post_of at hp
  split at hp
  · cases hp
  · cases ha : z.after_cb with
    | none => simp [ha] at hp
    | some c =>
      simp only [ha, Option.map_some', Option.some.injEq, Prod.mk.injEq] at hp
      exact hp.2

theorem reach_calls {b : Build} {cs : List Call} : ∀ {p p1 : pa_rtpoll}, Reach b p →
    exec_calls p cs = .ok p1 → Reach b p1 := by
  induction cs with
  | nil =>
    intro p p1 hr h
    simp only [exec_calls] at h
    injection h with h
    subst h
    exact hr
  | cons c cs ih =>
    intro p p1 hr h
    simp only [exec_calls] at h
    cases hc : exec_call p c with
    | error err => simp [hc] at h
    | ok p2 =>
      simp only [hc] at h
      exact ih (Reach.step p p2 hr (Step.call p p2 c hc)) h

end Rtpoll

namespace Rtpoll

/-! ## C1: the unwinding after a refused wait -/

/-- C1. Abort unwind of `pa_rtpoll_run`. For a reachable reactor that is installed and not
running, with hooks that make only quiet calls (they register, destroy and re-hook
nothing), if the item at list position `k` is the first whose pre-wait hook returns a
negative value, then for any `fuel` of at least `k` the iteration returns 0, the post-wait
hooks it invokes are exactly those of the items at positions below `k` that are not dead and
have one, from position `k - 1` down to the head, no post-wait hook of the item at
position `k` or of a later item is invoked, no wait is made and no rebuild is done. -/
theorem abort_unwind (b : Build) (H : Hooks) (w : Sys) (fuel : Nat) (s : pa_rtpoll) (k : Nat)
    (x : pa_rtpoll_item) (hreach : Reach b s) (hinst : s.installed = true)
    (hidle : s.running = false) (hfit : 2 * slots s.items < UINT_MOD)
    (hq : hooks_quiet H s) (hk : s.items[k]? = some x) (hx : refuses H x = true)
    (hfirst : ∀ y ∈ s.items.take k, refuses H y = false) (hfuel : k ≤ fuel) :
    ∃ s1 tr, pa_rtpoll_run b H w fuel s = .ok (s1, 0, tr) ∧
      posts tr = (s.items.take k).reverse.filterMap post_of ∧
      (∀ y ∈ s.items.drop k, ∀ cb, (cb, y.id) ∉ posts tr) ∧
      waits tr = [] ∧ Event.rebuild ∉ tr := by
  have hw := reach_wf hreach
  have hw0 : wf { s with running := true } := wf_enter hw
  have hsplit := split_at_index hk
  have hfind : s.items.find? (fun i => refuses H i) = some x := by
    rw [hsplit, List.find?_append]
    have h1 : (s.items.take k).find? (fun i => refuses H i) = none := by
      rw [List.find?_eq_none]
      intro y hy
      simp [hfirst y hy]
    rw [h1, List.find?_cons_of_pos _ (by simp [hx])]
    rfl
  obtain ⟨p1, tr1, h1, hw1, hs1, hp1, _⟩ := run_before_quiet (H := H) s.items
    { s with running := true } hw0 hfit hq (lookup_self hw0.ids_nodup)
  rw [hfind] at h1
  have hh1 : handles p1 = (s.items.take k ++ x :: s.items.drop (k + 1)).map (fun i => i.id) := by
    rw [handles_of_skel hs1.1, ← hsplit]
    rfl
  have hxn : x.id ∉ (s.items.take k).map (fun i => i.id) := by
    intro hm
    obtain ⟨z, hz, hzx⟩ := List.mem_map.1 hm
    refine nodup_take_drop hw.ids_nodup k hz ?_ hzx
    rw [List.drop_eq_getElem?_toList_append, hk]
    simp
  have hprev : llist_prev p1.items x.id none = some (last_handle (s.items.take k) none) := by
    rw [llist_prev_ids (l := s.items.take k ++ x :: s.items.drop (k + 1)) hh1 x.id]
    exact llist_prev_append hxn
  have hlook : ∀ z ∈ s.items.take k, ∃ y, find_item p1 z.id = some y ∧ core y = core z :=
    lookup_of_shape hs1 (fun z hz => lookup_self hw0.ids_nodup z (List.mem_of_mem_take hz))
  obtain ⟨p2, tr2, h2, hw2, _, hp2, hposts⟩ := run_unwind_quiet (H := H) (s.items.take k)
    (x :: s.items.drop (k + 1)) p1 fuel hw1 (fits_of_shape hs1 hfit)
    (hooks_quiet_of_skel hs1.1 hq) hh1 hlook
    (by rw [List.length_take]; omega)
  obtain ⟨p3, h3, _⟩ := run_finish_spec hw2
  have hrun : pa_rtpoll_run b H w fuel s = .ok (p3, 0, tr1 ++ tr2) := by
    have hd : run_dispatch b H w fuel s = .ok (p2, 0, tr1 ++ tr2) := by
      unfold run_dispatch handles
      simp only [h1, Option.map_some', hprev, h2]
    unfold pa_rtpoll_run
    simp only [hidle, hinst, hd, h3]
    simp
  have hpost : posts (tr1 ++ tr2) = (s.items.take k).reverse.filterMap post_of := by
    rw [posts_append, posts_of_pre_phase hp1, hposts]
    rfl
  refine ⟨p3, tr1 ++ tr2, hrun, hpost, ?_, ?_, ?_⟩
  · intro y hy cb hm
    rw [hpost] at hm
    obtain ⟨z, hz, hzy⟩ := mem_posts_filterMap hm
    exact nodup_take_drop hw.ids_nodup k (List.mem_reverse.1 hz) hy hzy
  · rw [waits_append, waits_of_pre_phase hp1, waits_of_post_phase hp2]
    rfl
  · intro hm
    rcases List.mem_append.1 hm with hm1 | hm1
    · exact no_rebuild_of_pre_phase hp1 hm1
    · exact no_rebuild_of_post_phase hp2 hm1

end Rtpoll

namespace Rtpoll

theorem abort_demo_reach : Reach plain_build abort_demo :=
  @reach_calls plain_build abort_setup _ _
    (Reach.step _ _ (Reach.new none)
      (Step.install _ { pa_rtpoll_new plain_build none with installed := true } 0 rfl))
    rfl

theorem abort_hooks_quiet : hooks_quiet abort_hooks abort_demo := by
  intro x hx
  simp only [abort_demo, List.mem_cons, List.mem_singleton, List.not_mem_nil, or_false] at hx
  rcases hx with rfl | rfl | rfl <;>
    refine ⟨fun cb hcb c hc => ?_, fun cb hcb c hc => ?_⟩ <;>
    simp only [Option.some.injEq] at hcb <;> subst hcb <;>
    simp [abort_hooks] at hc
  · rcases hc with rfl | rfl
    · simp [call_quiet, handles, abort_demo]
    · simp [call_quiet, abort_demo]
  · subst hc
    trivial
  · subst hc
    simp [call_quiet, handles, abort_demo]

/-- Witness for C1: in `abort_demo` (list 2, 1, 0) the hook of the item at position 1
refuses the wait; only the post-wait hook of the item at position 0 is invoked. -/
theorem abort_unwind_witness :
    ∃ s1 tr, pa_rtpoll_run plain_build abort_hooks timeout_sys 1 abort_demo = .ok (s1, 0, tr) ∧
      posts tr = [(22, 2)] ∧ waits tr = [] ∧ Event.rebuild ∉ tr := by
  obtain ⟨s1, tr, h1, h2, _, h4, h5⟩ :=
    abort_unwind plain_build abort_hooks timeout_sys 1 abort_demo 1
      { id := 1, dead := false, pollfd := none, n_pollfd := 2, before_cb := some 11,
        after_cb := some 21, userdata := none }
      abort_demo_reach rfl rfl (by decide) abort_hooks_quiet rfl (by decide)
      (by decide) (by decide)
  exact ⟨s1, tr, h1, h2, h4, h5⟩

end Rtpoll

namespace Rtpoll

/-! ## The wait and the post-wait dispatch with quiet hooks -/

theorem filterMap_post_of_skel {l l1 : List pa_rtpoll_item} (h : skel l1 = skel l) :
    l1.filterMap post_of = l.filterMap post_of := by
  have key : ∀ l : List pa_rtpoll_item, l.filterMap post_of =
      (skel l).filterMap (fun c => if c.2.1 then none else c.2.2.2.2.map (fun cb => (cb, c.1))) := by
    intro l
    simp only [skel, List.filterMap_map]
    rfl
  rw [key, key, h]

theorem filterMap_pre_of_skel {l l1 : List pa_rtpoll_item} (h : skel l1 = skel l) :
    l1.filterMap pre_of = l.filterMap pre_of := by
  have key : ∀ l : List pa_rtpoll_item, l.filterMap pre_of =
      (skel l).filterMap (fun c => if c.2.1 then none else c.2.2.2.1.map (fun cb => (cb, c.1))) := by
    intro l
    simp only [skel, List.filterMap_map]
    rfl
  rw [key, key, h]

theorem nodup_filterMap_post_of {l : List pa_rtpoll_item}
    (hn : (l.map (fun i => i.id)).Nodup) : (l.filterMap post_of).Nodup := by
  induction l with
  | nil => simp
  | cons x l ih =>
    simp only [List.map_cons, List.nodup_cons] at hn
    rw [List.filterMap_cons]
    cases hp : post_of x with
    | none => exact ih hn.2
    | some a =>
      simp only
      refine List.nodup_cons.2 ⟨?_, ih hn.2⟩
      intro hm
      obtain ⟨cb, h⟩ := a
      obtain ⟨z, hz, hzh⟩ := mem_posts_filterMap hm
      obtain ⟨z1, hz1, hzh1⟩ := @mem_posts_filterMap [x] cb h
        (by simp [List.filterMap_cons, hp])
      simp only [List.mem_singleton] at hz1
      subst hz1
      apply hn.1
      rw [hzh1, ← hzh]
      exact List.mem_map_of_mem _ hz

theorem call_ppoll_ok {w : Sys} {p : pa_rtpoll} (hb : p.n_pollfd_used ≤ p.pollfd.length) :
    ∃ p1 e, call_ppoll w p = .ok (p1, w.ret, [e]) ∧ is_wait e = true ∧ p1.items = p.items ∧
      p1.n_pollfd_used = p.n_pollfd_used ∧ p1.scan_for_dead = p.scan_for_dead ∧
      p1.rebuild_needed = p.rebuild_needed ∧ same_ctl p p1 := by
  unfold call_ppoll
  rw [if_pos hb]
  exact ⟨_, _, rfl, rfl, rfl, rfl, rfl, rfl, same_ctl_refl _⟩

theorem call_poll_ok {w : Sys} {p : pa_rtpoll} (hb : p.n_pollfd_used ≤ p.pollfd.length) :
    ∃ p1 e, call_poll w p = .ok (p1, w.ret, [e]) ∧ is_wait e = true ∧ p1.items = p.items ∧
      p1.n_pollfd_used = p.n_pollfd_used ∧ p1.scan_for_dead = p.scan_for_dead ∧
      p1.rebuild_needed = p.rebuild_needed ∧ same_ctl p p1 := by
  unfold call_poll
  rw [if_pos hb]
  exact ⟨_, _, rfl, rfl, rfl, rfl, rfl, rfl, same_ctl_refl _⟩

/-- The wait step returns when the used entries lie inside the array; it makes one wait
call, or none in the build and state of `wait_skipped`. -/
theorem run_wait_ok {b : Build} {w : Sys} {p : pa_rtpoll}
    (hb : p.n_pollfd_used ≤ p.pollfd.length) :
    ∃ p1 r tr, run_wait b w p = .ok (p1, r, tr) ∧ (∀ e ∈ tr, is_wait e = true) ∧
      tr.length = (if wait_skipped b p then 0 else 1) ∧ p1.items = p.items ∧
      p1.n_pollfd_used = p.n_pollfd_used ∧ p1.scan_for_dead = p.scan_for_dead ∧
      p1.rebuild_needed = p.rebuild_needed ∧ same_ctl p p1 := by
  unfold run_wait wait_skipped
  by_cases h1 : b.HAVE_PPOLL = true
  · by_cases h2 : b.linux = true
    · by_cases h3 : p.dont_use_ppoll = true
      · simp only [h1, h2, h3, if_true, Bool.not_true, Bool.false_eq_true, if_false,
          Bool.and_self]
        exact ⟨p, _, [], rfl, by simp, rfl, rfl, rfl, rfl, rfl, same_ctl_refl _⟩
      · obtain ⟨p1, e, hc, he, hrest⟩ := call_ppoll_ok (w := w) hb
        have h3f : p.dont_use_ppoll = false := by simpa using h3
        simp only [h1, h2, h3f, if_true, Bool.not_false, Bool.and_false, Bool.false_eq_true,
          if_false]
        exact ⟨p1, w.ret, [e], hc, by simpa using he, rfl, hrest⟩
    · obtain ⟨p1, e, hc, he, hrest⟩ := call_ppoll_ok (w := w) hb
      have h2f : b.linux = false := by simpa using h2
      simp only [h1, h2f, if_true, Bool.false_eq_true, if_false, hc, Bool.and_false,
        Bool.false_and]
      exact ⟨p1, _, [e], rfl, by simpa using he, rfl, hrest⟩
  · obtain ⟨p1, e, hc, he, hrest⟩ := call_poll_ok (w := w) hb
    have h1f : b.HAVE_PPOLL = false := by simpa using h1
    simp only [h1f, Bool.false_eq_true, if_false, hc, Bool.false_and]
    exact ⟨p1, _, [e], rfl, by simpa using he, rfl, hrest⟩

theorem waits_of_all {tr : List Event} (h : ∀ e ∈ tr, is_wait e = true) : waits tr = tr := by
  unfold waits
  exact List.filter_eq_self.2 h

theorem pres_posts_of_waits {tr : List Event} (h : ∀ e ∈ tr, is_wait e = true) :
    pres tr = [] ∧ posts tr = [] ∧ Event.rebuild ∉ tr := by
  induction tr with
  | nil => simp [pres, posts]
  | cons e tr ih =>
    have he := h e (List.mem_cons_self _ _)
    obtain ⟨h1, h2, h3⟩ := ih (fun x hx => h x (List.mem_cons_of_mem _ hx))
    cases e <;> simp [pres, posts, is_wait, h1, h2, h3] at he ⊢

end Rtpoll

namespace Rtpoll

/-- After the pre-wait dispatch, with quiet hooks: the pending rebuild, the wait and the
post-wait dispatch return; the trace is the rebuild and wait events followed by the
post-wait dispatch over the whole list. -/
theorem run_wait_phase_quiet {b : Build} {H : Hooks} {w : Sys} {p : pa_rtpoll} (hw : wf p)
    (hfit : 2 * slots p.items < UINT_MOD) (hq : hooks_quiet H p) :
    ∃ p3 r tra trb, run_wait_phase b H w p = .ok (p3, r, tra ++ trb) ∧ wf p3 ∧
      same_shape p p3 ∧ pres tra = [] ∧ posts tra = [] ∧
      (waits tra).length = (if wait_skipped b p then 0 else 1) ∧
      (∀ e ∈ trb, post_phase e = true) ∧ posts trb = p.items.filterMap post_of := by
  obtain ⟨p1, hmr, hw1, hrn, hsk, hu, hsc, _, _, hctl⟩ := maybe_rebuild_spec hw hfit
  have hs1 : same_shape p p1 := ⟨hsk, hu, hsc, hctl⟩
  have hb : p1.n_pollfd_used ≤ p1.pollfd.length := by
    have hl := (hw1.layout hrn).2
    rw [hw1.used_eq, hw1.cap1]
    exact le_trans (Nat.mod_le _ _) hl
  obtain ⟨p2, r, trw, hwait, hallw, hlen, hit, hu2, hsc2, _, hctl2⟩ :=
    run_wait_ok (b := b) (w := w) hb
  have hw2 : wf p2 := wf_run_wait hw1 hwait
  have hs2 : same_shape p1 p2 := ⟨by rw [hit], hu2, hsc2, hctl2⟩
  have hs12 := same_shape_trans hs1 hs2
  obtain ⟨p3, tr3, hafter, hw3, hs3, hp3, hposts⟩ := run_after_quiet (H := H) p2.items p2 hw2
    (fits_of_shape hs12 hfit) (hooks_quiet_of_skel hs12.1 hq) (lookup_self hw2.ids_nodup)
  have hskip : wait_skipped b p1 = wait_skipped b p := by
    unfold wait_skipped
    rw [hctl.2.2.1]
  obtain ⟨hwp, hwq, hwr⟩ := pres_posts_of_waits hallw
  by_cases hr : p.rebuild_needed = true
  · rw [if_pos hr] at hmr
    refine ⟨p3, r, Event.rebuild :: trw, tr3, ?_, hw3, same_shape_trans hs12 hs3, ?_, ?_, ?_,
      hp3, ?_⟩
    · unfold run_wait_phase handles
      simp only [hr, if_true, hmr, hwait, hafter]
      simp
    · simp [pres, hwp]
    · simp [posts, hwq]
    · have : waits (Event.rebuild :: trw) = waits trw := by simp [waits, is_wait]
      rw [this, waits_of_all hallw, hlen, hskip]
    · rw [hposts]
      exact filterMap_post_of_skel hs12.1
  · rw [if_neg hr] at hmr
    have hpp : p = p1 := by injection hmr
    subst hpp
    refine ⟨p3, r, trw, tr3, ?_, hw3, same_shape_trans hs12 hs3, hwp, hwq, ?_, hp3, ?_⟩
    · unfold run_wait_phase handles
      simp only [hrn, Bool.false_eq_true, if_false, hwait, hafter]
      simp
    · rw [waits_of_all hallw, hlen, hskip]
    · rw [hposts]
      exact filterMap_post_of_skel hs12.1

/-! ## C2: the iteration in which no hook refuses the wait -/

/-- C2. Non-aborting iteration. For a reachable reactor that is installed and not running,
with hooks that make only quiet calls, if no pre-wait hook that is invoked returns a
negative value then the iteration returns and its trace splits in two parts: the first
holds every pre-wait hook invocation (in list order) and the wait, and no post-wait hook
invocation; the second holds the post-wait hook invocations, which are those of every item
that is not dead and has a post-wait hook, each exactly once, in list order from head to
tail. The first part contains exactly one wait call, except in the build and state in which
no wait call is compiled. -/
theorem forward_dispatch (b : Build) (H : Hooks) (w : Sys) (fuel : Nat) (s : pa_rtpoll)
    (hreach : Reach b s) (hinst : s.installed = true) (hidle : s.running = false)
    (hfit : 2 * slots s.items < UINT_MOD) (hq : hooks_quiet H s)
    (hnone : ∀ y ∈ s.items, refuses H y = false) :
    ∃ s1 r tr1 tr2, pa_rtpoll_run b H w fuel s = .ok (s1, r, tr1 ++ tr2) ∧
      pres tr1 = s.items.filterMap pre_of ∧ posts tr1 = [] ∧
      (waits tr1).length = (if wait_skipped b s then 0 else 1) ∧
      pres tr2 = [] ∧ waits tr2 = [] ∧
      posts tr2 = s.items.filterMap post_of ∧ (posts tr2).Nodup ∧
      posts (tr1 ++ tr2) = s.items.filterMap post_of := by
  have hw := reach_wf hreach
  have hw0 : wf { s with running := true } := wf_enter hw
  have hfind : s.items.find? (fun i => refuses H i) = none := by
    rw [List.find?_eq_none]
    intro y hy
    simp [hnone y hy]
  obtain ⟨p1, tr1, h1, hw1, hs1, hp1, hpres⟩ := run_before_quiet (H := H) s.items
    { s with running := true } hw0 hfit hq (lookup_self hw0.ids_nodup)
  rw [hfind] at h1
  obtain ⟨p3, r, tra, trb, h2, hw3, hs3, hpa, hqa, hwa, hpb, hposts⟩ :=
    run_wait_phase_quiet (b := b) (H := H) (w := w) hw1 (fits_of_shape hs1 hfit)
      (hooks_quiet_of_skel hs1.1 hq)
  obtain ⟨p4, h4, _⟩ := run_finish_spec hw3
  have hrun : pa_rtpoll_run b H w fuel s = .ok (p4, r, (tr1 ++ tra) ++ trb) := by
    have hd : run_dispatch b H w fuel s = .ok (p3, r, (tr1 ++ tra) ++ trb) := by
      unfold run_dispatch handles
      simp only [h1, Option.map_none', h2, List.append_assoc]
    unfold pa_rtpoll_run
    simp only [hidle, hinst, hd, h4]
    simp
  have hskip : wait_skipped b p1 = wait_skipped b s := by
    unfold wait_skipped
    rw [hs1.2.2.2.2.2.1]
  have hposts2 : posts trb = s.items.filterMap post_of := by
    rw [hposts]
    exact filterMap_post_of_skel hs1.1
  refine ⟨p4, r, tr1 ++ tra, trb, hrun, ?_, ?_, ?_, pres_of_post_phase hpb,
    waits_of_post_phase hpb, hposts2, ?_, ?_⟩
  · rw [pres_append, hpa, hpres hfind]
    simp
  · rw [posts_append, hqa, posts_of_pre_phase hp1]
    rfl
  · rw [waits_append, waits_of_pre_phase hp1, List.nil_append, hwa, hskip]
  · rw [hposts2]
    exact nodup_filterMap_post_of hw.ids_nodup
  · rw [posts_append, posts_append, hqa, posts_of_pre_phase hp1, hposts2]
    rfl

end Rtpoll

namespace Rtpoll

theorem pair_demo_reach : Reach linux_build pair_demo :=
  @reach_calls linux_build pair_setup _ _
    (Reach.step _ _ (Reach.new (some (2, 6, 20)))
      (Step.install _
        { pa_rtpoll_new linux_build (some (2, 6, 20)) with installed := true, rtsig := 34 }
        34 rfl))
    rfl

theorem pair_hooks_quiet : hooks_quiet pair_hooks pair_demo := by
  intro x hx
  simp only [pair_demo, List.mem_cons, List.mem_singleton, List.not_mem_nil, or_false] at hx
  rcases hx with rfl | rfl <;>
    refine ⟨fun cb hcb c hc => ?_, fun cb hcb c hc => ?_⟩ <;>
    simp only [Option.some.injEq] at hcb <;> subst hcb <;>
    simp [pair_hooks] at hc
  · rcases hc with rfl | rfl
    · simp [call_quiet, pair_demo]
    · simp [call_quiet, pair_demo]
  · subst hc
    simp [call_quiet, pair_demo]

theorem pair_hooks_accept : ∀ y ∈ pair_demo.items, refuses pair_hooks y = false := by
  decide

/-- Witness for C2: A (1 slot) is registered, then B (2 slots); both pre-wait hooks accept
the wait; one wait is made and then the post-wait hooks run once each, B first, then A. -/
theorem forward_dispatch_witness :
    ∃ s1 r tr1 tr2,
      pa_rtpoll_run linux_build pair_hooks timeout_sys 0 pair_demo = .ok (s1, r, tr1 ++ tr2) ∧
      pres tr1 = [(11, 1), (10, 0)] ∧ posts tr1 = [] ∧ (waits tr1).length = 1 ∧
      waits tr2 = [] ∧ posts tr2 = [(21, 1), (20, 0)] := by
  obtain ⟨s1, r, tr1, tr2, h1, h2, h3, h4, _, h6, h7, _, _⟩ :=
    forward_dispatch linux_build pair_hooks timeout_sys 0 pair_demo pair_demo_reach rfl rfl
      (by decide) pair_hooks_quiet pair_hooks_accept
  exact ⟨s1, r, tr1, tr2, h1, h2, h3, h4, h6, h7⟩

end Rtpoll

namespace Rtpoll

/-! ## C3 and C4: the wait of a build with `ppoll` -/

/-- C3, evaluated on the code. Build with `HAVE_PPOLL` and `__linux__`, `dont_use_ppoll`
clear: the reactor `pair_demo` is reachable, and when `ppoll` returns -1 with `errno` equal
to `EINTR` the iteration returns -1, not 0: the test of lines 311-312 is the `else` branch
of line 304 and is not reached after `ppoll` was called. -/
theorem interrupted_ppoll_returns_error :
    Reach linux_build pair_demo ∧ eintr_sys.ret = -1 ∧ eintr_sys.errno = EINTR ∧
      ∃ s1 tr, pa_rtpoll_run linux_build pair_hooks eintr_sys 0 pair_demo = .ok (s1, -1, tr) ∧
        waits tr = [Event.ppoll 3 none true] :=
  ⟨pair_demo_reach, rfl, rfl, _, _, rfl, rfl⟩

/-- The sibling path: in a build without `HAVE_PPOLL` the value of an interrupted `poll` is
replaced by 0. -/
theorem run_wait_normalises_poll {b : Build} {w : Sys} {p p1 : pa_rtpoll} {r : Int}
    {tr : List Event} (hb : b.HAVE_PPOLL = false) (h : run_wait b w p = .ok (p1, r, tr))
    (hneg : w.ret < 0) (he : w.errno = EINTR ∨ w.errno = EAGAIN) : r = 0 := by
  unfold run_wait at h
  simp only [hb, Bool.false_eq_true, if_false] at h
  cases hc : call_poll w p with
  | error err => simp [hc] at h
  | ok x =>
    obtain ⟨p2, r2, tr2⟩ := x
    simp only [hc] at h
    injection h with h
    injection h with _ h2
    injection h2 with h2 _
    subst h2
    unfold call_poll at hc
    split at hc
    · injection hc with hc
      injection hc with _ h3
      injection h3 with h3 _
      subst h3
      unfold normalise
      rw [if_pos ⟨hneg, he.symm⟩]
    · cases hc

theorem old_kernel_demo_reach : Reach linux_build old_kernel_demo :=
  @reach_calls linux_build pair_setup _ _
    (Reach.step _ _ (Reach.new (some (2, 6, 15)))
      (Step.install _
        { pa_rtpoll_new linux_build (some (2, 6, 15)) with installed := true } 0 rfl))
    rfl

/-- C4, evaluated on the code. Build with `HAVE_PPOLL` and `__linux__`, reactor created on
kernel 2.6.15 so that `dont_use_ppoll` is set: the reactor `old_kernel_demo` is reachable,
no pre-wait hook refuses the wait, and the iteration makes no wait call at all (neither
`ppoll` nor `poll`); it returns 0 after running the post-wait hooks. -/
theorem no_wait_when_ppoll_unusable :
    Reach linux_build old_kernel_demo ∧ old_kernel_demo.dont_use_ppoll = true ∧
      ∃ s1 tr, pa_rtpoll_run linux_build pair_hooks timeout_sys 0 old_kernel_demo =
          .ok (s1, 0, tr) ∧
        waits tr = [] ∧ posts tr = [(21, 1), (20, 0)] :=
  ⟨old_kernel_demo_reach, rfl, _, _, rfl, rfl, rfl⟩

end Rtpoll

namespace Rtpoll

/-! ## Relations kept by every call are kept by the dispatch loops -/

theorem exec_calls_rel (R : pa_rtpoll → pa_rtpoll → Prop) (hrefl : ∀ p, R p p)
    (htrans : ∀ p q r, R p q → R q r → R p r)
    (hcall : ∀ p p1 c, wf p → exec_call p c = .ok p1 → R p p1) {cs : List Call} :
    ∀ {p p1 : pa_rtpoll}, wf p → exec_calls p cs = .ok p1 → R p p1 := by
  induction cs with
  | nil =>
    intro p p1 _ h
    simp only [exec_calls] at h
    injection h with h
    subst h
    exact hrefl _
  | cons c cs ih =>
    intro p p1 hw h
    simp only [exec_calls] at h
    cases hc : exec_call p c with
    | error err => simp [hc] at h
    | ok p2 =>
      simp only [hc] at h
      exact htrans _ _ _ (hcall _ _ _ hw hc) (ih (wf_exec_call hw hc) h)

theorem run_before_rel (R : pa_rtpoll → pa_rtpoll → Prop) (hrefl : ∀ p, R p p)
    (htrans : ∀ p q r, R p q → R q r → R p r)
    (hcall : ∀ p p1 c, wf p → exec_call p c = .ok p1 → R p p1) {H : Hooks}
    {todo : List Nat} : ∀ {p p1 : pa_rtpoll} {tr : List Event} {a : Option Nat}, wf p →
    run_before H todo p = .ok (p1, tr, a) → R p p1 := by
  induction todo with
  | nil =>
    intro p p1 tr a _ h
    simp only [run_before] at h
    injection h with h
    injection h with h _
    subst h
    exact hrefl _
  | cons x rest ih =>
    intro p p1 tr a hw h
    simp only [run_before] at h
    cases hf : find_item p x with
    | none => simp [hf] at h
    | some i =>
      simp only [hf] at h
      split at h
      · exact ih hw h
      · cases hb : i.before_cb with
        | none =>
          simp only [hb] at h
          exact ih hw h
        | some cb =>
          simp only [hb] at h
          cases he : exec_calls p (H.before cb x).1 with
          | error err => simp [he] at h
          | ok p2 =>
            simp only [he] at h
            have hw2 := wf_exec_calls hw he
            have hc2 := exec_calls_rel R hrefl htrans hcall hw he
            split at h
            · injection h with h
              injection h with h _
              subst h
              exact hc2
            · cases hr : run_before H rest p2 with
              | error err => simp [hr] at h
              | ok r =>
                obtain ⟨p3, tr3, a3⟩ := r
                simp only [hr] at h
                injection h with h
                injection h with h _
                subst h
                exact htrans _ _ _ hc2 (ih hw2 hr)

theorem run_after_rel (R : pa_rtpoll → pa_rtpoll → Prop) (hrefl : ∀ p, R p p)
    (htrans : ∀ p q r, R p q → R q r → R p r)
    (hcall : ∀ p p1 c, wf p → exec_call p c = .ok p1 → R p p1) {H : Hooks}
    {todo : List Nat} : ∀ {p p1 : pa_rtpoll} {tr : List Event}, wf p →
    run_after H todo p = .ok (p1, tr) → R p p1 := by
  induction todo with
  | nil =>
    intro p p1 tr _ h
    simp only [run_after] at h
    injection h with h
    injection h with h _
    subst h
    exact hrefl _
  | cons x rest ih =>
    intro p p1 tr hw h
    simp only [run_after] at h
    cases hf : find_item p x with
    | none => simp [hf] at h
    | some i =>
      simp only [hf] at h
      split at h
      · exact ih hw h
      · cases hb : i.after_cb with
        | none =>
          simp only [hb] at h
          exact ih hw h
        | some cb =>
          simp only [hb] at h
          cases he : exec_calls p (H.after cb x) with
          | error err => simp [he] at h
          | ok p2 =>
            simp only [he] at h
            have hw2 := wf_exec_calls hw he
            have hc2 := exec_calls_rel R hrefl htrans hcall hw he
            cases hr : run_after H rest p2 with
            | error err => simp [hr] at h
            | ok r =>
              obtain ⟨p3, tr3⟩ := r
              simp only [hr] at h
              injection h with h
              injection h with h _
              subst h
              exact htrans _ _ _ hc2 (ih hw2 hr)

theorem run_unwind_rel (R : pa_rtpoll → pa_rtpoll → Prop) (hrefl : ∀ p, R p p)
    (htrans : ∀ p q r, R p q → R q r → R p r)
    (hcall : ∀ p p1 c, wf p → exec_call p c = .ok p1 → R p p1) {H : Hooks}
    {fuel : Nat} : ∀ {cur : Option Nat} {p p1 : pa_rtpoll} {tr : List Event}, wf p →
    run_unwind H fuel cur p = .ok (p1, tr) → R p p1 := by
  induction fuel with
  | zero =>
    intro cur p p1 tr _ h
    cases cur with
    | none =>
      simp only [run_unwind] at h
      injection h with h
      injection h with h _
      subst h
      exact hrefl _
    | some x => simp [run_unwind] at h
  | succ n ih =>
    intro cur p p1 tr hw h
    cases cur with
    | none =>
      simp only [run_unwind] at h
      injection h with h
      injection h with h _
      subst h
      exact hrefl _
    | some x =>
      simp only [run_unwind] at h
      cases hf : find_item p x with
      | none => simp [hf] at h
      | some i =>
        simp only [hf] at h
        split at h
        · cases hp : llist_prev p.items x none with
          | none => simp [hp] at h
          | some pr =>
            simp only [hp] at h
            exact ih hw h
        · cases hb : i.after_cb with
          | none =>
            simp only [hb] at h
            cases hp : llist_prev p.items x none with
            | none => simp [hp] at h
            | some pr =>
              simp only [hp] at h
              exact ih hw h
          | some cb =>
            simp only [hb] at h
            cases he : exec_calls p (H.after cb x) with
            | error err => simp [he] at h
            | ok p2 =>
              simp only [he] at h
              have hw2 := wf_exec_calls hw he
              have hc2 := exec_calls_rel R hrefl htrans hcall hw he
              cases hp : llist_prev p2.items x none with
              | none => simp [hp] at h
              | some pr =>
                simp only [hp] at h
                cases hr : run_unwind H n pr p2 with
                | error err => simp [hr] at h
                | ok r =>
                  obtain ⟨p3, tr3⟩ := r
                  simp only [hr] at h
                  injection h with h
                  injection h with h _
                  subst h
                  exact htrans _ _ _ hc2 (ih hw2 hr)

theorem run_wait_phase_rel (R : pa_rtpoll → pa_rtpoll → Prop) (hrefl : ∀ p, R p p)
    (htrans : ∀ p q r, R p q → R q r → R p r)
    (hcall : ∀ p p1 c, wf p → exec_call p c = .ok p1 → R p p1)
    (hreb : ∀ p p1, wf p → rtpoll_rebuild p = .ok p1 → R p p1)
    (hwait : ∀ b w p p1 r tr, wf p → run_wait b w p = .ok (p1, r, tr) → R p p1)
    {b : Build} {H : Hooks} {w : Sys} {p p1 : pa_rtpoll} {r : Int}
    {tr : List Event} (hw : wf p) (h : run_wait_phase b H w p = .ok (p1, r, tr)) :
    R p p1 := by
  unfold run_wait_phase at h
  split at h
  · cases h
  · rename_i q tr1 hq
    have hwq : wf q ∧ R p q := by
      split at hq
      · cases hr : rtpoll_rebuild p with
        | error err => simp [hr] at hq
        | ok p3 =>
          simp only [hr] at hq
          injection hq with hq
          injection hq with hq _
          subst hq
          exact ⟨wf_rebuild hw hr, hreb _ _ hw hr⟩
      · injection hq with hq
        injection hq with hq _
        subst hq
        exact ⟨hw, hrefl _⟩
    cases hwt : run_wait b w q with
    | error err => simp [hwt] at h
    | ok x =>
      obtain ⟨p3, r3, tr3⟩ := x
      simp only [hwt] at h
      cases ha : run_after H (handles p3) p3 with
      | error err => simp [ha] at h
      | ok y =>
        obtain ⟨p4, tr4⟩ := y
        simp only [ha] at h
        injection h with h
        injection h with h _
        subst h
        exact htrans _ _ _ hwq.2 (htrans _ _ _ (hwait _ _ _ _ _ _ hwq.1 hwt)
          (run_after_rel R hrefl htrans hcall (wf_run_wait hwq.1 hwt) ha))

/-- The dispatch part of an iteration keeps every relation that is reflexive, transitive,
kept by every call, by the rebuild and by the wait, and by setting `running`. -/
theorem run_dispatch_rel (R : pa_rtpoll → pa_rtpoll → Prop) (hrefl : ∀ p, R p p)
    (htrans : ∀ p q r, R p q → R q r → R p r)
    (hcall : ∀ p p1 c, wf p → exec_call p c = .ok p1 → R p p1)
    (henter : ∀ p, R p { p with running := true })
    (hreb : ∀ p p1, wf p → rtpoll_rebuild p = .ok p1 → R p p1)
    (hwait : ∀ b w p p1 r tr, wf p → run_wait b w p = .ok (p1, r, tr) → R p p1)
    {b : Build} {H : Hooks} {w : Sys} {fuel : Nat} {p p1 : pa_rtpoll} {r : Int}
    {tr : List Event} (hw : wf p) (h : run_dispatch b H w fuel p = .ok (p1, r, tr)) :
    R p p1 := by
  unfold run_dispatch at h
  cases hb : run_before H (handles p) { p with running := true } with
  | error err => simp [hb] at h
  | ok x =>
    obtain ⟨p2, tr2, a⟩ := x
    have hw2 := (wf_run_before (wf_enter hw) hb).1
    have hr2 : R p p2 := htrans _ _ _ (henter p)
      (run_before_rel R hrefl htrans hcall (wf_enter hw) hb)
    cases a with
    | some hd =>
      simp only [hb] at h
      cases hp : llist_prev p2.items hd none with
      | none => simp [hp] at h
      | some pr =>
        simp only [hp] at h
        cases hu : run_unwind H fuel pr p2 with
        | error err => simp [hu] at h
        | ok y =>
          obtain ⟨p3, tr3⟩ := y
          simp only [hu] at h
          injection h with h
          injection h with h _
          subst h
          exact htrans _ _ _ hr2 (run_unwind_rel R hrefl htrans hcall hw2 hu)
    | none =>
      simp only [hb] at h
      cases hp : run_wait_phase b H w p2 with
      | error err => simp [hp] at h
      | ok y =>
        obtain ⟨p3, r3, tr3⟩ := y
        simp only [hp] at h
        injection h with h
        injection h with h _
        subst h
        exact htrans _ _ _ hr2 (run_wait_phase_rel R hrefl htrans hcall hreb hwait hw2 hp)

end Rtpoll

namespace Rtpoll

/-! ## C5: the used count -/

theorem rebuild_item_error {i : pa_rtpoll_item} {prim t : Buffer} {e : Nat} {err : Err}
    (h : rebuild_item i prim e t = .error err) : err = .ub := by
  unfold rebuild_item at h
  split at h
  · split at h
    · split at h
      · cases h
      · injection h with h; exact h.symm
    · split at h
      · cases h
      · injection h with h; exact h.symm
  · cases h

theorem rebuild_items_error {l : List pa_rtpoll_item} : ∀ {prim t : Buffer} {e : Nat}
    {err : Err}, rebuild_items l prim e t = .error err → err = .ub := by
  induction l with
  | nil => intro prim t e err h; simp [rebuild_items] at h
  | cons i l ih =>
    intro prim t e err h
    simp only [rebuild_items] at h
    cases hi : rebuild_item i prim e t with
    | error e1 =>
      simp only [hi] at h
      injection h with h
      subst h
      exact rebuild_item_error hi
    | ok r =>
      obtain ⟨i1, ta⟩ := r
      simp only [hi] at h
      cases hr : rebuild_items l prim (e + i.n_pollfd) ta with
      | error e1 =>
        simp only [hr] at h
        injection h with h
        subst h
        exact ih hr
      | ok r2 =>
        obtain ⟨rest1, e2, tb⟩ := r2
        simp [hr] at h

theorem rebuild_into_no_assert {p : pa_rtpoll} {alloc : Nat} {scratch other : Buffer}
    (hw : wf p) : rebuild_into p alloc scratch other ≠ .error .assertion := by
  intro h
  unfold rebuild_into at h
  cases hr : rebuild_items p.items p.pollfd 0 scratch with
  | error err =>
    simp only [hr] at h
    injection h with h
    have := rebuild_items_error hr
    rw [h] at this
    cases this
  | ok r =>
    obtain ⟨items, e, t⟩ := r
    simp only [hr] at h
    obtain ⟨he, _⟩ := rebuild_items_ok (fun i hi => (hw.n_pos i hi).1) (Nat.zero_le _) hr
    have : e % UINT_MOD = p.n_pollfd_used := by
      rw [he, Nat.zero_add, ← hw.used_eq]
    rw [if_pos this] at h
    cases h

/-- C5. Used-count invariant. In every reachable state, between or inside iterations,
`n_pollfd_used` is the sum of the slot counts of all linked items, dead ones included,
reduced modulo 2^32; it is that sum itself when the sum fits in an unsigned; and the
assertion at the end of `rtpoll_rebuild` does not fail. -/
theorem used_count_invariant (b : Build) (s : pa_rtpoll) (hreach : Reach b s) :
    s.n_pollfd_used = slots s.items % UINT_MOD ∧
      (slots s.items < UINT_MOD → s.n_pollfd_used = slots s.items) ∧
      rtpoll_rebuild s ≠ .error .assertion := by
  have hw := reach_wf hreach
  refine ⟨hw.used_eq, fun hlt => by rw [hw.used_eq]; exact Nat.mod_eq_of_lt hlt, ?_⟩
  rw [rtpoll_rebuild_eq]
  split
  · exact rebuild_into_no_assert hw
  · exact rebuild_into_no_assert hw

theorem deferred_demo_reach : Reach linux_build deferred_demo :=
  Reach.step _ _
    (Reach.step _ _ pair_demo_reach (Step.enter pair_demo rfl rfl))
    (Step.call _ _ (Call.item_free 0) rfl)

/-- Witness for C5: inside an iteration, with participant A (1 slot) flagged dead and not
yet swept and participant B (2 slots) alive, the used count is 3. -/
theorem used_count_invariant_witness :
    deferred_demo.running = true ∧ deferred_demo.n_pollfd_used = 3 ∧
      slots deferred_demo.items = 3 ∧
      (slots deferred_demo.items < UINT_MOD →
        deferred_demo.n_pollfd_used = slots deferred_demo.items) ∧
      rtpoll_rebuild deferred_demo ≠ .error .assertion :=
  ⟨rfl, rfl, rfl, (used_count_invariant linux_build deferred_demo deferred_demo_reach).2.1,
    (used_count_invariant linux_build deferred_demo deferred_demo_reach).2.2⟩

end Rtpoll

namespace Rtpoll

/-! ## C6: the layout after a rebuild -/

theorem laid_out_index {l : List pa_rtpoll_item} : ∀ {e : Nat}, laid_out l e →
    ∀ j i, l[j]? = some i → i.pollfd = some (e + slots (l.take j)) := by
  induction l with
  | nil => intro e _ j i h; simp at h
  | cons x l ih =>
    intro e hl j i h
    simp only [laid_out] at hl
    cases j with
    | zero =>
      simp only [List.getElem?_cons_zero, Option.some.injEq] at h
      subst h
      simp [slots, hl.1]
    | succ n =>
      simp only [List.getElem?_cons_succ] at h
      rw [ih hl.2 n i h]
      simp only [List.take_succ_cons, slots]
      congr 1
      omega

theorem slots_take_step {l : List pa_rtpoll_item} {j1 j2 : Nat} {i1 : pa_rtpoll_item}
    (hlt : j1 < j2) (h1 : l[j1]? = some i1) :
    slots (l.take j1) + i1.n_pollfd ≤ slots (l.take j2) := by
  have h2 : (l.take j2)[j1]? = some i1 := by
    rw [List.getElem?_take_of_lt hlt]; exact h1
  have h3 := split_at_index h2
  have h4 : (l.take j2).take j1 = l.take j1 := by
    rw [List.take_take]
    congr 1
    omega
  rw [h4] at h3
  rw [h3, slots_append]
  simp only [slots]
  omega

/-- The layout `rtpoll_rebuild` leaves in any well-formed state. -/
theorem rebuild_layout {p p1 : pa_rtpoll} (hw : wf p) (h : rtpoll_rebuild p = .ok p1) :
    (∀ j i, p1.items[j]? = some i → i.pollfd = some (slots (p1.items.take j))) ∧
      slots p1.items = p1.n_pollfd_used ∧ p1.n_pollfd_used ≤ p1.pollfd.length ∧
      skel p1.items = skel p.items := by
  have hw1 := wf_rebuild hw h
  obtain ⟨hreb, hrn, _, _, hc1, _⟩ := rebuild_spec hw h
  obtain ⟨hl, hs⟩ := hw1.layout hrn
  have hlt : slots p1.items < UINT_MOD := lt_of_le_of_lt hs hw1.alloc_lt
  have hu : p1.n_pollfd_used = slots p1.items := by
    rw [hw1.used_eq]; exact Nat.mod_eq_of_lt hlt
  refine ⟨?_, hu.symm, by rw [hu, hc1]; exact hs, rebuilt_skel hreb⟩
  intro j i hj
  have := laid_out_index hl j i hj
  simpa using this

/-- C6. Layout after rebuild. For every sequence of calls applied to a new reactor, in
particular every sequence of `pa_rtpoll_item_new` and `pa_rtpoll_item_free`, the reactor
is idle and the rebuild returns whenever twice the registered slot total fits in an unsigned, and whenever it
returns: the item at list position `j` owns the slice that starts at the sum of the slot
counts of the items before it, slices of different items do not overlap and follow each
other in list order, the slot counts add up to `n_pollfd_used`, and the used entries lie
inside the primary array. -/
theorem layout_after_rebuild (b : Build) (release : Option (Nat × Nat × Nat))
    (cs : List Call) (s : pa_rtpoll)
    (hs : exec_calls (pa_rtpoll_new b release) cs = .ok s) :
    s.running = false ∧
    (2 * slots s.items < UINT_MOD → ∃ s1, rtpoll_rebuild s = .ok s1) ∧
    ∀ s1, rtpoll_rebuild s = .ok s1 →
      (∀ j i, s1.items[j]? = some i → i.pollfd = some (slots (s1.items.take j))) ∧
      (∀ (j1 j2 : Nat) (i1 i2 : pa_rtpoll_item), j1 < j2 → s1.items[j1]? = some i1 → s1.items[j2]? = some i2 →
        ∃ o1 o2, i1.pollfd = some o1 ∧ i2.pollfd = some o2 ∧ o1 + i1.n_pollfd ≤ o2) ∧
      slots s1.items = s1.n_pollfd_used ∧ s1.n_pollfd_used ≤ s1.pollfd.length ∧
      skel s1.items = skel s.items := by
  have hw : wf s := wf_exec_calls (wf_new b release) hs
  refine ⟨(exec_calls_ctl (wf_new b release) hs).1, fun hfit => rebuild_succeeds hw hfit, ?_⟩
  intro s1 h1
  obtain ⟨hpos, hsum, hin, hsk⟩ := rebuild_layout hw h1
  refine ⟨hpos, ?_, hsum, hin, hsk⟩
  intro j1 j2 i1 i2 hlt hi1 hi2
  exact ⟨_, _, hpos j1 i1 hi1, hpos j2 i2 hi2, slots_take_step hlt hi1⟩

/-- Witness for C6: after registering 1, 2 and 1 slots and destroying the participant with
2 slots, the rebuild returns and lays out the two remaining participants. -/
theorem layout_after_rebuild_witness :
    ∃ s1, rtpoll_rebuild layout_demo = .ok s1 ∧
      (∀ j i, s1.items[j]? = some i → i.pollfd = some (slots (s1.items.take j))) ∧
      slots s1.items = s1.n_pollfd_used ∧ s1.n_pollfd_used ≤ s1.pollfd.length ∧
      skel s1.items = skel layout_demo.items := by
  obtain ⟨_, hex, hall⟩ := layout_after_rebuild plain_build none
    [.item_new 1, .item_new 2, .item_new 1, .item_free 1] layout_demo rfl
  obtain ⟨s1, h1⟩ := hex (by decide)
  obtain ⟨h2, _, h3, h4, h5⟩ := hall s1 h1
  exact ⟨s1, h1, h2, h3, h4, h5⟩

end Rtpoll

namespace Rtpoll

/-! ## C7: the rebuild keeps the contents of the slots -/

theorem rebuilt_index {prim t : Buffer} {l : List pa_rtpoll_item} :
    ∀ {l1 : List pa_rtpoll_item} {e : Nat}, rebuilt prim t l l1 e →
    ∀ (j : Nat) (i : pa_rtpoll_item), l[j]? = some i →
      ∃ o, l1[j]? = some { i with pollfd := some o } ∧
      o + i.n_pollfd ≤ e + slots l ∧ slice t o i.n_pollfd = old_slice prim i := by
  induction l with
  | nil => intro l1 e _ j i h; simp at h
  | cons x l ih =>
    intro l1 e hr j i h
    cases l1 with
    | nil => simp [rebuilt] at hr
    | cons y ys =>
      simp only [rebuilt] at hr
      obtain ⟨hy, hsl, hrest⟩ := hr
      cases j with
      | zero =>
        simp only [List.getElem?_cons_zero, Option.some.injEq] at h
        subst h
        exact ⟨e, by simp [hy], by simp [slots], hsl⟩
      | succ n =>
        simp only [List.getElem?_cons_succ] at h
        obtain ⟨o, h1, h2, h3⟩ := ih hrest n i h
        exact ⟨o, by simpa using h1, by simp only [slots]; omega, h3⟩

theorem slice_index {a : Buffer} {o n k : Nat} (hk : k < n) :
    (slice a o n)[k]? = a[o + k]? := by
  unfold slice
  rw [List.getElem?_take_of_lt hk, List.getElem?_drop]

/-- C7. Rebuild preserves slot contents. For every reachable state in which
`rtpoll_rebuild` returns, with or without growing the arrays, and every linked item: the
item keeps its list position and all its fields but the slice pointer; its new slice lies
inside the new primary array; if it had a slice, each slot of the new slice holds what the
slot with the same index held in the old primary array; if it had none, every slot of the
new slice is zero. -/
theorem rebuild_keeps_slots (b : Build) (s s1 : pa_rtpoll) (hreach : Reach b s)
    (hr : rtpoll_rebuild s = .ok s1) (j : Nat) (i : pa_rtpoll_item)
    (hj : s.items[j]? = some i) :
    ∃ e, s1.items[j]? = some { i with pollfd := some e } ∧
      e + i.n_pollfd ≤ s1.pollfd.length ∧
      (∀ off, i.pollfd = some off → off + i.n_pollfd ≤ s.pollfd.length ∧
        ∀ k, k < i.n_pollfd → s1.pollfd[e + k]? = s.pollfd[off + k]?) ∧
      (i.pollfd = none → ∀ k, k < i.n_pollfd → s1.pollfd[e + k]? = some (some zero_pollfd)) := by
  have hw := reach_wf hreach
  obtain ⟨hreb, _, _, hsl, hc1, _⟩ := rebuild_spec hw hr
  obtain ⟨e, h1, h2, h3⟩ := rebuilt_index hreb j i hj
  have hmem : i ∈ s.items := List.getElem?_mem hj
  refine ⟨e, h1, by rw [hc1]; omega, ?_, ?_⟩
  · intro off hoff
    refine ⟨hw.ptr_ok i hmem off hoff, ?_⟩
    intro k hk
    have h4 : slice s1.pollfd e i.n_pollfd = slice s.pollfd off i.n_pollfd := by
      rw [h3]; simp [old_slice, hoff]
    rw [← slice_index hk, h4, slice_index hk]
  · intro hnone k hk
    have h4 : slice s1.pollfd e i.n_pollfd = List.replicate i.n_pollfd (some zero_pollfd) := by
      rw [h3]; simp [old_slice, hnone]
    rw [← slice_index hk, h4]
    simp [hk]

theorem grow_demo_reach : Reach plain_build grow_demo :=
  @reach_calls plain_build [.item_new 1, .store 0 0 ⟨5, 1, 0⟩, .item_new 40] _ _
    (Reach.new none) rfl

/-- Witness for C7: in `grow_demo` 41 slots are used with a capacity of 32; the rebuild
grows the arrays to 82 entries, and the slot of the participant with handle 0 still holds
descriptor 5. -/
theorem rebuild_keeps_slots_witness :
    grow_demo.n_pollfd_alloc < grow_demo.n_pollfd_used ∧
      ∃ s1, rtpoll_rebuild grow_demo = .ok s1 ∧ s1.n_pollfd_alloc = 82 ∧
        ∃ e i, s1.items[1]? = some i ∧ i.id = 0 ∧ i.pollfd = some e ∧
          s1.pollfd[e + 0]? = some (some ⟨5, 1, 0⟩) := by
  refine ⟨by decide, ?_⟩
  obtain ⟨s1, h1⟩ := rebuild_succeeds (reach_wf grow_demo_reach) (by decide)
  obtain ⟨e, h2, _, h3, _⟩ := rebuild_keeps_slots plain_build grow_demo s1 grow_demo_reach h1 1
    { id := 0, dead := false, pollfd := some 0, n_pollfd := 1, before_cb := none,
      after_cb := none, userdata := none } rfl
  have h4 := (rebuild_spec (reach_wf grow_demo_reach) h1).2.2.1
  exact ⟨s1, h1, h4, e, _, h2, rfl, rfl, ((h3 0 rfl).2 0 (by decide)).trans rfl⟩

end Rtpoll

namespace Rtpoll

/-! ## C8: the capacity -/

theorem rebuild_alloc_le {p p1 : pa_rtpoll} (hw : wf p) (h : rtpoll_rebuild p = .ok p1) :
    p.n_pollfd_alloc ≤ p1.n_pollfd_alloc := by
  obtain ⟨_, _, hal, hsl, _⟩ := rebuild_spec hw h
  by_cases hc : p.n_pollfd_used > p.n_pollfd_alloc
  · have hu : p.n_pollfd_used ≤ slots p.items := by
      rw [hw.used_eq]; exact Nat.mod_le _ _
    omega
  · rw [hal, if_neg hc]

theorem maybe_rebuild_alloc_le {p p1 : pa_rtpoll} (hw : wf p)
    (h : (if p.rebuild_needed then rtpoll_rebuild p else .ok p) = .ok p1) :
    p.n_pollfd_alloc ≤ p1.n_pollfd_alloc := by
  split at h
  · exact rebuild_alloc_le hw h
  · injection h with h
    subst h
    exact Nat.le_refl _

theorem get_pollfd_alloc_le {p p1 : pa_rtpoll} {h : Nat} {ptr : Option Nat} {n : Nat}
    (hw : wf p) (hg : pa_rtpoll_item_get_pollfd p h = .ok (p1, ptr, n)) :
    p.n_pollfd_alloc ≤ p1.n_pollfd_alloc := by
  unfold pa_rtpoll_item_get_pollfd at hg
  cases hf : find_item p h with
  | none => simp [hf] at hg
  | some i =>
    simp only [hf] at hg
    cases hr : (if p.rebuild_needed then rtpoll_rebuild p else .ok p) with
    | error err => simp [hr] at hg
    | ok p2 =>
      simp only [hr] at hg
      cases hf2 : find_item p2 h with
      | none => simp [hf2] at hg
      | some j =>
        simp only [hf2] at hg
        injection hg with hg
        injection hg with hg _
        subst hg
        exact maybe_rebuild_alloc_le hw hr

theorem exec_call_alloc_le {p p1 : pa_rtpoll} {c : Call} (hw : wf p)
    (h : exec_call p c = .ok p1) : p.n_pollfd_alloc ≤ p1.n_pollfd_alloc := by
  cases c with
  | item_new n =>
    simp only [exec_call] at h
    cases hn : pa_rtpoll_item_new p n with
    | error err => simp [hn] at h
    | ok r =>
      obtain ⟨p2, hd⟩ := r
      simp only [hn] at h
      injection h with h
      subst h
      unfold pa_rtpoll_item_new at hn
      split at hn
      · cases hn
      · injection hn with hn
        injection hn with hn _
        subst hn
        exact Nat.le_refl _
  | item_free i =>
    simp only [exec_call, pa_rtpoll_item_free, rtpoll_item_destroy] at h
    cases hf : find_item p i with
    | none => simp [hf] at h
    | some x =>
      simp only [hf] at h
      split at h
      · injection h with h
        subst h
        exact Nat.le_refl _
      · injection h with h
        subst h
        exact Nat.le_refl _
  | item_get_pollfd i =>
    simp only [exec_call] at h
    cases hn : pa_rtpoll_item_get_pollfd p i with
    | error err => simp [hn] at h
    | ok r =>
      obtain ⟨p2, ptr, n⟩ := r
      simp only [hn] at h
      injection h with h
      subst h
      exact get_pollfd_alloc_le hw hn
  | store i k v =>
    simp only [exec_call, store_slot] at h
    cases hg : pa_rtpoll_item_get_pollfd p i with
    | error err => simp [hg] at h
    | ok r =>
      obtain ⟨p2, ptr, n⟩ := r
      simp only [hg] at h
      cases ptr with
      | none => simp at h
      | some off =>
        simp only at h
        split at h
        · injection h with h
          subst h
          exact @get_pollfd_alloc_le p p2 _ _ _ hw hg
        · cases h
  | item_set_before_callback i cb =>
    simp only [exec_call, pa_rtpoll_item_set_before_callback] at h
    split at h
    · cases h
    · injection h with h
      subst h
      exact Nat.le_refl _
  | item_set_after_callback i cb =>
    simp only [exec_call, pa_rtpoll_item_set_after_callback] at h
    split at h
    · cases h
    · injection h with h
      subst h
      exact Nat.le_refl _
  | item_set_userdata i u =>
    simp only [exec_call, pa_rtpoll_item_set_userdata] at h
    split at h
    · cases h
    · injection h with h
      subst h
      exact Nat.le_refl _
  | set_itimer usec =>
    simp only [exec_call] at h
    injection h with h
    subst h
    exact Nat.le_refl _

theorem run_wait_alloc {b : Build} {w : Sys} {p p1 : pa_rtpoll} {r : Int} {tr : List Event}
    (h : run_wait b w p = .ok (p1, r, tr)) : p.n_pollfd_alloc ≤ p1.n_pollfd_alloc := by
  have key : ∀ {q : pa_rtpoll} {r1 : Int} {t1 : List Event},
      (call_ppoll w p = .ok (q, r1, t1) ∨ call_poll w p = .ok (q, r1, t1)) →
      p.n_pollfd_alloc ≤ q.n_pollfd_alloc := by
    intro q r1 t1 hq
    rcases hq with hq | hq
    · unfold call_ppoll at hq
      split at hq
      · injection hq with hq
        injection hq with hq _
        subst hq
        exact Nat.le_refl _
      · cases hq
    · unfold call_poll at hq
      split at hq
      · injection hq with hq
        injection hq with hq _
        subst hq
        exact Nat.le_refl _
      · cases hq
  unfold run_wait at h
  split at h
  · split at h
    · split at h
      · exact key (Or.inl h)
      · injection h with h
        injection h with h _
        subst h
        exact Nat.le_refl _
    · cases hc : call_ppoll w p with
      | error err => simp [hc] at h
      | ok x =>
        obtain ⟨p2, r2, tr2⟩ := x
        simp only [hc] at h
        injection h with h
        injection h with h _
        subst h
        exact key (Or.inl hc)
  · cases hc : call_poll w p with
    | error err => simp [hc] at h
    | ok x =>
      obtain ⟨p2, r2, tr2⟩ := x
      simp only [hc] at h
      injection h with h
      injection h with h _
      subst h
      exact key (Or.inr hc)

theorem step_alloc_le {b : Build} {p p1 : pa_rtpoll} (hw : wf p) (hs : Step b p p1) :
    p.n_pollfd_alloc ≤ p1.n_pollfd_alloc := by
  cases hs
  · rename_i h
    unfold pa_rtpoll_install at h
    split at h
    · cases h
    · split at h
      · injection h with h; subst h; exact Nat.le_refl _
      · split at h
        · injection h with h; subst h; exact Nat.le_refl _
        · injection h with h; subst h; exact Nat.le_refl _
  · rename_i h; exact exec_call_alloc_le hw h
  · rename_i h
    obtain ⟨_, _, t, hd, hf⟩ := run_ok_split h
    have h1 : p.n_pollfd_alloc ≤ t.n_pollfd_alloc :=
      run_dispatch_rel (fun p q => p.n_pollfd_alloc ≤ q.n_pollfd_alloc)
        (fun _ => Nat.le_refl _) (fun _ _ _ h1 h2 => Nat.le_trans h1 h2)
        (fun _ _ _ hw h => exec_call_alloc_le hw h) (fun _ => Nat.le_refl _)
        (fun _ _ hw h => rebuild_alloc_le hw h) (fun _ _ _ _ _ _ _ h => run_wait_alloc h) hw hd
    obtain ⟨p2, hf2, _, _, _, _, _, _, _, _, hal, _⟩ := run_finish_spec (wf_run_dispatch hw hd)
    rw [hf] at hf2
    injection hf2 with hf2
    subst hf2
    omega
  · exact Nat.le_refl _
  · rename_i h; exact rebuild_alloc_le hw h
  · rename_i h; exact run_wait_alloc h
  · rename_i h
    obtain ⟨p2, hf2, _, _, _, _, _, _, _, _, hal, _⟩ := run_finish_spec hw
    rw [h] at hf2
    injection hf2 with hf2
    subst hf2
    omega

/-- C8. Capacity rule. A new reactor has capacity 32 in both arrays. In every reachable
state in which `rtpoll_rebuild` returns: if `n_pollfd_used` exceeded the capacity and
twice `n_pollfd_used` fits in an unsigned, the new capacity is twice `n_pollfd_used`, hence
at least twice the old capacity; if it did not exceed it the capacity is unchanged; both
arrays have the new capacity and `n_pollfd_used` does not exceed it. No step of a program
that returns decreases the capacity. -/
theorem capacity_rule (b : Build) :
    (∀ release, (pa_rtpoll_new b release).n_pollfd_alloc = 32 ∧
      (pa_rtpoll_new b release).pollfd.length = 32 ∧
      (pa_rtpoll_new b release).pollfd2.length = 32) ∧
    (∀ s s1, Reach b s → rtpoll_rebuild s = .ok s1 →
      (s.n_pollfd_alloc < s.n_pollfd_used → s.n_pollfd_used * 2 < UINT_MOD →
        s1.n_pollfd_alloc = 2 * s.n_pollfd_used ∧
        2 * s.n_pollfd_alloc ≤ s1.n_pollfd_alloc) ∧
      (s.n_pollfd_used ≤ s.n_pollfd_alloc → s1.n_pollfd_alloc = s.n_pollfd_alloc) ∧
      s1.pollfd.length = s1.n_pollfd_alloc ∧ s1.pollfd2.length = s1.n_pollfd_alloc ∧
      s1.n_pollfd_used ≤ s1.n_pollfd_alloc) ∧
    (∀ s s1, Reach b s → Step b s s1 → s.n_pollfd_alloc ≤ s1.n_pollfd_alloc) := by
  refine ⟨fun release => ⟨rfl, by simp [pa_rtpoll_new, pa_xnew], by simp [pa_rtpoll_new, pa_xnew]⟩,
    ?_, fun s s1 hr hs => step_alloc_le (reach_wf hr) hs⟩
  intro s s1 hreach hr
  have hw := reach_wf hreach
  obtain ⟨_, _, hal, hsl, hc1, hc2, hu, _⟩ := rebuild_spec hw hr
  obtain ⟨_, hsum, hin, _⟩ := rebuild_layout hw hr
  refine ⟨?_, ?_, hc1, hc2, by rw [← hc1]; exact hin⟩
  · intro hgt hfit
    rw [hal, if_pos hgt, Nat.mod_eq_of_lt hfit]
    omega
  · intro hle
    rw [hal, if_neg (by omega)]

/-- Witness for C8: `grow_demo` uses 41 slots with capacity 32; after the rebuild the
capacity of both arrays is 82. -/
theorem capacity_rule_witness :
    ∃ s1, rtpoll_rebuild grow_demo = .ok s1 ∧ s1.n_pollfd_alloc = 82 ∧
      s1.pollfd.length = 82 ∧ s1.pollfd2.length = 82 ∧ s1.n_pollfd_used = 41 := by
  obtain ⟨s1, h1⟩ := rebuild_succeeds (reach_wf grow_demo_reach) (by decide)
  obtain ⟨hg, _, hc1, hc2, _⟩ := (capacity_rule plain_build).2.1 grow_demo s1 grow_demo_reach h1
  obtain ⟨ha, _⟩ := hg (by decide) (by decide)
  have hu := (rebuild_spec (reach_wf grow_demo_reach) h1).2.2.2.2.2.2.1
  exact ⟨s1, h1, ha, hc1.trans ha, hc2.trans ha, hu⟩

end Rtpoll

namespace Rtpoll

/-! ## C9: destruction requested during an iteration -/

theorem update_item_append {h : Nat} {f : pa_rtpoll_item → pa_rtpoll_item}
    {front rest : List pa_rtpoll_item} {x : pa_rtpoll_item} (hx : x.id = h)
    (hn : ((front ++ x :: rest).map (fun i => i.id)).Nodup) :
    update_item h f (front ++ x :: rest) = front ++ f x :: rest := by
  have hkeep : ∀ l : List pa_rtpoll_item, (∀ y ∈ l, y.id ≠ h) → update_item h f l = l := by
    intro l hl
    unfold update_item
    conv_rhs => rw [← List.map_id l]
    apply List.map_congr_left
    intro y hy
    simp [hl y hy]
  rw [List.map_append, List.map_cons] at hn
  obtain ⟨_, h2, h3⟩ := List.nodup_append.1 hn
  have hfront : ∀ y ∈ front, y.id ≠ h := by
    intro y hy he
    exact h3 (List.mem_map_of_mem _ hy) (by rw [he, ← hx]; exact List.mem_cons_self _ _)
  have hrest : ∀ y ∈ rest, y.id ≠ h := by
    intro y hy he
    have := (List.nodup_cons.1 h2).1
    apply this
    rw [hx, ← he]
    exact List.mem_map_of_mem _ hy
  have h1 : update_item h f (front ++ x :: rest) =
      update_item h f front ++ (update_item h f [x] ++ update_item h f rest) := by
    simp [update_item]
  rw [h1, hkeep front hfront, hkeep rest hrest]
  simp [update_item, hx]

/-- C9. Deferred destruction changes only two flags. In a reachable state in which
`running` is set, `pa_rtpoll_item_free` on a linked item returns the same reactor state in
which that item, at its place in the list, has its dead flag set and the reactor has
`scan_for_dead` set: the order of the list, the other items, the slices, the hooks,
`n_pollfd_used`, `n_pollfd_alloc`, `rebuild_needed` and both arrays are as before. -/
theorem deferred_free_frame (b : Build) (s : pa_rtpoll) (h : Nat) (hreach : Reach b s)
    (hrun : s.running = true) (hh : h ∈ handles s) :
    ∃ front i rest, s.items = front ++ i :: rest ∧ i.id = h ∧
      pa_rtpoll_item_free s h = .ok { s with
        items := front ++ { i with dead := true } :: rest
        scan_for_dead := true } := by
  have hw := reach_wf hreach
  obtain ⟨x, hx, hxh⟩ := List.mem_map.1 hh
  obtain ⟨front, rest, hsplit⟩ := List.append_of_mem hx
  have hfind : find_item s h = some x := by
    rw [← hxh]; exact find_item_mem_nodup hw.ids_nodup hx
  refine ⟨front, x, rest, hsplit, hxh, ?_⟩
  unfold pa_rtpoll_item_free
  simp only [hfind, hrun, if_true]
  have hn : ((front ++ x :: rest).map (fun i => i.id)).Nodup := by
    rw [← hsplit]; exact hw.ids_nodup
  have := update_item_append (f := fun i => { i with dead := true }) hxh hn
  rw [← hsplit] at this
  rw [this]

theorem running_demo_reach : Reach linux_build running_demo :=
  Reach.step _ _ pair_demo_reach (Step.enter pair_demo rfl rfl)

/-- Witness for C9: inside an iteration of `pair_demo`, destroying participant A (handle
0) yields `deferred_demo`. -/
theorem deferred_free_frame_witness :
    pa_rtpoll_item_free running_demo 0 = .ok deferred_demo ∧
      ∃ front i rest, running_demo.items = front ++ i :: rest ∧ i.id = 0 ∧
        pa_rtpoll_item_free running_demo 0 = .ok { running_demo with
          items := front ++ { i with dead := true } :: rest
          scan_for_dead := true } :=
  ⟨rfl, deferred_free_frame linux_build running_demo 0 running_demo_reach rfl (by decide)⟩

/-! ## C10: the sweep at the end of an iteration -/

/-- C10. End-of-iteration sweep. When `pa_rtpoll_run` returns from a reachable state,
whether or not a hook refused the wait, and `t` is the state at the end of hook dispatch:
the list holds exactly the items of `t` that are not flagged dead, in their order;
`n_pollfd_used` has decreased by the slot counts of the removed items (modulo 2^32, and
exactly when the slot total fits in an unsigned); `scan_for_dead` and `running` are clear;
`rebuild_needed` is set if an item was removed; and a following rebuild lays out the
surviving items only. -/
theorem end_of_iteration_sweep (b : Build) (H : Hooks) (w : Sys) (fuel : Nat)
    (s s1 : pa_rtpoll) (r : Int) (tr : List Event) (hreach : Reach b s)
    (hrun : pa_rtpoll_run b H w fuel s = .ok (s1, r, tr)) :
    ∃ t, run_dispatch b H w fuel s = .ok (t, r, tr) ∧
      s1.items = t.items.filter (fun i => !i.dead) ∧
      (s1.n_pollfd_used + slots (t.items.filter (fun i => i.dead))) % UINT_MOD =
        t.n_pollfd_used ∧
      (slots t.items < UINT_MOD →
        s1.n_pollfd_used + slots (t.items.filter (fun i => i.dead)) = t.n_pollfd_used) ∧
      s1.scan_for_dead = false ∧ s1.running = false ∧
      (t.items.any (fun i => i.dead) = true → s1.rebuild_needed = true) ∧
      s1.rebuild_needed = (t.rebuild_needed || t.items.any (fun i => i.dead)) ∧
      (∀ s2, rtpoll_rebuild s1 = .ok s2 →
        skel s2.items = skel (t.items.filter (fun i => !i.dead)) ∧
        slots s2.items = s2.n_pollfd_used ∧
        ∀ j i, s2.items[j]? = some i → i.pollfd = some (slots (s2.items.take j))) := by
  have hw := reach_wf hreach
  obtain ⟨_, _, t, hd, hf⟩ := run_ok_split hrun
  have hwt := wf_run_dispatch hw hd
  obtain ⟨p2, hf2, hw2, hitems, hr, hsc, hrn, hused, _⟩ := run_finish_spec hwt
  rw [hf] at hf2
  injection hf2 with hf2
  subst hf2
  refine ⟨t, hd, hitems, hused, ?_, hsc, hr, ?_, hrn, ?_⟩
  · intro hlt
    have h1 := slots_filter_dead t.items
    have h2 : t.n_pollfd_used = slots t.items := by
      rw [hwt.used_eq]; exact Nat.mod_eq_of_lt hlt
    have h3 : s1.n_pollfd_used = slots (t.items.filter (fun i => !i.dead)) := by
      rw [hw2.used_eq, hitems]
      exact Nat.mod_eq_of_lt (by omega)
    omega
  · intro hany
    rw [hrn, hany]
    simp
  · intro s2 h2
    obtain ⟨hpos, hsum, _, hsk⟩ := rebuild_layout hw2 h2
    exact ⟨by rw [hsk, hitems], hsum, hpos⟩

theorem swept_demo_run :
    pa_rtpoll_run linux_build free_hooks timeout_sys 0 pair_demo =
      .ok (swept_demo, 0, swept_trace) := by
  decide

/-- Witness for C10: in `pair_demo` the pre-wait hook of B destroys A during the
iteration; when the iteration returns only B is linked and 2 slots are used. -/
theorem end_of_iteration_sweep_witness :
    pa_rtpoll_run linux_build free_hooks timeout_sys 0 pair_demo =
        .ok (swept_demo, 0, swept_trace) ∧
      swept_demo.items.map (fun i => i.id) = [1] ∧ swept_demo.n_pollfd_used = 2 ∧
      swept_demo.rebuild_needed = true ∧
      ∃ t, run_dispatch linux_build free_hooks timeout_sys 0 pair_demo =
          .ok (t, 0, swept_trace) ∧
        swept_demo.items = t.items.filter (fun i => !i.dead) ∧
        (swept_demo.n_pollfd_used + slots (t.items.filter (fun i => i.dead))) % UINT_MOD =
          t.n_pollfd_used := by
  refine ⟨swept_demo_run, rfl, rfl, rfl, ?_⟩
  obtain ⟨t, h1, h2, h3, _⟩ := end_of_iteration_sweep linux_build free_hooks timeout_sys 0
    pair_demo swept_demo 0 swept_trace pair_demo_reach swept_demo_run
  exact ⟨t, h1, h2, h3⟩

end Rtpoll

namespace Rtpoll

/-! ## The parts of one iteration -/

/-- How the steps after the pre-wait dispatch are composed when they return. -/
theorem run_wait_phase_split {b : Build} {H : Hooks} {w : Sys} {p t : pa_rtpoll} {r : Int}
    {tr : List Event} (h : run_wait_phase b H w p = .ok (t, r, tr)) :
    ∃ q tra p2 trw tr3,
      ((p.rebuild_needed = true ∧ rtpoll_rebuild p = .ok q ∧ tra = [Event.rebuild]) ∨
        (p.rebuild_needed = false ∧ q = p ∧ tra = [])) ∧
      run_wait b w q = .ok (p2, r, trw) ∧ run_after H (handles p2) p2 = .ok (t, tr3) ∧
      tr = tra ++ (trw ++ tr3) := by
  unfold run_wait_phase at h
  split at h
  · cases h
  · rename_i q tra hq
    have hfirst : (p.rebuild_needed = true ∧ rtpoll_rebuild p = .ok q ∧ tra = [Event.rebuild]) ∨
        (p.rebuild_needed = false ∧ q = p ∧ tra = []) := by
      by_cases hr : p.rebuild_needed = true
      · rw [if_pos hr] at hq
        cases hreb : rtpoll_rebuild p with
        | error err => simp [hreb] at hq
        | ok p3 =>
          simp only [hreb] at hq
          injection hq with hq
          injection hq with h1 h2
          subst h1 h2
          exact Or.inl ⟨hr, rfl, rfl⟩
      · rw [if_neg hr] at hq
        injection hq with hq
        injection hq with h1 h2
        subst h1 h2
        exact Or.inr ⟨by simpa using hr, rfl, rfl⟩
    cases hwt : run_wait b w q with
    | error err => simp [hwt] at h
    | ok x =>
      obtain ⟨p2, r2, trw⟩ := x
      simp only [hwt] at h
      cases ha : run_after H (handles p2) p2 with
      | error err => simp [ha] at h
      | ok y =>
        obtain ⟨p4, tr4⟩ := y
        simp only [ha] at h
        injection h with h
        injection h with h1 h2
        injection h2 with h2 h3
        subst h1 h2 h3
        exact ⟨q, tra, p2, trw, tr4, hfirst, hwt, ha, rfl⟩

/-- How the dispatch is composed when it returns: the pre-wait dispatch, followed either by
the unwinding (a hook refused the wait, the value is 0) or by rebuild, wait and post-wait
dispatch. -/
theorem run_dispatch_split {b : Build} {H : Hooks} {w : Sys} {fuel : Nat} {p t : pa_rtpoll}
    {r : Int} {tr : List Event} (h : run_dispatch b H w fuel p = .ok (t, r, tr)) :
    ∃ p1 tr1 a, run_before H (handles p) { p with running := true } = .ok (p1, tr1, a) ∧
      ((∃ hd pr tr2, a = some hd ∧ llist_prev p1.items hd none = some pr ∧
          run_unwind H fuel pr p1 = .ok (t, tr2) ∧ r = 0 ∧ tr = tr1 ++ tr2) ∨
        (a = none ∧ ∃ tr2, run_wait_phase b H w p1 = .ok (t, r, tr2) ∧ tr = tr1 ++ tr2)) := by
  unfold run_dispatch at h
  cases hb : run_before H (handles p) { p with running := true } with
  | error err => simp [hb] at h
  | ok x =>
    obtain ⟨p2, tr2, a⟩ := x
    refine ⟨p2, tr2, a, rfl, ?_⟩
    cases a with
    | some hd =>
      simp only [hb] at h
      cases hp : llist_prev p2.items hd none with
      | none => simp [hp] at h
      | some pr =>
        simp only [hp] at h
        cases hu : run_unwind H fuel pr p2 with
        | error err => simp [hu] at h
        | ok y =>
          obtain ⟨p3, tr3⟩ := y
          simp only [hu] at h
          injection h with h
          injection h with h1 h2
          injection h2 with h2 h3
          subst h1 h2 h3
          exact Or.inl ⟨hd, pr, tr3, rfl, hp, hu, rfl, rfl⟩
    | none =>
      simp only [hb] at h
      cases hp : run_wait_phase b H w p2 with
      | error err => simp [hp] at h
      | ok y =>
        obtain ⟨p3, r3, tr3⟩ := y
        simp only [hp] at h
        injection h with h
        injection h with h1 h2
        injection h2 with h2 h3
        subst h1 h2 h3
        exact Or.inr ⟨rfl, tr3, rfl, rfl⟩

end Rtpoll

namespace Rtpoll

/-! ## C17 and C18: the running flag and the flags of the deferred destruction -/

theorem hook_flag_calls (cs : List Call) : ∀ e ∈ cs.map Event.call, hook_flag e = none := by
  intro e he
  obtain ⟨c, _, rfl⟩ := List.mem_map.1 he
  rfl

theorem run_before_flags {H : Hooks} {todo : List Nat} : ∀ {p p1 : pa_rtpoll}
    {tr : List Event} {a : Option Nat}, wf p → run_before H todo p = .ok (p1, tr, a) →
    ∀ e ∈ tr, ∀ rn, hook_flag e = some rn → rn = p.running := by
  induction todo with
  | nil =>
    intro p p1 tr a _ h
    simp only [run_before] at h
    injection h with h
    injection h with _ h
    injection h with h _
    subst h
    simp
  | cons x rest ih =>
    intro p p1 tr a hw h
    simp only [run_before] at h
    cases hf : find_item p x with
    | none => simp [hf] at h
    | some i =>
      simp only [hf] at h
      split at h
      · exact ih hw h
      · cases hb : i.before_cb with
        | none =>
          simp only [hb] at h
          exact ih hw h
        | some cb =>
          simp only [hb] at h
          cases he : exec_calls p (H.before cb x).1 with
          | error err => simp [he] at h
          | ok p2 =>
            simp only [he] at h
            have hw2 := wf_exec_calls hw he
            have hc2 := (exec_calls_ctl hw he).1
            split at h
            · injection h with h
              injection h with _ h
              injection h with h _
              subst h
              intro e hm rn hfl
              rcases List.mem_cons.1 hm with rfl | hm'
              · simp only [hook_flag, Option.some.injEq] at hfl
                exact hfl.symm
              · rw [hook_flag_calls _ e hm'] at hfl
                cases hfl
            · cases hr : run_before H rest p2 with
              | error err => simp [hr] at h
              | ok r =>
                obtain ⟨p3, tr3, a3⟩ := r
                simp only [hr] at h
                injection h with h
                injection h with _ h
                injection h with h _
                subst h
                intro e hm rn hfl
                rcases List.mem_cons.1 hm with rfl | hm'
                · simp only [hook_flag, Option.some.injEq] at hfl
                  exact hfl.symm
                · rcases List.mem_append.1 hm' with hm2 | hm2
                  · rw [hook_flag_calls _ e hm2] at hfl
                    cases hfl
                  · rw [← hc2]
                    exact ih hw2 hr e hm2 rn hfl

theorem run_after_flags {H : Hooks} {todo : List Nat} : ∀ {p p1 : pa_rtpoll}
    {tr : List Event}, wf p → run_after H todo p = .ok (p1, tr) →
    ∀ e ∈ tr, ∀ rn, hook_flag e = some rn → rn = p.running := by
  induction todo with
  | nil =>
    intro p p1 tr _ h
    simp only [run_after] at h
    injection h with h
    injection h with _ h
    subst h
    simp
  | cons x rest ih =>
    intro p p1 tr hw h
    simp only [run_after] at h
    cases hf : find_item p x with
    | none => simp [hf] at h
    | some i =>
      simp only [hf] at h
      split at h
      · exact ih hw h
      · cases hb : i.after_cb with
        | none =>
          simp only [hb] at h
          exact ih hw h
        | some cb =>
          simp only [hb] at h
          cases he : exec_calls p (H.after cb x) with
          | error err => simp [he] at h
          | ok p2 =>
            simp only [he] at h
            have hw2 := wf_exec_calls hw he
            have hc2 := (exec_calls_ctl hw he).1
            cases hr : run_after H rest p2 with
            | error err => simp [hr] at h
            | ok r =>
              obtain ⟨p3, tr3⟩ := r
              simp only [hr] at h
              injection h with h
              injection h with _ h
              subst h
              intro e hm rn hfl
              rcases List.mem_cons.1 hm with rfl | hm'
              · simp only [hook_flag, Option.some.injEq] at hfl
                exact hfl.symm
              · rcases List.mem_append.1 hm' with hm2 | hm2
                · rw [hook_flag_calls _ e hm2] at hfl
                  cases hfl
                · rw [← hc2]
                  exact ih hw2 hr e hm2 rn hfl

theorem run_unwind_flags {H : Hooks} {fuel : Nat} : ∀ {cur : Option Nat} {p p1 : pa_rtpoll}
    {tr : List Event}, wf p → run_unwind H fuel cur p = .ok (p1, tr) →
    ∀ e ∈ tr, ∀ rn, hook_flag e = some rn → rn = p.running := by
  induction fuel with
  | zero =>
    intro cur p p1 tr _ h
    cases cur with
    | none =>
      simp only [run_unwind] at h
      injection h with h
      injection h with _ h
      subst h
      simp
    | some x => simp [run_unwind] at h
  | succ n ih =>
    intro cur p p1 tr hw h
    cases cur with
    | none =>
      simp only [run_unwind] at h
      injection h with h
      injection h with _ h
      subst h
      simp
    | some x =>
      simp only [run_unwind] at h
      cases hf : find_item p x with
      | none => simp [hf] at h
      | some i =>
        simp only [hf] at h
        split at h
        · cases hp : llist_prev p.items x none with
          | none => simp [hp] at h
          | some pr =>
            simp only [hp] at h
            exact ih hw h
        · cases hb : i.after_cb with
          | none =>
            simp only [hb] at h
            cases hp : llist_prev p.items x none with
            | none => simp [hp] at h
            | some pr =>
              simp only [hp] at h
              exact ih hw h
          | some cb =>
            simp only [hb] at h
            cases he : exec_calls p (H.after cb x) with
            | error err => simp [he] at h
            | ok p2 =>
              simp only [he] at h
              have hw2 := wf_exec_calls hw he
              have hc2 := (exec_calls_ctl hw he).1
              cases hp : llist_prev p2.items x none with
              | none => simp [hp] at h
              | some pr =>
                simp only [hp] at h
                cases hr : run_unwind H n pr p2 with
                | error err => simp [hr] at h
                | ok r =>
                  obtain ⟨p3, tr3⟩ := r
                  simp only [hr] at h
                  injection h with h
                  injection h with _ h
                  subst h
                  intro e hm rn hfl
                  rcases List.mem_cons.1 hm with rfl | hm'
                  · simp only [hook_flag, Option.some.injEq] at hfl
                    exact hfl.symm
                  · rcases List.mem_append.1 hm' with hm2 | hm2
                    · rw [hook_flag_calls _ e hm2] at hfl
                      cases hfl
                    · rw [← hc2]
                      exact ih hw2 hr e hm2 rn hfl

theorem run_wait_events {b : Build} {w : Sys} {p p1 : pa_rtpoll} {r : Int} {tr : List Event}
    (h : run_wait b w p = .ok (p1, r, tr)) : ∀ e ∈ tr, is_wait e = true := by
  have key : ∀ {q : pa_rtpoll} {r1 : Int} {t1 : List Event},
      (call_ppoll w p = .ok (q, r1, t1) ∨ call_poll w p = .ok (q, r1, t1)) →
      ∀ e ∈ t1, is_wait e = true := by
    intro q r1 t1 hq
    rcases hq with hq | hq
    · unfold call_ppoll at hq
      split at hq
      · injection hq with hq
        injection hq with _ hq
        injection hq with _ hq
        subst hq
        simp [is_wait]
      · cases hq
    · unfold call_poll at hq
      split at hq
      · injection hq with hq
        injection hq with _ hq
        injection hq with _ hq
        subst hq
        simp [is_wait]
      · cases hq
  unfold run_wait at h
  split at h
  · split at h
    · split at h
      · exact key (Or.inl h)
      · injection h with h
        injection h with _ h
        injection h with _ h
        subst h
        simp
    · cases hc : call_ppoll w p with
      | error err => simp [hc] at h
      | ok x =>
        obtain ⟨p2, r2, tr2⟩ := x
        simp only [hc] at h
        injection h with h
        injection h with _ h
        injection h with _ h
        subst h
        exact key (Or.inl hc)
  · cases hc : call_poll w p with
    | error err => simp [hc] at h
    | ok x =>
      obtain ⟨p2, r2, tr2⟩ := x
      simp only [hc] at h
      injection h with h
      injection h with _ h
      injection h with _ h
      subst h
      exact key (Or.inr hc)

/-- Everything the wait step does when it returns: it leaves the items and the flags
alone, and either makes no call (the build and state of `wait_skipped`, value 0) or makes
one call whose value is returned as it is in the Linux build with `ppoll` and after the
test of lines 311-312 in the other builds. -/
theorem run_wait_spec {b : Build} {w : Sys} {p p1 : pa_rtpoll} {r : Int} {tr : List Event}
    (h : run_wait b w p = .ok (p1, r, tr)) :
    p1.items = p.items ∧ same_ctl p p1 ∧ p1.scan_for_dead = p.scan_for_dead ∧
      p1.n_pollfd_used = p.n_pollfd_used ∧ p1.rebuild_needed = p.rebuild_needed ∧
      ((wait_skipped b p = true ∧ tr = [] ∧ r = 0) ∨
        (wait_skipped b p = false ∧ (∃ e, tr = [e] ∧ is_wait e = true) ∧
          r = if (b.HAVE_PPOLL && b.linux) = true then w.ret else normalise w w.ret)) := by
  have key : ∀ {q : pa_rtpoll} {r1 : Int} {t1 : List Event},
      (call_ppoll w p = .ok (q, r1, t1) ∨ call_poll w p = .ok (q, r1, t1)) →
      q.items = p.items ∧ same_ctl p q ∧ q.scan_for_dead = p.scan_for_dead ∧
        q.n_pollfd_used = p.n_pollfd_used ∧ q.rebuild_needed = p.rebuild_needed ∧
        (∃ e, t1 = [e] ∧ is_wait e = true) ∧ r1 = w.ret := by
    intro q r1 t1 hq
    rcases hq with hq | hq
    · unfold call_ppoll at hq
      split at hq
      · injection hq with hq
        injection hq with h1 hq
        injection hq with h2 h3
        subst h1 h2 h3
        exact ⟨rfl, same_ctl_refl _, rfl, rfl, rfl, ⟨_, rfl, rfl⟩, rfl⟩
      · cases hq
    · unfold call_poll at hq
      split at hq
      · injection hq with hq
        injection hq with h1 hq
        injection hq with h2 h3
        subst h1 h2 h3
        exact ⟨rfl, same_ctl_refl _, rfl, rfl, rfl, ⟨_, rfl, rfl⟩, rfl⟩
      · cases hq
  unfold run_wait at h
  unfold wait_skipped
  by_cases h1 : b.HAVE_PPOLL = true
  · by_cases h2 : b.linux = true
    · by_cases h3 : p.dont_use_ppoll = true
      · simp only [h1, h2, h3, if_true, Bool.not_true, Bool.false_eq_true, if_false] at h
        injection h with h
        injection h with ha h
        injection h with hb hc
        subst ha hb hc
        refine ⟨rfl, same_ctl_refl _, rfl, rfl, rfl, Or.inl ⟨by simp [h1, h2, h3], rfl, ?_⟩⟩
        simp [normalise]
      · have h3f : p.dont_use_ppoll = false := by simpa using h3
        simp only [h1, h2, h3f, if_true, Bool.not_false] at h
        obtain ⟨k1, k2, k3, k4, k5, k6, k7⟩ := key (Or.inl h)
        refine ⟨k1, k2, k3, k4, k5, Or.inr ⟨by simp [h3f], k6, ?_⟩⟩
        simp [h1, h2, k7]
    · have h2f : b.linux = false := by simpa using h2
      simp only [h1, h2f, if_true, Bool.false_eq_true, if_false] at h
      cases hc : call_ppoll w p with
      | error err => simp [hc] at h
      | ok x =>
        obtain ⟨p2, r2, tr2⟩ := x
        simp only [hc] at h
        injection h with h
        injection h with ha h
        injection h with hb hd
        subst ha hb hd
        obtain ⟨k1, k2, k3, k4, k5, k6, k7⟩ := key (Or.inl hc)
        refine ⟨k1, k2, k3, k4, k5, Or.inr ⟨by simp [h2f], k6, ?_⟩⟩
        simp [h1, h2f, k7]
  · have h1f : b.HAVE_PPOLL = false := by simpa using h1
    simp only [h1f, Bool.false_eq_true, if_false] at h
    cases hc : call_poll w p with
    | error err => simp [hc] at h
    | ok x =>
      obtain ⟨p2, r2, tr2⟩ := x
      simp only [hc] at h
      injection h with h
      injection h with ha h
      injection h with hb hd
      subst ha hb hd
      obtain ⟨k1, k2, k3, k4, k5, k6, k7⟩ := key (Or.inr hc)
      refine ⟨k1, k2, k3, k4, k5, Or.inr ⟨by simp [h1f], k6, ?_⟩⟩
      simp [h1f, k7]

theorem hook_flag_of_wait {e : Event} (h : is_wait e = true) : hook_flag e = none := by
  cases e <;> simp [is_wait, hook_flag] at h ⊢

/-- The flag recorded in every hook invocation of the dispatch is true. -/
theorem run_dispatch_flags {b : Build} {H : Hooks} {w : Sys} {fuel : Nat} {p t : pa_rtpoll}
    {r : Int} {tr : List Event} (hw : wf p) (h : run_dispatch b H w fuel p = .ok (t, r, tr)) :
    ∀ e ∈ tr, ∀ rn, hook_flag e = some rn → rn = true := by
  obtain ⟨p1, tr1, a, hb, hrest⟩ := run_dispatch_split h
  have hw0 := wf_enter hw
  obtain ⟨hw1, hc1⟩ := wf_run_before hw0 hb
  have hrun1 : p1.running = true := hc1.1
  have h1 := run_before_flags hw0 hb
  rcases hrest with ⟨hd, pr, tr2, _, _, hu, _, rfl⟩ | ⟨_, tr2, hp, rfl⟩
  · intro e hm rn hfl
    rcases List.mem_append.1 hm with hm1 | hm1
    · exact h1 e hm1 rn hfl
    · rw [← hrun1]
      exact run_unwind_flags hw1 hu e hm1 rn hfl
  · obtain ⟨q, tra, p2, trw, tr3, hfirst, hwt, ha, rfl⟩ := run_wait_phase_split hp
    have hq : wf q ∧ q.running = true := by
      rcases hfirst with ⟨_, hreb, _⟩ | ⟨_, rfl, _⟩
      · exact ⟨wf_rebuild hw1 hreb, by
          rw [(rebuild_spec hw1 hreb).2.2.2.2.2.2.2.1]; exact hrun1⟩
      · exact ⟨hw1, hrun1⟩
    have hw2 := wf_run_wait hq.1 hwt
    have hrun2 : p2.running = true := by
      rw [(run_wait_spec hwt).2.1.1]; exact hq.2
    intro e hm rn hfl
    rcases List.mem_append.1 hm with hm1 | hm1
    · exact h1 e hm1 rn hfl
    · rcases List.mem_append.1 hm1 with hm2 | hm2
      · rcases hfirst with ⟨_, _, rfl⟩ | ⟨_, _, rfl⟩
        · simp only [List.mem_singleton] at hm2
          subst hm2
          simp [hook_flag] at hfl
        · cases hm2
      · rcases List.mem_append.1 hm2 with hm3 | hm3
        · rw [hook_flag_of_wait (run_wait_events hwt e hm3)] at hfl
          cases hfl
        · rw [← hrun2]
          exact run_after_flags hw2 ha e hm3 rn hfl

end Rtpoll

namespace Rtpoll

/-- C17. Reentrant iteration is rejected. In every iteration that `pa_rtpoll_run` carries
out from a reachable state, the value of `running` at every pre-wait and post-wait hook
invocation is true; and on a reactor whose `running` flag is set (such as the one a hook
sees) `pa_rtpoll_run` fails the assertion of line 261: the outcome is the assertion failure
alone, with no state, no hook invocation and no wait. -/
theorem reentrant_rejected (b : Build) (H : Hooks) (w : Sys) (fuel : Nat) (s : pa_rtpoll)
    (hreach : Reach b s) :
    (∀ s1 r tr, pa_rtpoll_run b H w fuel s = .ok (s1, r, tr) →
      ∀ e ∈ tr, ∀ rn, hook_flag e = some rn → rn = true) ∧
    (s.running = true → pa_rtpoll_run b H w fuel s = .error .assertion) := by
  refine ⟨?_, ?_⟩
  · intro s1 r tr hrun
    obtain ⟨_, _, t, hd, _⟩ := run_ok_split hrun
    exact run_dispatch_flags (reach_wf hreach) hd
  · intro hr
    unfold pa_rtpoll_run
    rw [if_pos hr]

/-- Witness for C17: the hooks of the iteration of `pair_demo` run with `running` set, and
an iteration started on `running_demo`, the state those hooks see, fails the assertion. -/
theorem reentrant_rejected_witness :
    (∀ e ∈ swept_trace, ∀ rn, hook_flag e = some rn → rn = true) ∧
      running_demo.running = true ∧
      pa_rtpoll_run linux_build pair_hooks timeout_sys 0 running_demo = .error .assertion :=
  ⟨(reentrant_rejected linux_build free_hooks timeout_sys 0 pair_demo pair_demo_reach).1
      swept_demo 0 swept_trace swept_demo_run,
    rfl,
    (reentrant_rejected linux_build pair_hooks timeout_sys 0 running_demo
      running_demo_reach).2 rfl⟩

/-- C18. Idle-state invariant of the deferred destruction. In every reachable state a
linked item that is flagged dead implies that `scan_for_dead` is set; and when `running`
is clear no linked item is flagged dead and `scan_for_dead` is clear. -/
theorem idle_state_invariant (b : Build) (s : pa_rtpoll) (hreach : Reach b s) :
    (∀ i ∈ s.items, i.dead = true → s.scan_for_dead = true) ∧
    (s.running = false → (∀ i ∈ s.items, i.dead = false) ∧ s.scan_for_dead = false) := by
  have hw := reach_wf hreach
  refine ⟨hw.dead_scan, fun hr => ⟨?_, hw.idle_scan hr⟩⟩
  intro i hi
  cases hd : i.dead
  · rfl
  · have h1 := hw.dead_scan i hi hd
    rw [hw.idle_scan hr] at h1
    cases h1

/-- Witness for C18: `deferred_demo` is inside an iteration, has a dead item and has
`scan_for_dead` set; `swept_demo` is the idle state after that iteration, with no dead item
and the flag clear. -/
theorem idle_state_invariant_witness :
    (deferred_demo.items.any (fun i => i.dead) = true ∧ deferred_demo.scan_for_dead = true) ∧
      (swept_demo.running = false ∧ (∀ i ∈ swept_demo.items, i.dead = false) ∧
        swept_demo.scan_for_dead = false) :=
  ⟨⟨rfl, (idle_state_invariant linux_build deferred_demo deferred_demo_reach).1
      { id := 0, dead := true, pollfd := none, n_pollfd := 1, before_cb := some 10,
        after_cb := some 20, userdata := none } (by decide) rfl⟩,
    rfl, (idle_state_invariant linux_build swept_demo
      (Reach.step _ _ pair_demo_reach
        (Step.run _ _ free_hooks timeout_sys 0 0 swept_trace swept_demo_run))).2 rfl⟩

end Rtpoll

namespace Rtpoll

/-! ## C12: destruction while idle -/

/-- C12. Immediate destruction while idle. In a reachable state in which `running` is
clear, `pa_rtpoll_item_free` on a linked item returns the same reactor state with that item
unlinked, the other items in their order, `n_pollfd_used` decreased by the slot count of
the item (modulo 2^32; exactly when the slot total fits in an unsigned) and
`rebuild_needed` set; the item was not flagged dead and `scan_for_dead` stays clear. -/
theorem immediate_free (b : Build) (s : pa_rtpoll) (h : Nat) (hreach : Reach b s)
    (hidle : s.running = false) (hh : h ∈ handles s) :
    ∃ front i rest, s.items = front ++ i :: rest ∧ i.id = h ∧ i.dead = false ∧
      s.scan_for_dead = false ∧
      pa_rtpoll_item_free s h = .ok { s with
        items := front ++ rest
        n_pollfd_used := (s.n_pollfd_used + UINT_MOD - i.n_pollfd % UINT_MOD) % UINT_MOD
        rebuild_needed := true } ∧
      (slots s.items < UINT_MOD →
        (s.n_pollfd_used + UINT_MOD - i.n_pollfd % UINT_MOD) % UINT_MOD + i.n_pollfd =
          s.n_pollfd_used) := by
  have hw := reach_wf hreach
  obtain ⟨x, hx, hxh⟩ := List.mem_map.1 hh
  obtain ⟨front, rest, hsplit⟩ := List.append_of_mem hx
  have hfind : find_item s h = some x := by
    rw [← hxh]; exact find_item_mem_nodup hw.ids_nodup hx
  have hscan := hw.idle_scan hidle
  have hdead : x.dead = false := by
    cases hd : x.dead
    · rfl
    · have h1 := hw.dead_scan x hx hd
      rw [hscan] at h1
      cases h1
  have hxn : x.id ∉ front.map (fun i => i.id) := by
    have hn := hw.ids_nodup
    unfold handles at hn
    rw [hsplit, List.map_append, List.map_cons] at hn
    have h1 := (List.nodup_append.1 hn).2.2
    intro hm
    exact h1 hm (List.mem_cons_self _ _)
  refine ⟨front, x, rest, hsplit, hxh, hdead, hscan, ?_, ?_⟩
  · unfold pa_rtpoll_item_free
    simp only [hfind]
    rw [if_neg (by rw [hidle]; simp)]
    unfold rtpoll_item_destroy
    simp only [hfind]
    have hrem : PA_LLIST_REMOVE h s.items = front ++ rest := by
      rw [hsplit, ← hxh]; exact remove_append hxn
    rw [hrem]
  · intro hfit
    have hu : s.n_pollfd_used = slots s.items := by
      rw [hw.used_eq]; exact Nat.mod_eq_of_lt hfit
    have hsl : slots s.items = slots front + (x.n_pollfd + slots rest) := by
      rw [hsplit, slots_append]; rfl
    have hn := (hw.n_pos x hx).2
    rw [hu]
    unfold UINT_MOD at hfit hn ⊢
    omega

/-- Witness for C12: destroying the participant with handle 1 (2 slots) of the idle reactor
`abort_demo` leaves the participants 2 and 0 linked and 2 slots used. -/
theorem immediate_free_witness :
    (∃ s1, pa_rtpoll_item_free abort_demo 1 = .ok s1 ∧ s1.items.map (fun i => i.id) = [2, 0] ∧
        s1.n_pollfd_used = 2 ∧ s1.rebuild_needed = true ∧ s1.scan_for_dead = false) ∧
      ∃ front i rest, abort_demo.items = front ++ i :: rest ∧ i.id = 1 ∧ i.dead = false ∧
        abort_demo.scan_for_dead = false ∧
        pa_rtpoll_item_free abort_demo 1 = .ok { abort_demo with
          items := front ++ rest
          n_pollfd_used :=
            (abort_demo.n_pollfd_used + UINT_MOD - i.n_pollfd % UINT_MOD) % UINT_MOD
          rebuild_needed := true } := by
  refine ⟨⟨_, rfl, rfl, rfl, rfl, rfl⟩, ?_⟩
  obtain ⟨front, i, rest, h1, h2, h3, h4, h5, _⟩ :=
    immediate_free plain_build abort_demo 1 abort_demo_reach rfl (by decide)
  exact ⟨front, i, rest, h1, h2, h3, h4, h5⟩

/-! ## C14: the slice returned by `pa_rtpoll_item_get_pollfd` -/

theorem get_pollfd_split {p p1 : pa_rtpoll} {h : Nat} {ptr : Option Nat} {n : Nat}
    (hg : pa_rtpoll_item_get_pollfd p h = .ok (p1, ptr, n)) :
    ∃ i0 i1, find_item p h = some i0 ∧
      (if p.rebuild_needed then rtpoll_rebuild p else .ok p) = .ok p1 ∧
      find_item p1 h = some i1 ∧ ptr = i1.pollfd ∧ n = i1.n_pollfd := by
  unfold pa_rtpoll_item_get_pollfd at hg
  cases hf : find_item p h with
  | none => simp [hf] at hg
  | some i =>
    simp only [hf] at hg
    cases hr : (if p.rebuild_needed then rtpoll_rebuild p else .ok p) with
    | error err => simp [hr] at hg
    | ok p2 =>
      simp only [hr] at hg
      cases hf2 : find_item p2 h with
      | none => simp [hf2] at hg
      | some j =>
        simp only [hf2] at hg
        injection hg with hg
        injection hg with h1 hg
        injection hg with h2 h3
        subst h1 h2 h3
        exact ⟨i, j, rfl, rfl, hf2, rfl, rfl⟩

/-- C14. `pa_rtpoll_item_get_pollfd` returns the current slice. For every reachable state
and linked item: the call returns when twice the slot total fits in an unsigned; whenever
it returns, the reported count is the slot count of the item, the returned pointer is the
entry of the primary array at the sum of the slot counts of the items before it in the
list, the slice lies inside the used entries and these inside the array, `rebuild_needed`
is clear, the state is the input state when `rebuild_needed` was clear on entry and the
result of the rebuild otherwise. -/
theorem get_pollfd_current (b : Build) (s : pa_rtpoll) (h : Nat) (hreach : Reach b s)
    (hh : h ∈ handles s) :
    (2 * slots s.items < UINT_MOD → ∃ r, pa_rtpoll_item_get_pollfd s h = .ok r) ∧
    ∀ s1 ptr n, pa_rtpoll_item_get_pollfd s h = .ok (s1, ptr, n) →
      ∃ front i rest, s1.items = front ++ i :: rest ∧ i.id = h ∧ n = i.n_pollfd ∧
        (∀ i0, find_item s h = some i0 → n = i0.n_pollfd) ∧
        ptr = some (slots front) ∧ slots front + n ≤ s1.n_pollfd_used ∧
        s1.n_pollfd_used ≤ s1.pollfd.length ∧ s1.rebuild_needed = false ∧
        (s.rebuild_needed = false → s1 = s) ∧
        (s.rebuild_needed = true → rtpoll_rebuild s = .ok s1) := by
  have hw := reach_wf hreach
  refine ⟨?_, ?_⟩
  · intro hfit
    obtain ⟨p1, i, off, hg, _⟩ := get_pollfd_spec hw hfit hh
    exact ⟨_, hg⟩
  · intro s1 ptr n hg
    obtain ⟨i0, i1, hf0, hmr, hf1, hptr, hn⟩ := get_pollfd_split hg
    have hw1 := maybe_rebuild_wf hw hmr
    have hcase : (s.rebuild_needed = true ∧ rtpoll_rebuild s = .ok s1) ∨
        (s.rebuild_needed = false ∧ s1 = s) := by
      by_cases hr : s.rebuild_needed = true
      · rw [if_pos hr] at hmr
        exact Or.inl ⟨hr, hmr⟩
      · rw [if_neg hr] at hmr
        injection hmr with hmr
        exact Or.inr ⟨by simpa using hr, hmr.symm⟩
    have hrn : s1.rebuild_needed = false := by
      rcases hcase with ⟨_, hreb⟩ | ⟨hr, rfl⟩
      · exact (rebuild_spec hw hreb).2.1
      · exact hr
    have hsk : skel s1.items = skel s.items := by
      rcases hcase with ⟨_, hreb⟩ | ⟨_, rfl⟩
      · exact rebuilt_skel (rebuild_spec hw hreb).1
      · rfl
    obtain ⟨hlay, hle⟩ := hw1.layout hrn
    obtain ⟨hmem, hid⟩ := find_item_some hf1
    obtain ⟨front, rest, hsplit⟩ := List.append_of_mem hmem
    have hidx : s1.items[front.length]? = some i1 := by
      rw [hsplit, List.getElem?_append_right (Nat.le_refl _)]
      simp
    have hoff := laid_out_index hlay front.length i1 hidx
    have htake : s1.items.take front.length = front := by
      rw [hsplit]; simp
    rw [htake, Nat.zero_add] at hoff
    have hused : s1.n_pollfd_used = slots s1.items := by
      rw [hw1.used_eq]
      exact Nat.mod_eq_of_lt (lt_of_le_of_lt hle hw1.alloc_lt)
    have hsl : slots s1.items = slots front + (i1.n_pollfd + slots rest) := by
      rw [hsplit, slots_append]; rfl
    refine ⟨front, i1, rest, hsplit, hid, hn, ?_, by rw [hptr, hoff], ?_, ?_, hrn, ?_, ?_⟩
    · intro j hj
      rw [hf0] at hj
      injection hj with hj
      subst hj
      obtain ⟨i2, hi2, hc⟩ := find_of_skel hsk hf0
      rw [hf1] at hi2
      injection hi2 with hi2
      subst hi2
      rw [hn]
      exact (core_fields hc).2.2.1
    · rw [hused, hsl, hn]; omega
    · rw [hused, hw1.cap1]; exact hle
    · intro hr
      rcases hcase with ⟨hr1, _⟩ | ⟨_, h2⟩
      · rw [hr] at hr1; cases hr1
      · exact h2
    · intro hr
      rcases hcase with ⟨_, h2⟩ | ⟨hr1, _⟩
      · exact h2
      · rw [hr] at hr1; cases hr1

/-- Witness for C14: in `abort_demo` (list 2, 1, 0 with 1, 2 and 1 slots) the slice of the
participant with handle 0 is returned as entry 3 with count 1, after the pending rebuild. -/
theorem get_pollfd_current_witness :
    (∃ s1, pa_rtpoll_item_get_pollfd abort_demo 0 = .ok (s1, some 3, 1) ∧
        s1.rebuild_needed = false ∧ s1.n_pollfd_used = 4) ∧
      ∃ r, pa_rtpoll_item_get_pollfd abort_demo 0 = .ok r :=
  ⟨⟨_, rfl, rfl, rfl⟩,
    (get_pollfd_current plain_build abort_demo 0 abort_demo_reach (by decide)).1 (by decide)⟩

end Rtpoll
namespace Rtpoll

/-! ## C13: registration prepends -/

theorem fresh_items_append (a : List Nat) : ∀ (m c : Nat) (rest : List Nat),
    fresh_items m (a ++ c :: rest) =
      fresh_items m a ++ fresh_item (m + a.length) c :: fresh_items (m + a.length + 1) rest := by
  induction a with
  | nil => intro m c rest; simp [fresh_items]
  | cons x a ih =>
    intro m c rest
    rw [List.cons_append]
    simp only [fresh_items, List.length_cons]
    rw [ih, List.cons_append]
    have h1 : m + 1 + a.length = m + (a.length + 1) := by omega
    rw [h1]

theorem fresh_items_length (cs : List Nat) : ∀ m, (fresh_items m cs).length = cs.length := by
  induction cs with
  | nil => intro m; rfl
  | cons c cs ih => intro m; simp [fresh_items, ih]

theorem slots_fresh_items (cs : List Nat) : ∀ m, slots (fresh_items m cs) = cs.sum := by
  induction cs with
  | nil => intro m; rfl
  | cons c cs ih => intro m; simp [fresh_items, slots, fresh_item, ih]

theorem slots_reverse (l : List pa_rtpoll_item) : slots l.reverse = slots l := by
  induction l with
  | nil => rfl
  | cons x l ih =>
    rw [List.reverse_cons, slots_append, ih]
    simp only [slots]
    omega

/-- One registration with a count in range links the fresh item in front. -/
theorem register_one (p : pa_rtpoll) (c : Nat) (hc0 : 0 < c) (hcm : c < UINT_MOD) :
    exec_call p (Call.item_new c) = .ok { p with
      items := fresh_item p.next_id c :: p.items
      rebuild_needed := true
      n_pollfd_used := (p.n_pollfd_used + c) % UINT_MOD
      next_id := p.next_id + 1 } := by
  have hmod : c % UINT_MOD = c := Nat.mod_eq_of_lt hcm
  have hne : ¬ c % UINT_MOD = 0 := by rw [hmod]; omega
  simp only [exec_call, pa_rtpoll_item_new]
  rw [if_neg hne]
  simp only [hmod, fresh_item]

/-- Registering the counts `cs` one after the other links the new items in front of the
list, the last registered first. -/
theorem register_all (cs : List Nat) : ∀ p : pa_rtpoll, p.n_pollfd_used < UINT_MOD →
    (∀ c ∈ cs, 0 < c ∧ c < UINT_MOD) →
    ∃ s, exec_calls p (cs.map Call.item_new) = .ok s ∧
      s.items = (fresh_items p.next_id cs).reverse ++ p.items ∧
      s.n_pollfd_used = (p.n_pollfd_used + cs.sum) % UINT_MOD ∧
      (p.rebuild_needed = true ∨ cs ≠ [] → s.rebuild_needed = true) := by
  induction cs with
  | nil =>
    intro p hu _
    refine ⟨p, rfl, by simp [fresh_items], ?_, ?_⟩
    · rw [List.sum_nil, Nat.add_zero, Nat.mod_eq_of_lt hu]
    · intro h
      rcases h with h | h
      · exact h
      · exact absurd rfl h
  | cons c cs ih =>
    intro p hu hpos
    obtain ⟨hc0, hcm⟩ := hpos c (List.mem_cons_self _ _)
    obtain ⟨s, hs, hitems, hused, hrn⟩ := ih
      { p with
        items := fresh_item p.next_id c :: p.items
        rebuild_needed := true
        n_pollfd_used := (p.n_pollfd_used + c) % UINT_MOD
        next_id := p.next_id + 1 } (Nat.mod_lt _ (by unfold UINT_MOD; omega))
      (fun d hd => hpos d (List.mem_cons_of_mem _ hd))
    refine ⟨s, ?_, ?_, ?_, ?_⟩
    · simp only [List.map_cons, exec_calls, register_one p c hc0 hcm]
      exact hs
    · rw [hitems]
      simp [fresh_items]
    · rw [hused]
      simp only [List.sum_cons]
      unfold UINT_MOD
      omega
    · intro _
      exact hrn (Or.inl rfl)

theorem skel_take (l : List pa_rtpoll_item) (k : Nat) : skel (l.take k) = (skel l).take k := by
  unfold skel
  rw [List.map_take]

end Rtpoll
namespace Rtpoll

/-- C13 (registration prepends). Registering participants with the slot counts `cs`, each
positive and representable as `unsigned`, in that order on a fresh reactor succeeds; the
list then holds the new items in reverse registration order, `rebuild_needed` is set as
soon as one participant was registered, and the used count is the sum of the counts
(modulo 2^32). A rebuild succeeds when twice the sum fits, and after it the participant
registered with count `c` after `a` and before `rest` sits at index `rest.length` with a
slice starting at offset `rest.sum`. -/
theorem registration_prepends (b : Build) (release : Option (Nat × Nat × Nat)) (cs : List Nat)
    (hpos : ∀ c ∈ cs, 0 < c ∧ c < UINT_MOD) :
    ∃ s, exec_calls (pa_rtpoll_new b release) (cs.map Call.item_new) = .ok s ∧
      s.items = (fresh_items 0 cs).reverse ∧
      (cs ≠ [] → s.rebuild_needed = true) ∧
      s.n_pollfd_used = cs.sum % UINT_MOD ∧
      (2 * cs.sum < UINT_MOD → ∃ s1, rtpoll_rebuild s = .ok s1) ∧
      ∀ s1, rtpoll_rebuild s = .ok s1 →
        s1.n_pollfd_used = cs.sum ∧ s1.rebuild_needed = false ∧
        ∀ a c rest, cs = a ++ c :: rest →
          ∃ i, s1.items[rest.length]? = some i ∧ i.id = a.length ∧ i.n_pollfd = c ∧
            i.dead = false ∧ i.pollfd = some rest.sum := by
  obtain ⟨s, hs, hitems, hused, hrn⟩ := register_all cs (pa_rtpoll_new b release)
    (by simp [pa_rtpoll_new, UINT_MOD]) hpos
  have hn0 : (pa_rtpoll_new b release).next_id = 0 := rfl
  have hi0 : (pa_rtpoll_new b release).items = [] := rfl
  have hu0 : (pa_rtpoll_new b release).n_pollfd_used = 0 := rfl
  rw [hn0, hi0, List.append_nil] at hitems
  rw [hu0, Nat.zero_add] at hused
  have hw : wf s := wf_exec_calls (wf_new b release) hs
  have hsl : slots s.items = cs.sum := by
    rw [hitems, slots_reverse, slots_fresh_items]
  refine ⟨s, hs, hitems, fun h => hrn (Or.inr h), hused, ?_, ?_⟩
  · intro hfit
    exact rebuild_succeeds hw (by rw [hsl]; exact hfit)
  · intro s1 h1
    obtain ⟨hlay, hslots, _, hskel⟩ := rebuild_layout hw h1
    obtain ⟨_, hrn1, _⟩ := rebuild_spec hw h1
    refine ⟨?_, hrn1, ?_⟩
    · rw [← hslots, slots_of_skel hskel, hsl]
    · intro a c rest hsplit
      have hsi : s.items = (fresh_items (a.length + 1) rest).reverse ++
          fresh_item a.length c :: (fresh_items 0 a).reverse := by
        rw [hitems, hsplit, fresh_items_append]
        simp
      have hlen : (fresh_items (a.length + 1) rest).reverse.length = rest.length := by
        rw [List.length_reverse, fresh_items_length]
      have hget : s.items[rest.length]? = some (fresh_item a.length c) := by
        rw [hsi, ← hlen, List.getElem?_append_right (Nat.le_refl _)]
        simp
      have hsk : (skel s1.items)[rest.length]? = some (core (fresh_item a.length c)) := by
        rw [hskel]
        unfold skel
        rw [List.getElem?_map, hget]
        rfl
      unfold skel at hsk
      rw [List.getElem?_map] at hsk
      cases hg : s1.items[rest.length]? with
      | none => rw [hg] at hsk; simp at hsk
      | some i =>
        rw [hg] at hsk
        simp only [Option.map_some', Option.some.injEq, core, fresh_item, Prod.mk.injEq] at hsk
        obtain ⟨hid, hdead, hn, _, _⟩ := hsk
        refine ⟨i, rfl, hid, hn, hdead, ?_⟩
        rw [hlay rest.length i hg]
        have htk : skel (s1.items.take rest.length) = skel (s.items.take rest.length) := by
          rw [skel_take, skel_take, hskel]
        rw [slots_of_skel htk, hsi, ← hlen, List.take_left, slots_reverse, slots_fresh_items]

/-- C13, the instance of the specification: the counts 1, 2, 1 give the list order third,
second, first; after the rebuild the slices start at 0, 1 and 3 and four slots are used. -/
theorem registration_prepends_witness :
    (∀ c ∈ [1, 2, 1], 0 < c ∧ c < UINT_MOD) ∧
    (∃ s, exec_calls (pa_rtpoll_new plain_build none) ([1, 2, 1].map Call.item_new) = .ok s ∧
      s.items = (fresh_items 0 [1, 2, 1]).reverse ∧
      ([1, 2, 1] ≠ [] → s.rebuild_needed = true) ∧
      s.n_pollfd_used = [1, 2, 1].sum % UINT_MOD ∧
      (2 * [1, 2, 1].sum < UINT_MOD → ∃ s1, rtpoll_rebuild s = .ok s1) ∧
      ∀ s1, rtpoll_rebuild s = .ok s1 →
        s1.n_pollfd_used = [1, 2, 1].sum ∧ s1.rebuild_needed = false ∧
        ∀ a c rest, [1, 2, 1] = a ++ c :: rest →
          ∃ i, s1.items[rest.length]? = some i ∧ i.id = a.length ∧ i.n_pollfd = c ∧
            i.dead = false ∧ i.pollfd = some rest.sum) ∧
    (∃ s s1, exec_calls (pa_rtpoll_new plain_build none) ([1, 2, 1].map Call.item_new) = .ok s ∧
      handles s = [2, 1, 0] ∧ s.rebuild_needed = true ∧ s.n_pollfd_used = 4 ∧
      rtpoll_rebuild s = .ok s1 ∧
      s1.items.map (fun i => (i.id, i.n_pollfd, i.pollfd)) =
        [(2, 1, some 0), (1, 2, some 1), (0, 1, some 3)] ∧
      s1.n_pollfd_used = 4) :=
  ⟨by decide, registration_prepends plain_build none [1, 2, 1] (by decide),
    ⟨_, _, rfl, rfl, rfl, rfl, rfl, rfl, rfl⟩⟩

end Rtpoll
namespace Rtpoll

/-! ## Properties of the events kept by the dispatch loops

`G p tr q` relates the state before a stretch of the iteration, the events of the stretch
and the state after it. A relation that holds of the empty stretch, of one call, of one
hook invocation, and that composes holds of each dispatch loop. -/

theorem exec_calls_trace (G : pa_rtpoll → List Event → pa_rtpoll → Prop)
    (hnil : ∀ p, G p [] p)
    (hcomp : ∀ p q r t1 t2, G p t1 q → G q t2 r → G p (t1 ++ t2) r)
    (hcall : ∀ p p1 c, wf p → exec_call p c = .ok p1 → G p [Event.call c] p1)
    {cs : List Call} :
    ∀ {p p1 : pa_rtpoll}, wf p → exec_calls p cs = .ok p1 → G p (cs.map Event.call) p1 := by
  induction cs with
  | nil =>
    intro p p1 _ h
    simp only [exec_calls] at h
    injection h with h
    subst h
    exact hnil _
  | cons c cs ih =>
    intro p p1 hw h
    simp only [exec_calls] at h
    cases hc : exec_call p c with
    | error err => simp [hc] at h
    | ok p2 =>
      simp only [hc] at h
      exact hcomp _ _ _ [Event.call c] _ (hcall _ _ _ hw hc) (ih (wf_exec_call hw hc) h)

theorem run_before_trace (G : pa_rtpoll → List Event → pa_rtpoll → Prop)
    (hnil : ∀ p, G p [] p)
    (hcomp : ∀ p q r t1 t2, G p t1 q → G q t2 r → G p (t1 ++ t2) r)
    (hcall : ∀ p p1 c, wf p → exec_call p c = .ok p1 → G p [Event.call c] p1)
    (hpre : ∀ p h i cb, wf p → find_item p h = some i → i.dead = false →
      i.before_cb = some cb → G p [Event.before_cb cb h p.running] p) {H : Hooks}
    {todo : List Nat} : ∀ {p p1 : pa_rtpoll} {tr : List Event} {a : Option Nat}, wf p →
    run_before H todo p = .ok (p1, tr, a) → G p tr p1 := by
  induction todo with
  | nil =>
    intro p p1 tr a _ h
    simp only [run_before] at h
    injection h with h
    injection h with h1 h2
    injection h2 with h2 _
    subst h1 h2
    exact hnil _
  | cons x rest ih =>
    intro p p1 tr a hw h
    simp only [run_before] at h
    cases hf : find_item p x with
    | none => simp [hf] at h
    | some i =>
      simp only [hf] at h
      split at h
      · exact ih hw h
      · rename_i hd
        have hd0 : i.dead = false := by simpa using hd
        cases hb : i.before_cb with
        | none =>
          simp only [hb] at h
          exact ih hw h
        | some cb =>
          simp only [hb] at h
          cases he : exec_calls p (H.before cb x).1 with
          | error err => simp [he] at h
          | ok p2 =>
            simp only [he] at h
            have hw2 := wf_exec_calls hw he
            have hc2 := exec_calls_trace G hnil hcomp hcall hw he
            have hev := hpre p x i cb hw hf hd0 hb
            split at h
            · injection h with h
              injection h with h1 h2
              injection h2 with h2 _
              subst h1 h2
              exact hcomp _ _ _ [Event.before_cb cb x p.running] _ hev hc2
            · cases hr : run_before H rest p2 with
              | error err => simp [hr] at h
              | ok r =>
                obtain ⟨p3, tr3, a3⟩ := r
                simp only [hr] at h
                injection h with h
                injection h with h1 h2
                injection h2 with h2 _
                subst h1 h2
                exact hcomp _ _ _ [Event.before_cb cb x p.running] _ hev
                  (hcomp _ _ _ _ _ hc2 (ih hw2 hr))

theorem run_after_trace (G : pa_rtpoll → List Event → pa_rtpoll → Prop)
    (hnil : ∀ p, G p [] p)
    (hcomp : ∀ p q r t1 t2, G p t1 q → G q t2 r → G p (t1 ++ t2) r)
    (hcall : ∀ p p1 c, wf p → exec_call p c = .ok p1 → G p [Event.call c] p1)
    (hpost : ∀ p h i cb, wf p → find_item p h = some i → i.dead = false →
      i.after_cb = some cb → G p [Event.after_cb cb h p.running] p) {H : Hooks}
    {todo : List Nat} : ∀ {p p1 : pa_rtpoll} {tr : List Event}, wf p →
    run_after H todo p = .ok (p1, tr) → G p tr p1 := by
  induction todo with
  | nil =>
    intro p p1 tr _ h
    simp only [run_after] at h
    injection h with h
    injection h with h1 h2
    subst h1 h2
    exact hnil _
  | cons x rest ih =>
    intro p p1 tr hw h
    simp only [run_after] at h
    cases hf : find_item p x with
    | none => simp [hf] at h
    | some i =>
      simp only [hf] at h
      split at h
      · exact ih hw h
      · rename_i hd
        have hd0 : i.dead = false := by simpa using hd
        cases hb : i.after_cb with
        | none =>
          simp only [hb] at h
          exact ih hw h
        | some cb =>
          simp only [hb] at h
          cases he : exec_calls p (H.after cb x) with
          | error err => simp [he] at h
          | ok p2 =>
            simp only [he] at h
            have hw2 := wf_exec_calls hw he
            have hc2 := exec_calls_trace G hnil hcomp hcall hw he
            have hev := hpost p x i cb hw hf hd0 hb
            cases hr : run_after H rest p2 with
            | error err => simp [hr] at h
            | ok r =>
              obtain ⟨p3, tr3⟩ := r
              simp only [hr] at h
              injection h with h
              injection h with h1 h2
              subst h1 h2
              exact hcomp _ _ _ [Event.after_cb cb x p.running] _ hev
                (hcomp _ _ _ _ _ hc2 (ih hw2 hr))

theorem run_unwind_trace (G : pa_rtpoll → List Event → pa_rtpoll → Prop)
    (hnil : ∀ p, G p [] p)
    (hcomp : ∀ p q r t1 t2, G p t1 q → G q t2 r → G p (t1 ++ t2) r)
    (hcall : ∀ p p1 c, wf p → exec_call p c = .ok p1 → G p [Event.call c] p1)
    (hpost : ∀ p h i cb, wf p → find_item p h = some i → i.dead = false →
      i.after_cb = some cb → G p [Event.after_cb cb h p.running] p) {H : Hooks}
    {fuel : Nat} : ∀ {cur : Option Nat} {p p1 : pa_rtpoll} {tr : List Event}, wf p →
    run_unwind H fuel cur p = .ok (p1, tr) → G p tr p1 := by
  induction fuel with
  | zero =>
    intro cur p p1 tr _ h
    cases cur with
    | none =>
      simp only [run_unwind] at h
      injection h with h
      injection h with h1 h2
      subst h1 h2
      exact hnil _
    | some x => simp [run_unwind] at h
  | succ n ih =>
    intro cur p p1 tr hw h
    cases cur with
    | none =>
      simp only [run_unwind] at h
      injection h with h
      injection h with h1 h2
      subst h1 h2
      exact hnil _
    | some x =>
      simp only [run_unwind] at h
      cases hf : find_item p x with
      | none => simp [hf] at h
      | some i =>
        simp only [hf] at h
        split at h
        · cases hp : llist_prev p.items x none with
          | none => simp [hp] at h
          | some pr =>
            simp only [hp] at h
            exact ih hw h
        · rename_i hd
          have hd0 : i.dead = false := by simpa using hd
          cases hb : i.after_cb with
          | none =>
            simp only [hb] at h
            cases hp : llist_prev p.items x none with
            | none => simp [hp] at h
            | some pr =>
              simp only [hp] at h
              exact ih hw h
          | some cb =>
            simp only [hb] at h
            cases he : exec_calls p (H.after cb x) with
            | error err => simp [he] at h
            | ok p2 =>
              simp only [he] at h
              have hw2 := wf_exec_calls hw he
              have hc2 := exec_calls_trace G hnil hcomp hcall hw he
              have hev := hpost p x i cb hw hf hd0 hb
              cases hp : llist_prev p2.items x none with
              | none => simp [hp] at h
              | some pr =>
                simp only [hp] at h
                cases hr : run_unwind H n pr p2 with
                | error err => simp [hr] at h
                | ok r =>
                  obtain ⟨p3, tr3⟩ := r
                  simp only [hr] at h
                  injection h with h
                  injection h with h1 h2
                  subst h1 h2
                  exact hcomp _ _ _ [Event.after_cb cb x p.running] _ hev
                    (hcomp _ _ _ _ _ hc2 (ih hw2 hr))

end Rtpoll
namespace Rtpoll

/-! ## The events of each phase, for arbitrary hooks -/

theorem run_before_pre_phase {H : Hooks} {todo : List Nat} {p p1 : pa_rtpoll}
    {tr : List Event} {a : Option Nat} (hw : wf p) (h : run_before H todo p = .ok (p1, tr, a)) :
    ∀ e ∈ tr, pre_phase e = true :=
  run_before_trace (fun _ t _ => ∀ e ∈ t, pre_phase e = true) (fun _ => by simp)
    (fun _ _ _ t1 t2 h1 h2 e he => by
      rcases List.mem_append.1 he with he | he
      · exact h1 e he
      · exact h2 e he)
    (fun _ _ _ _ _ e he => by rw [List.mem_singleton.1 he]; rfl)
    (fun _ _ _ _ _ _ _ _ e he => by rw [List.mem_singleton.1 he]; rfl) hw h

theorem run_after_post_phase {H : Hooks} {todo : List Nat} {p p1 : pa_rtpoll}
    {tr : List Event} (hw : wf p) (h : run_after H todo p = .ok (p1, tr)) :
    ∀ e ∈ tr, post_phase e = true :=
  run_after_trace (fun _ t _ => ∀ e ∈ t, post_phase e = true) (fun _ => by simp)
    (fun _ _ _ t1 t2 h1 h2 e he => by
      rcases List.mem_append.1 he with he | he
      · exact h1 e he
      · exact h2 e he)
    (fun _ _ _ _ _ e he => by rw [List.mem_singleton.1 he]; rfl)
    (fun _ _ _ _ _ _ _ _ e he => by rw [List.mem_singleton.1 he]; rfl) hw h

theorem run_unwind_post_phase {H : Hooks} {fuel : Nat} {cur : Option Nat} {p p1 : pa_rtpoll}
    {tr : List Event} (hw : wf p) (h : run_unwind H fuel cur p = .ok (p1, tr)) :
    ∀ e ∈ tr, post_phase e = true :=
  run_unwind_trace (fun _ t _ => ∀ e ∈ t, post_phase e = true) (fun _ => by simp)
    (fun _ _ _ t1 t2 h1 h2 e he => by
      rcases List.mem_append.1 he with he | he
      · exact h1 e he
      · exact h2 e he)
    (fun _ _ _ _ _ e he => by rw [List.mem_singleton.1 he]; rfl)
    (fun _ _ _ _ _ _ _ _ e he => by rw [List.mem_singleton.1 he]; rfl) hw h

theorem not_before_of_calls {cs : List Call} {cb i : Nat} {rn : Bool} :
    Event.before_cb cb i rn ∉ cs.map Event.call := by
  intro hm
  obtain ⟨c, _, hc⟩ := List.mem_map.1 hm
  cases hc

/-- The pre-wait dispatch ends without a refusal exactly when every pre-wait hook it
invoked returned a value that is not negative; when it ends with a refusal, the hook of the
item it names was invoked and returned a negative value. -/
theorem run_before_returns {H : Hooks} {todo : List Nat} : ∀ {p p1 : pa_rtpoll}
    {tr : List Event} {a : Option Nat}, run_before H todo p = .ok (p1, tr, a) →
    (a = none → ∀ cb i rn, Event.before_cb cb i rn ∈ tr → 0 ≤ (H.before cb i).2) ∧
      (∀ h, a = some h → ∃ cb rn, Event.before_cb cb h rn ∈ tr ∧ (H.before cb h).2 < 0) := by
  induction todo with
  | nil =>
    intro p p1 tr a h
    simp only [run_before] at h
    injection h with h
    injection h with _ h2
    injection h2 with h2 h3
    subst h2 h3
    exact ⟨fun _ cb i rn hm => absurd hm (List.not_mem_nil _), fun h hh => by cases hh⟩
  | cons x rest ih =>
    intro p p1 tr a h
    simp only [run_before] at h
    cases hf : find_item p x with
    | none => simp [hf] at h
    | some i =>
      simp only [hf] at h
      split at h
      · exact ih h
      · cases hb : i.before_cb with
        | none =>
          simp only [hb] at h
          exact ih h
        | some cb =>
          simp only [hb] at h
          cases he : exec_calls p (H.before cb x).1 with
          | error err => simp [he] at h
          | ok p2 =>
            simp only [he] at h
            split at h
            · rename_i hneg
              injection h with h
              injection h with _ h2
              injection h2 with h2 h3
              subst h2 h3
              refine ⟨fun hn => (by cases hn), fun h hh => ?_⟩
              injection hh with hh
              subst hh
              exact ⟨cb, p.running, List.mem_cons_self _ _, hneg⟩
            · rename_i hneg
              cases hr : run_before H rest p2 with
              | error err => simp [hr] at h
              | ok r =>
                obtain ⟨p3, tr3, a3⟩ := r
                simp only [hr] at h
                injection h with h
                injection h with _ h2
                injection h2 with h2 h3
                subst h2 h3
                obtain ⟨ih1, ih2⟩ := ih hr
                refine ⟨fun hn cb1 i1 rn hm => ?_, fun h hh => ?_⟩
                · rcases List.mem_cons.1 hm with hm | hm
                  · injection hm with e1 e2 _
                    subst e1 e2
                    omega
                  · rcases List.mem_append.1 hm with hm | hm
                    · exact absurd hm not_before_of_calls
                    · exact ih1 hn cb1 i1 rn hm
                · obtain ⟨cb1, rn, hm, hlt⟩ := ih2 h hh
                  exact ⟨cb1, rn, List.mem_cons_of_mem _
                    (List.mem_append_right _ hm), hlt⟩

end Rtpoll
namespace Rtpoll

/-! ## The pre-wait hooks invoked when quiet hooks refuse the wait -/

theorem dispatched_first {H : Hooks} {x : pa_rtpoll_item} {rest : List pa_rtpoll_item}
    (hx : refuses H x = true) : ∀ front : List pa_rtpoll_item,
    (∀ y ∈ front, refuses H y = false) → dispatched H (front ++ x :: rest) = front ++ [x] := by
  intro front
  induction front with
  | nil => intro _; simp [dispatched, hx]
  | cons z l ih =>
    intro hf
    rw [List.cons_append]
    simp only [dispatched, hf z (List.mem_cons_self _ _), Bool.false_eq_true, if_false]
    rw [ih (fun y hy => hf y (List.mem_cons_of_mem _ hy))]
    rfl

/-- The pre-wait dispatch with quiet hooks invokes the pre-wait hooks of the items up to
the first refusal, in list order. -/
theorem run_before_pres {H : Hooks} (todo : List pa_rtpoll_item) :
    ∀ p : pa_rtpoll, wf p → 2 * slots p.items < UINT_MOD → hooks_quiet H p →
    (∀ x ∈ todo, ∃ y, find_item p x.id = some y ∧ core y = core x) →
    ∀ p1 tr a, run_before H (todo.map (fun i => i.id)) p = .ok (p1, tr, a) →
      pres tr = (dispatched H todo).filterMap pre_of := by
  induction todo with
  | nil =>
    intro p _ _ _ _ p1 tr a h
    simp only [List.map_nil, run_before] at h
    injection h with h
    injection h with _ h2
    injection h2 with h2 _
    subst h2
    rfl
  | cons x rest ih =>
    intro p hw hfit hq hl p1 tr a h
    obtain ⟨y, hy, hc⟩ := hl x (List.mem_cons_self _ _)
    obtain ⟨_, hdead, _, hbc, _⟩ := core_fields hc
    have hrest : ∀ z ∈ rest, ∃ y, find_item p z.id = some y ∧ core y = core z :=
      fun z hz => hl z (List.mem_cons_of_mem _ hz)
    simp only [List.map_cons, run_before, hy] at h
    by_cases hd : x.dead = true
    · have hnr : refuses H x = false := by simp [refuses, pre_of, hd]
      simp only [hdead, hd, if_true] at h
      rw [ih p hw hfit hq hrest p1 tr a h]
      simp [dispatched, hnr, List.filterMap_cons, pre_of, hd]
    · have hd0 : x.dead = false := by simpa using hd
      simp only [hdead, hd0, Bool.false_eq_true, if_false] at h
      cases hb : x.before_cb with
      | none =>
        have hnr : refuses H x = false := by simp [refuses, pre_of, hd0, hb]
        simp only [hbc, hb] at h
        rw [ih p hw hfit hq hrest p1 tr a h]
        simp [dispatched, hnr, List.filterMap_cons, pre_of, hd0, hb]
      | some cb =>
        have hpre : pre_of x = some (cb, x.id) := by simp [pre_of, hd0, hb]
        obtain ⟨p2, he, hw2, hs2⟩ := exec_calls_quiet hw hfit (quiet_before hq hy hc hb)
        simp only [hbc, hb, he] at h
        by_cases hneg : (H.before cb x.id).2 < 0
        · have hr : refuses H x = true := by simp [refuses, hpre, hneg]
          simp only [hneg, if_true] at h
          injection h with h
          injection h with _ h2
          injection h2 with h2 _
          subst h2
          simp only [dispatched, hr, if_true, pres, pres_calls, List.filterMap_cons, hpre,
            List.filterMap_nil]
        · have hnr : refuses H x = false := by simp [refuses, hpre, hneg]
          simp only [hneg, if_false] at h
          cases hrb : run_before H (rest.map (fun i => i.id)) p2 with
          | error err => simp [hrb] at h
          | ok r =>
            obtain ⟨p3, tr3, a3⟩ := r
            simp only [hrb] at h
            injection h with h
            injection h with _ h2
            injection h2 with h2 _
            subst h2
            have := ih p2 hw2 (fits_of_shape hs2 hfit) (hooks_quiet_of_skel hs2.1 hq)
              (lookup_of_shape hs2 hrest) p3 tr3 a3 hrb
            simp only [dispatched, hnr, Bool.false_eq_true, if_false, pres, pres_append,
              pres_calls, List.nil_append, this, List.filterMap_cons, hpre]

/-- An iteration in which the item at position `k` is the first whose pre-wait hook
refuses the wait, with quiet hooks: the iteration returns 0; its events are those of the
pre-wait dispatch, which invokes the pre-wait hooks of the items up to position `k`,
followed by those of the unwinding, which invokes the post-wait hooks of the items before
position `k` from the last to the first. -/
theorem abort_quiet {b : Build} {H : Hooks} {w : Sys} {fuel : Nat} {s : pa_rtpoll} {k : Nat}
    {x : pa_rtpoll_item} (hreach : Reach b s) (hinst : s.installed = true)
    (hidle : s.running = false) (hfit : 2 * slots s.items < UINT_MOD)
    (hq : hooks_quiet H s) (hk : s.items[k]? = some x) (hx : refuses H x = true)
    (hfirst : ∀ y ∈ s.items.take k, refuses H y = false) (hfuel : k ≤ fuel) :
    ∃ s1 tr1 tr2, pa_rtpoll_run b H w fuel s = .ok (s1, 0, tr1 ++ tr2) ∧
      (∀ e ∈ tr1, pre_phase e = true) ∧ (∀ e ∈ tr2, post_phase e = true) ∧
      pres tr1 = (s.items.take k ++ [x]).filterMap pre_of ∧
      posts tr2 = (s.items.take k).reverse.filterMap post_of ∧
      s1.running = false ∧ s1.scan_for_dead = false := by
  have hw := reach_wf hreach
  have hw0 : wf { s with running := true } := wf_enter hw
  have hsplit := split_at_index hk
  have hdisp : dispatched H s.items = s.items.take k ++ [x] := by
    rw [hsplit, dispatched_first hx _ hfirst, ← hsplit]
  have hfind : s.items.find? (fun i => refuses H i) = some x := by
    rw [hsplit, List.find?_append]
    have h1 : (s.items.take k).find? (fun i => refuses H i) = none := by
      rw [List.find?_eq_none]
      intro y hy
      simp [hfirst y hy]
    rw [h1, List.find?_cons_of_pos _ (by simp [hx])]
    rfl
  obtain ⟨p1, tr1, h1, hw1, hs1, hp1, _⟩ := run_before_quiet (H := H) s.items
    { s with running := true } hw0 hfit hq (lookup_self hw0.ids_nodup)
  have hpres := run_before_pres (H := H) s.items { s with running := true } hw0 hfit hq
    (lookup_self hw0.ids_nodup) _ _ _ h1
  rw [hfind] at h1
  have hh1 : handles p1 = (s.items.take k ++ x :: s.items.drop (k + 1)).map (fun i => i.id) := by
    rw [handles_of_skel hs1.1, ← hsplit]
    rfl
  have hxn : x.id ∉ (s.items.take k).map (fun i => i.id) := by
    intro hm
    obtain ⟨z, hz, hzx⟩ := List.mem_map.1 hm
    refine nodup_take_drop hw.ids_nodup k hz ?_ hzx
    rw [List.drop_eq_getElem?_toList_append, hk]
    simp
  have hprev : llist_prev p1.items x.id none = some (last_handle (s.items.take k) none) := by
    rw [llist_prev_ids (l := s.items.take k ++ x :: s.items.drop (k + 1)) hh1 x.id]
    exact llist_prev_append hxn
  have hlook : ∀ z ∈ s.items.take k, ∃ y, find_item p1 z.id = some y ∧ core y = core z :=
    lookup_of_shape hs1 (fun z hz => lookup_self hw0.ids_nodup z (List.mem_of_mem_take hz))
  obtain ⟨p2, tr2, h2, hw2, _, hp2, hposts⟩ := run_unwind_quiet (H := H) (s.items.take k)
    (x :: s.items.drop (k + 1)) p1 fuel hw1 (fits_of_shape hs1 hfit)
    (hooks_quiet_of_skel hs1.1 hq) hh1 hlook
    (by rw [List.length_take]; omega)
  obtain ⟨p3, h3, _, _, hrun3, hscan3, _⟩ := run_finish_spec hw2
  have hrun : pa_rtpoll_run b H w fuel s = .ok (p3, 0, tr1 ++ tr2) := by
    have hd : run_dispatch b H w fuel s = .ok (p2, 0, tr1 ++ tr2) := by
      unfold run_dispatch handles
      simp only [h1, Option.map_some', hprev, h2]
    unfold pa_rtpoll_run
    simp only [hidle, hinst, hd, h3]
    simp
  exact ⟨p3, tr1, tr2, hrun, hp1, hp2, by rw [hpres, hdisp], hposts, hrun3, hscan3⟩

end Rtpoll
namespace Rtpoll

/-! ## C19: the result of an aborted iteration -/

theorem first_refusal {H : Hooks} : ∀ {l : List pa_rtpoll_item},
    (∃ x ∈ l, refuses H x = true) →
    ∃ k x, l[k]? = some x ∧ refuses H x = true ∧ (∀ y ∈ l.take k, refuses H y = false) ∧
      k < l.length := by
  intro l
  induction l with
  | nil => intro h; obtain ⟨x, hx, _⟩ := h; cases hx
  | cons z l ih =>
    intro h
    by_cases hz : refuses H z = true
    · exact ⟨0, z, by simp, hz, by simp, by simp⟩
    · have hz0 : refuses H z = false := by simpa using hz
      obtain ⟨x, hx, hr⟩ := h
      rcases List.mem_cons.1 hx with rfl | hx
      · exact absurd hr hz
      · obtain ⟨k, y, hk, hy, hf, hlt⟩ := ih ⟨x, hx, hr⟩
        refine ⟨k + 1, y, by simpa using hk, hy, ?_, by simp; omega⟩
        intro u hu
        rw [List.take_succ_cons] at hu
        rcases List.mem_cons.1 hu with rfl | hu
        · exact hz0
        · exact hf u hu

theorem refuses_spec {H : Hooks} {x : pa_rtpoll_item} (h : refuses H x = true) :
    ∃ cb, x.dead = false ∧ x.before_cb = some cb ∧ pre_of x = some (cb, x.id) ∧
      (H.before cb x.id).2 < 0 := by
  unfold refuses at h
  cases hp : pre_of x with
  | none => simp [hp] at h
  | some c =>
    obtain ⟨cb, i⟩ := c
    simp only [hp, decide_eq_true_eq] at h
    unfold pre_of at hp
    by_cases hd : x.dead = true
    · simp [hd] at hp
    · have hd0 : x.dead = false := by simpa using hd
      cases hb : x.before_cb with
      | none => simp [hd0, hb] at hp
      | some cb1 =>
        simp only [hd0, hb, Bool.false_eq_true, if_false, Option.map_some', Option.some.injEq,
          Prod.mk.injEq] at hp
        obtain ⟨h1, h2⟩ := hp
        subst h1 h2
        exact ⟨cb1, hd0, rfl, by simp [pre_of, hd0, hb], h⟩

theorem mem_pres {tr : List Event} {cb i : Nat} :
    (cb, i) ∈ pres tr ↔ ∃ rn, Event.before_cb cb i rn ∈ tr := by
  induction tr with
  | nil => simp [pres]
  | cons e tr ih =>
    cases e with
    | before_cb c j r =>
      simp only [pres, List.mem_cons, ih, Prod.mk.injEq, Event.before_cb.injEq]
      constructor
      · rintro (⟨h1, h2⟩ | ⟨rn, h⟩)
        · exact ⟨r, Or.inl ⟨h1, h2, rfl⟩⟩
        · exact ⟨rn, Or.inr h⟩
      · rintro ⟨rn, ⟨h1, h2, _⟩ | h⟩
        · exact Or.inl ⟨h1, h2⟩
        · exact Or.inr ⟨rn, h⟩
    | _ => simp [pres, ih]

theorem mem_posts {tr : List Event} {cb i : Nat} :
    (cb, i) ∈ posts tr ↔ ∃ rn, Event.after_cb cb i rn ∈ tr := by
  induction tr with
  | nil => simp [posts]
  | cons e tr ih =>
    cases e with
    | after_cb c j r =>
      simp only [posts, List.mem_cons, ih, Prod.mk.injEq, Event.after_cb.injEq]
      constructor
      · rintro (⟨h1, h2⟩ | ⟨rn, h⟩)
        · exact ⟨r, Or.inl ⟨h1, h2, rfl⟩⟩
        · exact ⟨rn, Or.inr h⟩
      · rintro ⟨rn, ⟨h1, h2, _⟩ | h⟩
        · exact Or.inl ⟨h1, h2⟩
        · exact Or.inr ⟨rn, h⟩
    | _ => simp [posts, ih]

/-- The rebuild, the wait and the post-wait dispatch invoke no pre-wait hook. -/
theorem run_wait_phase_events {b : Build} {H : Hooks} {w : Sys} {p t : pa_rtpoll} {r : Int}
    {tr : List Event} (hw : wf p) (h : run_wait_phase b H w p = .ok (t, r, tr)) :
    ∀ e ∈ tr, e = Event.rebuild ∨ is_wait e = true ∨ post_phase e = true := by
  obtain ⟨q, tra, p2, trw, tr3, hq, hwt, ha, htr⟩ := run_wait_phase_split h
  have hwq : wf q := by
    rcases hq with ⟨_, hreb, _⟩ | ⟨_, hqe, _⟩
    · exact wf_rebuild hw hreb
    · rw [hqe]; exact hw
  have hw2 := wf_run_wait hwq hwt
  intro e he
  rw [htr] at he
  rcases List.mem_append.1 he with he | he
  · rcases hq with ⟨_, _, ht⟩ | ⟨_, _, ht⟩
    · rw [ht] at he
      exact Or.inl (List.mem_singleton.1 he)
    · rw [ht] at he
      cases he
  · rcases List.mem_append.1 he with he | he
    · exact Or.inr (Or.inl (run_wait_events hwt e he))
    · exact Or.inr (Or.inr (run_after_post_phase hw2 ha e he))

end Rtpoll
namespace Rtpoll

/-- C19. Result of an aborted iteration. For a reachable reactor and arbitrary hooks, if an
iteration of `pa_rtpoll_run` returns and one of the pre-wait hooks it invoked returned a
negative value, then the iteration returns 0 whatever that value and the interval are, makes
no wait, leaves `running` and `scan_for_dead` clear and has unlinked every item that was
dead at the label `finish`. With quiet hooks, an installed idle reactor in which some item
refuses the wait and enough fuel for the unwinding, the iteration does return, with 0. -/
theorem aborted_returns_zero (b : Build) (H : Hooks) (w : Sys) (fuel : Nat) (s : pa_rtpoll)
    (hreach : Reach b s) :
    (∀ s1 r tr, pa_rtpoll_run b H w fuel s = .ok (s1, r, tr) →
      (∃ cb i rn, Event.before_cb cb i rn ∈ tr ∧ (H.before cb i).2 < 0) →
      r = 0 ∧ s1.running = false ∧ s1.scan_for_dead = false ∧
        (∀ i ∈ s1.items, i.dead = false) ∧ waits tr = [] ∧ Event.rebuild ∉ tr ∧
        ∃ t, run_dispatch b H w fuel s = .ok (t, 0, tr) ∧
          s1.items = t.items.filter (fun i => !i.dead)) ∧
    (s.installed = true → s.running = false → 2 * slots s.items < UINT_MOD →
      hooks_quiet H s → (∃ x ∈ s.items, refuses H x = true) → s.items.length ≤ fuel →
      ∃ s1 tr, pa_rtpoll_run b H w fuel s = .ok (s1, 0, tr) ∧
        ∃ cb i rn, Event.before_cb cb i rn ∈ tr ∧ (H.before cb i).2 < 0) := by
  have hw := reach_wf hreach
  have hw0 : wf { s with running := true } := wf_enter hw
  refine ⟨?_, ?_⟩
  · intro s1 r tr hrun hev
    obtain ⟨_, _, t, hd, hf⟩ := run_ok_split hrun
    have hwt := wf_run_dispatch hw hd
    obtain ⟨s2, hf2, _, hitems, hrn, hsc, _⟩ := run_finish_spec hwt
    rw [hf] at hf2
    injection hf2 with hf2
    subst hf2
    obtain ⟨p1, tr1, a, hb, hcase⟩ := run_dispatch_split hd
    have hw1 := (wf_run_before hw0 hb).1
    have hp1 := run_before_pre_phase hw0 hb
    obtain ⟨hret, _⟩ := run_before_returns hb
    have hdead : ∀ i ∈ s1.items, i.dead = false := by
      intro i hi
      rw [hitems] at hi
      simpa using (List.mem_filter.1 hi).2
    rcases hcase with ⟨hd1, pr, tr2, _, _, hu, hr0, htr⟩ | ⟨hnone, tr2, hwp, htr⟩
    · have hp2 := run_unwind_post_phase hw1 hu
      subst hr0
      refine ⟨rfl, hrn, hsc, hdead, ?_, ?_, t, hd, hitems⟩
      · rw [htr, waits_append, waits_of_pre_phase hp1, waits_of_post_phase hp2]
        rfl
      · rw [htr]
        intro hm
        rcases List.mem_append.1 hm with hm | hm
        · exact no_rebuild_of_pre_phase hp1 hm
        · exact no_rebuild_of_post_phase hp2 hm
    · exfalso
      obtain ⟨cb, i, rn, hm, hneg⟩ := hev
      rw [htr] at hm
      rcases List.mem_append.1 hm with hm | hm
      · have := hret hnone cb i rn hm
        omega
      · rcases run_wait_phase_events hw1 hwp _ hm with h1 | h1 | h1
        · cases h1
        · cases h1
        · cases h1
  · intro hinst hidle hfit hq hex hfuel
    obtain ⟨k, x, hk, hx, hfirst, hlt⟩ := first_refusal hex
    have hkf : k ≤ fuel := by omega
    obtain ⟨s1, tr1, tr2, hrun, _, _, hpres, _⟩ := @abort_quiet b H w fuel s k x hreach hinst
      hidle hfit hq hk hx hfirst hkf
    obtain ⟨cb, _, _, hpre, hneg⟩ := refuses_spec hx
    have hm : (cb, x.id) ∈ pres tr1 := by
      rw [hpres, List.filterMap_append]
      exact List.mem_append_right _ (by simp [hpre])
    obtain ⟨rn, hm⟩ := mem_pres.1 hm
    exact ⟨s1, tr1 ++ tr2, hrun, cb, x.id, rn, List.mem_append_left _ hm, hneg⟩

/-- Witness for C19: in `abort_demo` the pre-wait hook of participant 1 returns -1; the
iteration returns 0, without a wait, and leaves the reactor idle. -/
theorem aborted_returns_zero_witness :
    ∃ s1 tr, pa_rtpoll_run plain_build abort_hooks timeout_sys 3 abort_demo = .ok (s1, 0, tr) ∧
      (∃ cb i rn, Event.before_cb cb i rn ∈ tr ∧ (abort_hooks.before cb i).2 < 0) ∧
      s1.running = false ∧ s1.scan_for_dead = false ∧ waits tr = [] := by
  have h := aborted_returns_zero plain_build abort_hooks timeout_sys 3 abort_demo
    abort_demo_reach
  obtain ⟨s1, tr, hrun, hev⟩ := h.2 rfl rfl (by decide) abort_hooks_quiet
    ⟨{ id := 1, dead := false, pollfd := none, n_pollfd := 2, before_cb := some 11,
       after_cb := some 21, userdata := none }, by simp [abort_demo], by decide⟩ (by decide)
  obtain ⟨_, h1, h2, _, h4, _⟩ := h.1 s1 0 tr hrun hev
  exact ⟨s1, tr, hrun, hev, h1, h2, h4⟩

end Rtpoll
namespace Rtpoll

/-! ## C15: the value of a genuine wait result -/

/-- An iteration in which no pre-wait hook refuses the wait, with quiet hooks: it returns,
makes one wait call (none in the build and state of `wait_skipped`) and invokes the
pre-wait and the post-wait hook of every item that has one. -/
theorem forward_quiet {b : Build} {H : Hooks} {w : Sys} {fuel : Nat} {s : pa_rtpoll}
    (hreach : Reach b s) (hinst : s.installed = true) (hidle : s.running = false)
    (hfit : 2 * slots s.items < UINT_MOD) (hq : hooks_quiet H s)
    (hnone : ∀ y ∈ s.items, refuses H y = false) :
    ∃ s1 r tr, pa_rtpoll_run b H w fuel s = .ok (s1, r, tr) ∧
      (waits tr).length = (if wait_skipped b s then 0 else 1) ∧
      pres tr = s.items.filterMap pre_of ∧ posts tr = s.items.filterMap post_of := by
  have hw := reach_wf hreach
  have hw0 : wf { s with running := true } := wf_enter hw
  have hfind : s.items.find? (fun i => refuses H i) = none := by
    rw [List.find?_eq_none]
    intro y hy
    simp [hnone y hy]
  obtain ⟨p1, tr1, h1, hw1, hs1, hp1, hpres⟩ := run_before_quiet (H := H) s.items
    { s with running := true } hw0 hfit hq (lookup_self hw0.ids_nodup)
  rw [hfind] at h1
  obtain ⟨p3, r, tra, trb, h2, hw3, hs3, hpa, hqa, hwa, hpb, hposts⟩ :=
    run_wait_phase_quiet (b := b) (H := H) (w := w) hw1 (fits_of_shape hs1 hfit)
      (hooks_quiet_of_skel hs1.1 hq)
  obtain ⟨p4, h4, _⟩ := run_finish_spec hw3
  have hrun : pa_rtpoll_run b H w fuel s = .ok (p4, r, tr1 ++ (tra ++ trb)) := by
    have hd : run_dispatch b H w fuel s = .ok (p3, r, tr1 ++ (tra ++ trb)) := by
      unfold run_dispatch handles
      simp only [h1, Option.map_none', h2]
    unfold pa_rtpoll_run
    simp only [hidle, hinst, hd, h4]
    simp
  have hskip : wait_skipped b p1 = wait_skipped b s := by
    unfold wait_skipped
    rw [hs1.2.2.2.2.2.1]
  refine ⟨p4, r, tr1 ++ (tra ++ trb), hrun, ?_, ?_, ?_⟩
  · rw [waits_append, waits_append, waits_of_pre_phase hp1, waits_of_post_phase hpb,
      List.nil_append, List.append_nil, hwa, hskip]
  · rw [pres_append, pres_append, hpa, pres_of_post_phase hpb, hpres hfind]
    simp
  · rw [posts_append, posts_append, hqa, posts_of_pre_phase hp1, hposts]
    simp only [List.nil_append]
    exact filterMap_post_of_skel hs1.1

theorem normalise_genuine {w : Sys}
    (hgen : 0 ≤ w.ret ∨ (w.errno ≠ EINTR ∧ w.errno ≠ EAGAIN)) : normalise w w.ret = w.ret := by
  unfold normalise
  rw [if_neg]
  rintro ⟨hneg, he⟩
  rcases hgen with h | ⟨h1, h2⟩
  · omega
  · rcases he with he | he
    · exact h2 he
    · exact h1 he

/-- C15. Genuine wait results are returned unchanged. Let the wait return `w.ret` with
`errno` `w.errno`, where `w.ret` is not negative or `errno` is neither `EINTR` nor `EAGAIN`.
For a reachable reactor and arbitrary hooks, an iteration of `pa_rtpoll_run` that returns
and made a wait call returns `w.ret`, made exactly one wait call, ran the post-wait
dispatch over all the items after the wait, and ended with the sweep (`running` and
`scan_for_dead` clear, dead items unlinked). With quiet hooks none of which refuses the
wait, on an installed idle reactor in a build and state that compile a wait call, the
iteration does return, with `w.ret`, after invoking the post-wait hook of every item that
has one. -/
theorem genuine_wait_result (b : Build) (H : Hooks) (w : Sys) (fuel : Nat) (s : pa_rtpoll)
    (hreach : Reach b s) (hgen : 0 ≤ w.ret ∨ (w.errno ≠ EINTR ∧ w.errno ≠ EAGAIN)) :
    (∀ s1 r tr, pa_rtpoll_run b H w fuel s = .ok (s1, r, tr) → waits tr ≠ [] →
      r = w.ret ∧ (waits tr).length = 1 ∧ s1.running = false ∧ s1.scan_for_dead = false ∧
        (∀ i ∈ s1.items, i.dead = false) ∧
        ∃ tr0 e tr3 p2 t, tr = tr0 ++ e :: tr3 ∧ is_wait e = true ∧ waits tr0 = [] ∧
          posts tr0 = [] ∧ run_after H (handles p2) p2 = .ok (t, tr3) ∧ waits tr3 = [] ∧
          s1.items = t.items.filter (fun i => !i.dead)) ∧
    (s.installed = true → s.running = false → 2 * slots s.items < UINT_MOD →
      hooks_quiet H s → (∀ y ∈ s.items, refuses H y = false) → wait_skipped b s = false →
      ∃ s1 tr, pa_rtpoll_run b H w fuel s = .ok (s1, w.ret, tr) ∧ (waits tr).length = 1 ∧
        posts tr = s.items.filterMap post_of) := by
  have hw := reach_wf hreach
  have hw0 : wf { s with running := true } := wf_enter hw
  have hgeneral : ∀ s1 r tr, pa_rtpoll_run b H w fuel s = .ok (s1, r, tr) → waits tr ≠ [] →
      r = w.ret ∧ (waits tr).length = 1 ∧ s1.running = false ∧ s1.scan_for_dead = false ∧
        (∀ i ∈ s1.items, i.dead = false) ∧
        ∃ tr0 e tr3 p2 t, tr = tr0 ++ e :: tr3 ∧ is_wait e = true ∧ waits tr0 = [] ∧
          posts tr0 = [] ∧ run_after H (handles p2) p2 = .ok (t, tr3) ∧ waits tr3 = [] ∧
          s1.items = t.items.filter (fun i => !i.dead) := by
    intro s1 r tr hrun hwaits
    obtain ⟨_, _, t, hd, hf⟩ := run_ok_split hrun
    have hwt := wf_run_dispatch hw hd
    obtain ⟨s2, hf2, _, hitems, hrn, hsc, _⟩ := run_finish_spec hwt
    rw [hf] at hf2
    injection hf2 with hf2
    subst hf2
    obtain ⟨p1, tr1, a, hb, hcase⟩ := run_dispatch_split hd
    have hw1 := (wf_run_before hw0 hb).1
    have hp1 := run_before_pre_phase hw0 hb
    have hdead : ∀ i ∈ s1.items, i.dead = false := by
      intro i hi
      rw [hitems] at hi
      simpa using (List.mem_filter.1 hi).2
    rcases hcase with ⟨hd1, pr, tr2, _, _, hu, hr0, htr⟩ | ⟨hnone, tr2, hwp, htr⟩
    · exfalso
      apply hwaits
      rw [htr, waits_append, waits_of_pre_phase hp1,
        waits_of_post_phase (run_unwind_post_phase hw1 hu)]
      rfl
    · obtain ⟨q, tra, p2, trw, tr3, hq, hwt2, ha, htr2⟩ := run_wait_phase_split hwp
      have hwq : wf q := by
        rcases hq with ⟨_, hreb, _⟩ | ⟨_, hqe, _⟩
        · exact wf_rebuild hw1 hreb
        · rw [hqe]; exact hw1
      have hw2 := wf_run_wait hwq hwt2
      have hp3 := run_after_post_phase hw2 ha
      have htra : waits tra = [] ∧ posts tra = [] := by
        rcases hq with ⟨_, _, ht⟩ | ⟨_, _, ht⟩ <;> rw [ht] <;> exact ⟨rfl, rfl⟩
      obtain ⟨_, _, _, _, _, hres⟩ := run_wait_spec hwt2
      rcases hres with ⟨_, htw, _⟩ | ⟨_, ⟨e, htw, hie⟩, hr⟩
      · exfalso
        apply hwaits
        simp only [htr, htr2, htw, waits_append, waits_of_pre_phase hp1, htra.1,
          List.nil_append, waits_of_post_phase hp3]
      · have hrv : r = w.ret := by
          rw [hr]
          split
          · rfl
          · exact normalise_genuine hgen
        have hwe : waits [e] = [e] := by simp [waits, hie]
        refine ⟨hrv, ?_, hrn, hsc, hdead, tr1 ++ tra, e, tr3, p2, t, ?_, hie, ?_, ?_, ha,
          waits_of_post_phase hp3, hitems⟩
        · simp only [htr, htr2, htw, waits_append, waits_of_pre_phase hp1, htra.1,
            waits_of_post_phase hp3, hwe, List.nil_append, List.append_nil,
            List.length_singleton]
        · rw [htr, htr2, htw]
          simp
        · rw [waits_append, waits_of_pre_phase hp1, htra.1]
          rfl
        · rw [posts_append, posts_of_pre_phase hp1, htra.2]
          rfl
  refine ⟨hgeneral, ?_⟩
  intro hinst hidle hfit hq hnone hskip
  obtain ⟨s1, r, tr, hrun, hlen, _, hposts⟩ := @forward_quiet b H w fuel s hreach hinst hidle
    hfit hq hnone
  rw [hskip] at hlen
  simp only [Bool.false_eq_true, if_false] at hlen
  have hne : waits tr ≠ [] := by
    intro h0
    rw [h0] at hlen
    cases hlen
  obtain ⟨hr, _⟩ := hgeneral s1 r tr hrun hne
  subst hr
  exact ⟨s1, tr, hrun, hlen, hposts⟩

theorem silent_hooks_quiet (p : pa_rtpoll) : hooks_quiet silent_hooks p := by
  intro x _
  exact ⟨fun _ _ c hc => (by cases hc), fun _ _ c hc => (by cases hc)⟩

/-- Witness for C15: in the build without `ppoll` the wait of `abort_demo` fails with
`EBADF`; the iteration returns -1 after one wait call and the three post-wait hooks. -/
theorem genuine_wait_result_witness :
    ∃ s1 tr, pa_rtpoll_run plain_build silent_hooks ebadf_sys 0 abort_demo =
        .ok (s1, -1, tr) ∧ (waits tr).length = 1 ∧ posts tr = [(22, 2), (21, 1), (20, 0)] ∧
      s1.running = false ∧ s1.scan_for_dead = false := by
  have h := genuine_wait_result plain_build silent_hooks ebadf_sys 0 abort_demo
    abort_demo_reach (Or.inr (by decide))
  obtain ⟨s1, tr, hrun, hlen, hposts⟩ := h.2 rfl rfl (by decide)
    (silent_hooks_quiet _) (by decide) rfl
  have hne : waits tr ≠ [] := by
    intro h0
    rw [h0] at hlen
    cases hlen
  obtain ⟨_, _, h1, h2, _⟩ := h.1 s1 _ tr hrun hne
  exact ⟨s1, tr, hrun, hlen, hposts, h1, h2⟩

end Rtpoll
namespace Rtpoll

/-! ## C16: which hooks an aborted iteration invokes -/

theorem unpaired_demo_reach : Reach plain_build unpaired_demo :=
  @reach_calls plain_build unpaired_setup _ _
    (Reach.step _ _ (Reach.new none)
      (Step.install _ { pa_rtpoll_new plain_build none with installed := true } 0 rfl))
    rfl

/-- C16, counterexample to the pairing as stated. In `unpaired_demo` participant X, at the
head of the list, has a post-wait hook and no pre-wait hook, and the pre-wait hook of Y,
the next participant, refuses the wait. The iteration is aborted, the post-wait hook of X is
invoked in the unwinding, and no pre-wait hook of X was invoked. -/
theorem pairing_counterexample :
    Reach plain_build unpaired_demo ∧
    (∃ i, find_item unpaired_demo 1 = some i ∧ i.after_cb = some 21 ∧ i.before_cb = none) ∧
    (unpaired_hooks.before 10 0).2 < 0 ∧
    ∃ s1, pa_rtpoll_run plain_build unpaired_hooks timeout_sys 1 unpaired_demo =
        .ok (s1, 0, [Event.before_cb 10 0 true, Event.after_cb 21 1 true]) ∧
      (21, 1) ∈ posts [Event.before_cb 10 0 true, Event.after_cb 21 1 true] ∧
      ∀ cb, (cb, 1) ∉ pres [Event.before_cb 10 0 true, Event.after_cb 21 1 true] :=
  ⟨unpaired_demo_reach, ⟨_, rfl, rfl, rfl⟩, by decide, _, rfl, by decide,
    fun cb h => by simp [pres] at h⟩

end Rtpoll
namespace Rtpoll

theorem index_lt_of_mem_take {l : List pa_rtpoll_item}
    (hn : (l.map (fun i => i.id)).Nodup) {j k : Nat} {y z : pa_rtpoll_item}
    (hj : l[j]? = some y) (hz : z ∈ l.take k) (hid : z.id = y.id) : j < k := by
  by_contra hlt
  have hkj : k ≤ j := by omega
  have hy : y ∈ l.drop k := by
    have : (l.drop k)[j - k]? = some y := by
      rw [List.getElem?_drop]
      have : k + (j - k) = j := by omega
      rw [this]
      exact hj
    exact List.getElem?_mem this
  exact nodup_take_drop hn k hz hy hid

theorem mem_take_of_index {l : List pa_rtpoll_item} {j k : Nat} {y : pa_rtpoll_item}
    (hj : l[j]? = some y) (hlt : j < k) : y ∈ l.take k := by
  have : (l.take k)[j]? = some y := by
    rw [List.getElem?_take_of_lt hlt]
    exact hj
  exact List.getElem?_mem this

theorem pre_of_some {z : pa_rtpoll_item} {cb h : Nat} (hp : pre_of z = some (cb, h)) :
    z.dead = false ∧ z.before_cb = some cb ∧ z.id = h := by
  unfold pre_of at hp
  by_cases hd : z.dead = true
  · simp [hd] at hp
  · have hd0 : z.dead = false := by simpa using hd
    cases hb : z.before_cb with
    | none => simp [hd0, hb] at hp
    | some c =>
      simp only [hd0, hb, Bool.false_eq_true, if_false, Option.map_some', Option.some.injEq,
        Prod.mk.injEq] at hp
      exact ⟨hd0, by rw [hp.1], hp.2⟩

/-- C16, amended. In an iteration aborted by the pre-wait hook of the item at position `k`
(quiet hooks, reachable installed idle reactor, enough fuel), take a linked participant
`y`, at position `j`, that has a post-wait hook. Its post-wait hook is invoked if and only
if it precedes the aborting item (`j < k`). If it has a pre-wait hook as well, this is the
case if and only if that pre-wait hook was invoked and returned a value that is not
negative; if it has no pre-wait hook, none is invoked for it, whether or not its post-wait
hook is. -/
theorem pairing_on_abort (b : Build) (H : Hooks) (w : Sys) (fuel : Nat) (s : pa_rtpoll)
    (k j : Nat) (x y : pa_rtpoll_item) (ca : Nat) (hreach : Reach b s)
    (hinst : s.installed = true) (hidle : s.running = false)
    (hfit : 2 * slots s.items < UINT_MOD) (hq : hooks_quiet H s)
    (hk : s.items[k]? = some x) (hx : refuses H x = true)
    (hfirst : ∀ z ∈ s.items.take k, refuses H z = false) (hfuel : k ≤ fuel)
    (hj : s.items[j]? = some y) (hpost : y.after_cb = some ca) :
    ∃ s1 tr, pa_rtpoll_run b H w fuel s = .ok (s1, 0, tr) ∧
      ((ca, y.id) ∈ posts tr ↔ j < k) ∧
      (∀ cb, y.before_cb = some cb →
        (((cb, y.id) ∈ pres tr ∧ 0 ≤ (H.before cb y.id).2) ↔ (ca, y.id) ∈ posts tr)) ∧
      (y.before_cb = none → ∀ cb, (cb, y.id) ∉ pres tr) := by
  have hw := reach_wf hreach
  obtain ⟨s1, tr1, tr2, hrun, hp1, hp2, hpres, hposts, _⟩ := @abort_quiet b H w fuel s k x
    hreach hinst hidle hfit hq hk hx hfirst hfuel
  have hym : y ∈ s.items := List.getElem?_mem hj
  have hxm : x ∈ s.items := List.getElem?_mem hk
  have hyd : y.dead = false := by
    cases hd : y.dead with
    | false => rfl
    | true =>
      have h1 := hw.dead_scan y hym hd
      rw [hw.idle_scan hidle] at h1
      cases h1
  have hpo : posts (tr1 ++ tr2) = (s.items.take k).reverse.filterMap post_of := by
    rw [posts_append, posts_of_pre_phase hp1, hposts]
    rfl
  have hpr : pres (tr1 ++ tr2) = (s.items.take k ++ [x]).filterMap pre_of := by
    rw [pres_append, pres_of_post_phase hp2, hpres, List.append_nil]
  have hsame : ∀ z ∈ s.items, z.id = y.id → z = y := by
    intro z hz hid
    have h1 := find_item_mem_nodup hw.ids_nodup hz
    have h2 := find_item_mem_nodup hw.ids_nodup hym
    rw [hid, h2] at h1
    injection h1 with h1
    exact h1.symm
  have hpost_iff : (ca, y.id) ∈ posts (tr1 ++ tr2) ↔ j < k := by
    rw [hpo]
    constructor
    · intro hm
      obtain ⟨z, hz, hzy⟩ := mem_posts_filterMap hm
      exact index_lt_of_mem_take hw.ids_nodup hj (List.mem_reverse.1 hz) hzy
    · intro hlt
      refine List.mem_filterMap.2 ⟨y, List.mem_reverse.2 (mem_take_of_index hj hlt), ?_⟩
      simp [post_of, hyd, hpost]
  refine ⟨s1, tr1 ++ tr2, hrun, hpost_iff, ?_, ?_⟩
  · intro cb hcb
    rw [hpost_iff, hpr]
    have hpy : pre_of y = some (cb, y.id) := by simp [pre_of, hyd, hcb]
    constructor
    · rintro ⟨hm, hret⟩
      obtain ⟨z, hz, hpz⟩ := List.mem_filterMap.1 hm
      obtain ⟨_, hzb, hzid⟩ := pre_of_some hpz
      rcases List.mem_append.1 hz with hz | hz
      · exact index_lt_of_mem_take hw.ids_nodup hj hz hzid
      · exfalso
        have hzx : z = x := List.mem_singleton.1 hz
        subst hzx
        obtain ⟨cb1, _, hb1, _, hneg⟩ := refuses_spec hx
        rw [hzb] at hb1
        injection hb1 with hb1
        subst hb1
        rw [hzid] at hneg
        omega
    · intro hlt
      have hyt := mem_take_of_index hj hlt
      refine ⟨List.mem_filterMap.2 ⟨y, List.mem_append_left _ hyt, hpy⟩, ?_⟩
      have hnr := hfirst y hyt
      simp only [refuses, hpy, decide_eq_false_iff_not] at hnr
      omega
  · intro hnb cb hm
    rw [hpr] at hm
    obtain ⟨z, hz, hpz⟩ := List.mem_filterMap.1 hm
    obtain ⟨_, hzb, hzid⟩ := pre_of_some hpz
    have hzm : z ∈ s.items := by
      rcases List.mem_append.1 hz with hz | hz
      · exact List.mem_of_mem_take hz
      · rw [List.mem_singleton.1 hz]; exact hxm
    rw [hsame z hzm hzid, hnb] at hzb
    cases hzb

/-- Witness for C16: in `abort_demo` the pre-wait hook of participant 1 (position 1)
refuses the wait; participant 2 (position 0) has both hooks, its pre-wait hook returned 0
and its post-wait hook is invoked. -/
theorem pairing_on_abort_witness :
    ∃ s1 tr, pa_rtpoll_run plain_build abort_hooks timeout_sys 1 abort_demo = .ok (s1, 0, tr) ∧
      (22, 2) ∈ posts tr ∧ (12, 2) ∈ pres tr ∧ 0 ≤ (abort_hooks.before 12 2).2 := by
  obtain ⟨s1, tr, hrun, h1, h2, _⟩ :=
    pairing_on_abort plain_build abort_hooks timeout_sys 1 abort_demo 1 0
      { id := 1, dead := false, pollfd := none, n_pollfd := 2, before_cb := some 11,
        after_cb := some 21, userdata := none }
      { id := 2, dead := false, pollfd := none, n_pollfd := 1, before_cb := some 12,
        after_cb := some 22, userdata := none }
      22 abort_demo_reach rfl rfl (by decide) abort_hooks_quiet rfl (by decide)
      (by decide) (by decide) rfl rfl
  have hp : (22, 2) ∈ posts tr := h1.2 (by decide)
  obtain ⟨h3, h4⟩ := (h2 12 rfl).2 hp
  exact ⟨s1, tr, hrun, hp, h3, h4⟩

end Rtpoll
namespace Rtpoll

/-! ## C11: no hook of an item is invoked once the item is marked dead -/

theorem respects_append (t1 : List Event) : ∀ (D : List Nat) (t2 : List Event),
    respects D (t1 ++ t2) = (respects D t1 && respects (t1.foldl step_freed D) t2) := by
  induction t1 with
  | nil => intro D t2; simp [respects]
  | cons e t1 ih =>
    intro D t2
    rw [List.cons_append]
    simp only [respects, List.foldl_cons, ih, Bool.and_assoc]

theorem mem_step_freed {D : List Nat} {h : Nat} (e : Event) (hm : h ∈ D) :
    h ∈ step_freed D e := by
  unfold step_freed
  split
  · exact List.mem_cons_of_mem _ hm
  · exact hm

theorem respects_mem {h : Nat} (tr : List Event) : ∀ D : List Nat, respects D tr = true →
    h ∈ D → ∀ e ∈ tr, hook_item e ≠ some h := by
  induction tr with
  | nil => intro D _ _ e he; cases he
  | cons x tr ih =>
    intro D hr hm e he
    simp only [respects, Bool.and_eq_true] at hr
    rcases List.mem_cons.1 he with rfl | he
    · intro hh
      rw [hh] at hr
      simp only [decide_eq_true_eq] at hr
      exact hr.1 hm
    · exact ih _ hr.2 (mem_step_freed x hm) e he

theorem dead_in_iff {l : List pa_rtpoll_item} {h : Nat} :
    dead_in l h = true ↔ ∃ x ∈ l, x.id = h ∧ x.dead = true := by
  unfold dead_in
  simp [List.any_eq_true]

theorem dead_in_update {l : List pa_rtpoll_item} {h i : Nat}
    {f : pa_rtpoll_item → pa_rtpoll_item} (hid : ∀ x, (f x).id = x.id)
    (hdead : ∀ x, x.dead = true → (f x).dead = true) (hd : dead_in l h = true) :
    dead_in (update_item i f l) h = true := by
  obtain ⟨x, hx, hxi, hxd⟩ := dead_in_iff.1 hd
  refine dead_in_iff.2 ⟨if x.id = i then f x else x, ?_, ?_, ?_⟩
  · unfold update_item
    exact List.mem_map.2 ⟨x, hx, rfl⟩
  · split
    · rw [hid]; exact hxi
    · exact hxi
  · split
    · exact hdead x hxd
    · exact hxd

theorem dead_in_of_skel {l l1 : List pa_rtpoll_item} (hs : skel l1 = skel l) (h : Nat) :
    dead_in l1 h = dead_in l h := by
  have key : ∀ l : List pa_rtpoll_item,
      dead_in l h = (skel l).any (fun c => c.1 == h && c.2.1) := by
    intro l
    unfold dead_in skel
    induction l with
    | nil => rfl
    | cons x l ih => simp only [List.any_cons, List.map_cons, ih, core]
  rw [key, key, hs]

theorem not_dead_in_of_find {p : pa_rtpoll} (hn : (handles p).Nodup) {h : Nat}
    {i : pa_rtpoll_item} (hf : find_item p h = some i) (hd : i.dead = false) :
    dead_in p.items h = false := by
  cases hc : dead_in p.items h with
  | false => rfl
  | true =>
    obtain ⟨x, hx, hxi, hxd⟩ := dead_in_iff.1 hc
    have h1 := find_item_mem_nodup hn hx
    rw [hxi, hf] at h1
    injection h1 with h1
    rw [h1, hxd] at hd
    cases hd

theorem maybe_rebuild_skel {p p1 : pa_rtpoll} (hw : wf p)
    (h : (if p.rebuild_needed then rtpoll_rebuild p else .ok p) = .ok p1) :
    skel p1.items = skel p.items := by
  split at h
  · exact rebuilt_skel (rebuild_spec hw h).1
  · injection h with h
    subst h
    rfl

end Rtpoll
namespace Rtpoll

/-- While the reactor is running a call clears no `dead` flag and unlinks no item, and
`pa_rtpoll_item_free` sets the flag of its argument. -/
theorem exec_call_dead {p p1 : pa_rtpoll} {c : Call} (hw : wf p) (hrun : p.running = true)
    (h : exec_call p c = .ok p1) :
    (∀ k, dead_in p.items k = true → dead_in p1.items k = true) ∧
      (∀ k, c = Call.item_free k → dead_in p1.items k = true) := by
  cases c with
  | item_new n =>
    simp only [exec_call] at h
    cases hn : pa_rtpoll_item_new p n with
    | error err => simp [hn] at h
    | ok r =>
      obtain ⟨p2, hd⟩ := r
      simp only [hn] at h
      injection h with h
      subst h
      unfold pa_rtpoll_item_new at hn
      split at hn
      · cases hn
      · injection hn with hn
        injection hn with hn _
        subst hn
        refine ⟨fun k hk => ?_, fun k hc => by cases hc⟩
        simp only [dead_in, List.any_cons] at hk ⊢
        rw [hk]
        simp
  | item_free i =>
    simp only [exec_call, pa_rtpoll_item_free] at h
    cases hf : find_item p i with
    | none => simp [hf] at h
    | some x =>
      simp only [hf] at h
      rw [if_pos hrun] at h
      injection h with h
      subst h
      refine ⟨fun k hk => dead_in_update (fun _ => rfl) (fun _ _ => rfl) hk, fun k hc => ?_⟩
      injection hc with hc
      subst hc
      obtain ⟨hxm, hxi⟩ := find_item_some hf
      refine dead_in_iff.2 ⟨{ x with dead := true }, ?_, hxi, rfl⟩
      unfold update_item
      exact List.mem_map.2 ⟨x, hxm, by simp [hxi]⟩
  | item_get_pollfd i =>
    simp only [exec_call] at h
    cases hn : pa_rtpoll_item_get_pollfd p i with
    | error err => simp [hn] at h
    | ok r =>
      obtain ⟨p2, ptr, n⟩ := r
      simp only [hn] at h
      injection h with h
      subst h
      obtain ⟨_, _, _, hmr, _⟩ := get_pollfd_split hn
      refine ⟨fun k hk => ?_, fun k hc => by cases hc⟩
      rw [dead_in_of_skel (maybe_rebuild_skel hw hmr)]
      exact hk
  | store i k v =>
    simp only [exec_call, store_slot] at h
    cases hg : pa_rtpoll_item_get_pollfd p i with
    | error err => simp [hg] at h
    | ok r =>
      obtain ⟨p2, ptr, n⟩ := r
      simp only [hg] at h
      cases ptr with
      | none => simp at h
      | some off =>
        simp only at h
        split at h
        · injection h with h
          subst h
          obtain ⟨_, _, _, hmr, _⟩ := get_pollfd_split hg
          refine ⟨fun k hk => ?_, fun k hc => by cases hc⟩
          show dead_in p2.items k = true
          rw [dead_in_of_skel (maybe_rebuild_skel hw hmr)]
          exact hk
        · cases h
  | item_set_before_callback i cb =>
    simp only [exec_call, pa_rtpoll_item_set_before_callback] at h
    split at h
    · cases h
    · injection h with h
      subst h
      exact ⟨fun k hk => dead_in_update (fun _ => rfl) (fun _ hx => hx) hk,
        fun k hc => by cases hc⟩
  | item_set_after_callback i cb =>
    simp only [exec_call, pa_rtpoll_item_set_after_callback] at h
    split at h
    · cases h
    · injection h with h
      subst h
      exact ⟨fun k hk => dead_in_update (fun _ => rfl) (fun _ hx => hx) hk,
        fun k hc => by cases hc⟩
  | item_set_userdata i u =>
    simp only [exec_call, pa_rtpoll_item_set_userdata] at h
    split at h
    · cases h
    · injection h with h
      subst h
      exact ⟨fun k hk => dead_in_update (fun _ => rfl) (fun _ hx => hx) hk,
        fun k hc => by cases hc⟩
  | set_itimer usec =>
    simp only [exec_call] at h
    injection h with h
    subst h
    exact ⟨fun k hk => hk, fun k hc => by cases hc⟩

end Rtpoll
namespace Rtpoll

theorem keeps_dead_nil (p : pa_rtpoll) : keeps_dead p [] p :=
  fun hr => ⟨hr, fun _ hD => ⟨rfl, hD⟩⟩

theorem keeps_dead_comp (p q r : pa_rtpoll) (t1 t2 : List Event) (h1 : keeps_dead p t1 q)
    (h2 : keeps_dead q t2 r) : keeps_dead p (t1 ++ t2) r := by
  intro hr
  obtain ⟨hq, k1⟩ := h1 hr
  obtain ⟨hr2, k2⟩ := h2 hq
  refine ⟨hr2, fun D hD => ?_⟩
  obtain ⟨a1, b1⟩ := k1 D hD
  obtain ⟨a2, b2⟩ := k2 _ b1
  rw [respects_append, a1, a2, List.foldl_append]
  exact ⟨rfl, b2⟩

theorem keeps_dead_call (p p1 : pa_rtpoll) (c : Call) (hw : wf p)
    (h : exec_call p c = .ok p1) : keeps_dead p [Event.call c] p1 := by
  intro hr
  obtain ⟨hk, hfree⟩ := exec_call_dead hw hr h
  refine ⟨by rw [(exec_call_ctl hw h).1]; exact hr, fun D hD => ⟨rfl, ?_⟩⟩
  intro k hm
  simp only [List.foldl_cons, List.foldl_nil] at hm
  unfold step_freed at hm
  split at hm
  · rename_i i heq
    injection heq with heq
    rcases List.mem_cons.1 hm with rfl | hm
    · exact hfree _ heq
    · exact hk k (hD k hm)
  · exact hk k (hD k hm)

theorem keeps_dead_hook (p : pa_rtpoll) (h : Nat) (i : pa_rtpoll_item) (e : Event) (hw : wf p)
    (hf : find_item p h = some i) (hd : i.dead = false) (he : hook_item e = some h)
    (hs : ∀ D, step_freed D e = D) : keeps_dead p [e] p := by
  intro hr
  refine ⟨hr, fun D hD => ⟨?_, ?_⟩⟩
  · simp only [respects, he, hs, Bool.and_true, decide_eq_true_eq]
    intro hm
    have h1 := hD h hm
    rw [not_dead_in_of_find hw.ids_nodup hf hd] at h1
    cases h1
  · intro k hm
    simp only [List.foldl_cons, List.foldl_nil, hs] at hm
    exact hD k hm

theorem keeps_dead_same (p q : pa_rtpoll) (tr : List Event) (hrun : q.running = p.running)
    (hs : skel q.items = skel p.items) (hn : ∀ e ∈ tr, hook_item e = none)
    (hfr : ∀ e ∈ tr, ∀ D, step_freed D e = D) : keeps_dead p tr q := by
  intro hr
  refine ⟨by rw [hrun]; exact hr, fun D hD => ?_⟩
  have key : ∀ (t : List Event), (∀ e ∈ t, hook_item e = none) →
      (∀ e ∈ t, ∀ D, step_freed D e = D) → respects D t = true ∧ t.foldl step_freed D = D := by
    intro t
    induction t with
    | nil => intro _ _; exact ⟨rfl, rfl⟩
    | cons e t ih =>
      intro h1 h2
      obtain ⟨a, b⟩ := ih (fun x hx => h1 x (List.mem_cons_of_mem _ hx))
        (fun x hx => h2 x (List.mem_cons_of_mem _ hx))
      simp only [respects, h1 e (List.mem_cons_self _ _), h2 e (List.mem_cons_self _ _) D,
        a, List.foldl_cons, b, Bool.and_self, and_self]
  obtain ⟨a, b⟩ := key tr hn hfr
  refine ⟨a, fun k hm => ?_⟩
  rw [b] at hm
  rw [dead_in_of_skel hs]
  exact hD k hm

theorem keeps_dead_before {H : Hooks} {todo : List Nat} {p p1 : pa_rtpoll} {tr : List Event}
    {a : Option Nat} (hw : wf p) (h : run_before H todo p = .ok (p1, tr, a)) :
    keeps_dead p tr p1 :=
  run_before_trace keeps_dead keeps_dead_nil keeps_dead_comp keeps_dead_call
    (fun p h i _ hw hf hd _ => keeps_dead_hook p h i _ hw hf hd rfl (fun _ => rfl)) hw h

theorem keeps_dead_after {H : Hooks} {todo : List Nat} {p p1 : pa_rtpoll} {tr : List Event}
    (hw : wf p) (h : run_after H todo p = .ok (p1, tr)) : keeps_dead p tr p1 :=
  run_after_trace keeps_dead keeps_dead_nil keeps_dead_comp keeps_dead_call
    (fun p h i _ hw hf hd _ => keeps_dead_hook p h i _ hw hf hd rfl (fun _ => rfl)) hw h

theorem keeps_dead_unwind {H : Hooks} {fuel : Nat} {cur : Option Nat} {p p1 : pa_rtpoll}
    {tr : List Event} (hw : wf p) (h : run_unwind H fuel cur p = .ok (p1, tr)) :
    keeps_dead p tr p1 :=
  run_unwind_trace keeps_dead keeps_dead_nil keeps_dead_comp keeps_dead_call
    (fun p h i _ hw hf hd _ => keeps_dead_hook p h i _ hw hf hd rfl (fun _ => rfl)) hw h

theorem keeps_dead_wait_phase {b : Build} {H : Hooks} {w : Sys} {p t : pa_rtpoll} {r : Int}
    {tr : List Event} (hw : wf p) (h : run_wait_phase b H w p = .ok (t, r, tr)) :
    keeps_dead p tr t := by
  obtain ⟨q, tra, p2, trw, tr3, hq, hwt, ha, htr⟩ := run_wait_phase_split h
  have hwq : wf q := by
    rcases hq with ⟨_, hreb, _⟩ | ⟨_, hqe, _⟩
    · exact wf_rebuild hw hreb
    · rw [hqe]; exact hw
  have hw2 := wf_run_wait hwq hwt
  have h1 : keeps_dead p tra q := by
    rcases hq with ⟨_, hreb, ht⟩ | ⟨_, hqe, ht⟩
    · obtain ⟨hrb, _, _, _, _, _, _, hrun, _⟩ := rebuild_spec hw hreb
      rw [ht]
      refine keeps_dead_same p q _ hrun (rebuilt_skel hrb) ?_ ?_
      · intro e he; rw [List.mem_singleton.1 he]; rfl
      · intro e he D; rw [List.mem_singleton.1 he]; rfl
    · rw [ht, hqe]
      exact keeps_dead_nil p
  have h2 : keeps_dead q trw p2 := by
    obtain ⟨hitems, hctl, _⟩ := run_wait_spec hwt
    refine keeps_dead_same q p2 _ hctl.1 (by rw [hitems]) ?_ ?_
    · intro e he
      have := run_wait_events hwt e he
      cases e <;> simp [is_wait] at this <;> rfl
    · intro e he D
      have := run_wait_events hwt e he
      cases e <;> simp [is_wait] at this <;> rfl
  rw [htr]
  exact keeps_dead_comp _ _ _ _ _ h1 (keeps_dead_comp _ _ _ _ _ h2 (keeps_dead_after hw2 ha))

theorem keeps_dead_dispatch {b : Build} {H : Hooks} {w : Sys} {fuel : Nat} {p t : pa_rtpoll}
    {r : Int} {tr : List Event} (hw : wf p) (h : run_dispatch b H w fuel p = .ok (t, r, tr)) :
    keeps_dead { p with running := true } tr t := by
  have hw0 : wf { p with running := true } := wf_enter hw
  obtain ⟨p1, tr1, a, hb, hcase⟩ := run_dispatch_split h
  have hw1 := (wf_run_before hw0 hb).1
  have k1 := keeps_dead_before hw0 hb
  rcases hcase with ⟨_, _, tr2, _, _, hu, _, htr⟩ | ⟨_, tr2, hwp, htr⟩
  · rw [htr]
    exact keeps_dead_comp _ _ _ _ _ k1 (keeps_dead_unwind hw1 hu)
  · rw [htr]
    exact keeps_dead_comp _ _ _ _ _ k1 (keeps_dead_wait_phase hw1 hwp)

/-- C11. A dead participant is excluded from hook dispatch. For a reachable reactor and
arbitrary hooks, if an iteration of `pa_rtpoll_run` returns with the events `tr` and a hook
called `pa_rtpoll_item_free` on the item `h` at some point of `tr`, then none of the events
after that point invokes the pre-wait hook or the post-wait hook of `h`: not in the rest of
the pre-wait dispatch, not in the unwinding, not in the post-wait dispatch. -/
theorem dead_excluded (b : Build) (H : Hooks) (w : Sys) (fuel : Nat) (s s1 : pa_rtpoll)
    (r : Int) (tr tr1 tr2 : List Event) (h : Nat) (hreach : Reach b s)
    (hrun : pa_rtpoll_run b H w fuel s = .ok (s1, r, tr))
    (hsplit : tr = tr1 ++ Event.call (Call.item_free h) :: tr2) :
    ∀ cb rn, Event.before_cb cb h rn ∉ tr2 ∧ Event.after_cb cb h rn ∉ tr2 := by
  have hw := reach_wf hreach
  obtain ⟨_, _, t, hd, _⟩ := run_ok_split hrun
  obtain ⟨_, hk⟩ := keeps_dead_dispatch hw hd rfl
  obtain ⟨hres, _⟩ := hk [] (fun _ hm => by cases hm)
  rw [hsplit, respects_append] at hres
  simp only [respects, hook_item, step_freed, Bool.and_eq_true, Bool.true_and] at hres
  have key := respects_mem tr2 _ hres.2 (List.mem_cons_self h _)
  intro cb rn
  exact ⟨fun hm => key _ hm rfl, fun hm => key _ hm rfl⟩

/-- Witness for C11: in `pair_demo` the pre-wait hook of B destroys A, which comes after B
in the list and has the hooks 10 and 20; none of them is invoked in the rest of the
iteration, which makes the wait and the post-wait dispatch. -/
theorem dead_excluded_witness :
    pa_rtpoll_run linux_build free_hooks timeout_sys 0 pair_demo =
        .ok (swept_demo, 0, swept_trace) ∧
      swept_trace = [Event.before_cb 11 1 true] ++ Event.call (Call.item_free 0) ::
        [Event.call (Call.store 1 0 ⟨6, 1, 0⟩), Event.ppoll 3 none true,
          Event.after_cb 21 1 true] ∧
      ∀ cb rn,
        Event.before_cb cb 0 rn ∉ [Event.call (Call.store 1 0 ⟨6, 1, 0⟩),
          Event.ppoll 3 none true, Event.after_cb 21 1 true] ∧
        Event.after_cb cb 0 rn ∉ [Event.call (Call.store 1 0 ⟨6, 1, 0⟩),
          Event.ppoll 3 none true, Event.after_cb 21 1 true] :=
  ⟨swept_demo_run, rfl,
    dead_excluded linux_build free_hooks timeout_sys 0 pair_demo swept_demo 0 swept_trace
      [Event.before_cb 11 1 true]
      [Event.call (Call.store 1 0 ⟨6, 1, 0⟩), Event.ppoll 3 none true,
        Event.after_cb 21 1 true] 0 pair_demo_reach swept_demo_run rfl⟩

end Rtpoll
